import Mathlib

/-!
# metalib: slice planning, windowed reads, directory materialization, manifest and extraction

A shallow embedding of `module/ipfs/gencar.go` and the properties of it that the
specification states.

Conventions of the embedding

* Go `int64` and `int` values are `Int`; counters that start at 0 and are only
  incremented are `Nat`.  Integer division is Go's truncating division
  (`Int.tdiv`).  The planner is given twice.  `doGenerateCar64`, with
  `GetGraphCount64`, `planFiles64`, `planFile64` and `carveRun64`, reduces every
  sum and difference to `int64` as Go does (`wrap64`) and is the planner of the
  code for all `int64` inputs.  `doGenerateCar`, with `GetGraphCount`,
  `planFiles`, `planFile` and `carveLoop`, computes in exact arithmetic; the two
  return the same calls when the total size of the files plus the slice size is
  below `2^63` (`doGenerateCar64_eq`), and a statement about the exact planner is
  a statement about the code on such inputs only.
* Go strings are `String`; byte slices are `List UInt8`.  Slicing a string by the
  length of one of its prefixes drops that prefix.
* A function with side effects returns the sequence of effects it performs:
  `doGenerateCar` returns the list of `BuildIpldGraph` calls it makes, in order.
* A Go loop whose trip count is not bounded by its input is given a step budget
  (`fuel`) and returns `none` when the budget is exhausted before the loop ends;
  `doGenerateCar64` returns the calls made up to that point instead, marked as
  still running.
* The file enumeration (`util.GetFileList`, `util.GetFileListAsync`) is the
  argument `files`: the descriptors in enumeration order.  The file contents are a
  function `disk` from path to bytes; the file nodes built by the workers are a
  function `fileNodeMap` from path to node identifier.
* Library code is embedded after its documented behaviour: `path.Clean`,
  `path.Dir`, `strings.Split`, `strings.HasPrefix`, `(*os.File).Read` and `Seek`,
  and the link operations of `merkledag.ProtoNode`.  A content identifier is
  modelled as the content it commits to.  The links of a `ProtoNode` are kept in
  the order in which `Links()` and the encoded node list them, ascending by name:
  the encoder sorts the link slice of the node in place.
* The manifest is the content of `manifest.csv`, `none` while the file is missing.
  The file system seen by extraction is a map from path strings to what the path
  holds; a system call fails only for the reasons stated with its definition.
* A nil Go slice is `none`, a slice (empty or not) is `some` of its elements.
-/

namespace Metalib

/-! ## Data model -/

/-- The part of `os.FileInfo` the planner reads: `Name()` and `Size()`. -/
structure FileInfo where
  name : String
  size : Int
  deriving DecidableEq, Repr

/-- The record `util.Finfo`: a file descriptor, with an optional byte window. -/
structure Finfo where
  Path : String
  Name : String
  Uuid : String
  Info : FileInfo
  SeekStart : Int
  SeekEnd : Int
  deriving DecidableEq, Repr

/-- Go `fmt.Sprintf("%08d", n)` for a non-negative `n`: decimal digits, padded on
the left with zeros to width 8. -/
def pad8 (n : Nat) : String :=
  String.mk (List.replicate (8 - (toString n).length) '0') ++ toString n

/-- An element of `graphFiles`, tagged with the way `doGenerateCar` built it:
`whole item` is the enumerated descriptor appended as it is (lines 71 and 74),
`window item c s e` is the struct literal of lines 93-99 and 118-124, built from
`item` with `fileSliceCount = c`, `SeekStart = s` and `SeekEnd = e`. -/
inductive Entry where
  | whole (item : Finfo)
  | window (item : Finfo) (fileSliceCount : Nat) (seekStart seekEnd : Int)
  deriving DecidableEq, Repr

/-- The `util.Finfo` value an entry stands for.  The struct literal of a window
sets `Path`, `Name`, `Info`, `SeekStart` and `SeekEnd`; `Uuid` keeps its zero
value. -/
def Entry.toFinfo : Entry → Finfo
  | .whole item => item
  | .window item c s e =>
    { Path := item.Path
      Name := item.Info.name ++ "." ++ pad8 c
      Uuid := ""
      Info := item.Info
      SeekStart := s
      SeekEnd := e }

/-- Whether the entry was built with explicit `SeekStart`/`SeekEnd`. -/
def Entry.isWindow : Entry → Bool
  | .whole _ => false
  | .window _ _ _ _ => true

/-- Bytes an entry stands for: a whole-file entry counts its file size, a windowed
entry counts `SeekEnd - SeekStart + 1`. -/
def Entry.bytes : Entry → Int
  | .whole item => item.Info.size
  | .window _ _ s e => e - s + 1

/-- Byte sum of a file list. -/
def sliceBytes (es : List Entry) : Int :=
  (es.map Entry.bytes).sum

/-! ## Slice naming and counting -/

/-- `GenGraphName` (lines 235-240). -/
def GenGraphName (graphName : String) (sliceCount sliceTotal : Int) : String :=
  if sliceTotal = 1 then
    graphName ++ ".car"
  else
    graphName ++ "-total-" ++ toString sliceTotal ++ "-part-" ++ toString (sliceCount + 1) ++ ".car"

/-- `GetGraphCount` (lines 242-260), on the sizes that `os.Stat` reports for the
enumerated files, in exact arithmetic (`GetGraphCount64` is the `int64`
version). -/
def GetGraphCount (sizes : List Int) (sliceSize : Int) : Int :=
  let totalSize := sizes.foldl (fun acc s => acc + s) 0
  if totalSize = 0 then
    0
  else
    Int.tdiv totalSize sliceSize + 1

/-! ## The slice planner `doGenerateCar` -/

/-- One call `BuildIpldGraph(graphFiles, GenGraphName(...), parentPath, carDir, parallel)`:
the file list handed over and the graph name. -/
structure BuildCall where
  graphFiles : List Entry
  graphName : String
  deriving DecidableEq, Repr

/-- The `[]util.Finfo` argument of the call. -/
def BuildCall.fileList (c : BuildCall) : List Finfo :=
  c.graphFiles.map Entry.toFinfo

/-- The local variables of `doGenerateCar` that live across loop iterations,
together with the calls to `BuildIpldGraph` made so far. -/
structure PlanState where
  cumuSize : Int
  graphSliceCount : Nat
  graphFiles : List Entry
  calls : List BuildCall
  deriving DecidableEq, Repr

/-- The block "build ipld from graphFiles" (lines 76-82, 102-108, 128-134): call
`BuildIpldGraph` on the current file list, then reset `cumuSize` and
`graphFiles` and increment `graphSliceCount`. -/
def PlanState.build (st : PlanState) (graphName : String) (sliceTotal : Int) : PlanState :=
  { cumuSize := 0
    graphSliceCount := st.graphSliceCount + 1
    graphFiles := []
    calls := st.calls ++ [⟨st.graphFiles, GenGraphName graphName st.graphSliceCount sliceTotal⟩] }

/-- The loop `for seekEnd < fileSize-1` (lines 109-136) that carves the following
windows of `item`, in exact arithmetic (`carveLoop64` and `carveRun64` are the
`int64` versions). -/
def carveLoop (sliceSize : Int) (graphName : String) (sliceTotal : Int) (item : Finfo)
    (fileSize : Int) : Nat → Int → Nat → PlanState → Option PlanState
  | 0, seekEnd, _, st => if seekEnd < fileSize - 1 then none else some st
  | fuel + 1, seekEnd, fileSliceCount, st =>
    if seekEnd < fileSize - 1 then
      let seekStart := seekEnd + 1
      let seekEnd1 := seekStart + sliceSize - 1
      let seekEnd2 := if seekEnd1 ≥ fileSize - 1 then fileSize - 1 else seekEnd1
      let st1 : PlanState :=
        { st with
          cumuSize := st.cumuSize + (seekEnd2 - seekStart + 1)
          graphFiles := st.graphFiles ++ [Entry.window item fileSliceCount seekStart seekEnd2] }
      let st2 :=
        if seekEnd2 - seekStart = sliceSize - 1 then st1.build graphName sliceTotal else st1
      carveLoop sliceSize graphName sliceTotal item fileSize fuel seekEnd2 (fileSliceCount + 1) st2
    else
      some st

/-- The body of `for item := range files` (lines 67-138), in exact arithmetic
(`planFile64` is the `int64` version). -/
def planFile (fuel : Nat) (sliceSize : Int) (graphName : String) (sliceTotal : Int)
    (st : PlanState) (item : Finfo) : Option PlanState :=
  let fileSize := item.Info.size
  if st.cumuSize + fileSize < sliceSize then
    some { st with cumuSize := st.cumuSize + fileSize, graphFiles := st.graphFiles ++ [Entry.whole item] }
  else if st.cumuSize + fileSize = sliceSize then
    let st1 : PlanState :=
      { st with cumuSize := st.cumuSize + fileSize, graphFiles := st.graphFiles ++ [Entry.whole item] }
    some (st1.build graphName sliceTotal)
  else if st.cumuSize + fileSize > sliceSize then
    let fileSliceCount := 0
    let firstCut := sliceSize - st.cumuSize
    let seekStart : Int := 0
    let seekEnd : Int := seekStart + firstCut - 1
    let st1 : PlanState :=
      { st with graphFiles := st.graphFiles ++ [Entry.window item fileSliceCount seekStart seekEnd] }
    let st2 := st1.build graphName sliceTotal
    carveLoop sliceSize graphName sliceTotal item fileSize fuel seekEnd (fileSliceCount + 1) st2
  else
    some st

/-- The loop `for item := range files` (lines 66-139), in exact arithmetic
(`planFiles64` is the `int64` version). -/
def planFiles (fuel : Nat) (sliceSize : Int) (graphName : String) (sliceTotal : Int) :
    List Finfo → PlanState → Option PlanState
  | [], st => some st
  | item :: rest, st =>
    match planFile fuel sliceSize graphName sliceTotal st item with
    | none => none
    | some st1 => planFiles fuel sliceSize graphName sliceTotal rest st1

/-- What `doGenerateCar` returns and does: either the error it returns, or (return
value `nil`) the calls to `BuildIpldGraph` it made, in order. -/
inductive Outcome where
  | error (msg : String)
  | done (calls : List BuildCall)
  deriving DecidableEq, Repr

/-- `doGenerateCar` (lines 45-148).  `files` is the enumeration of `targetPath`;
`fuel` bounds the trip count of each window-carving loop.  The arguments
`parentPath` and `carDir` are only passed on to `BuildIpldGraph` and are left
out.  Sums and differences are exact; `doGenerateCar64` is the `int64` version,
and the two agree while the total size plus the slice size is below `2^63`. -/
def doGenerateCar (fuel : Nat) (sliceSize : Int) (graphName : String) (parallel : Int)
    (files : List Finfo) : Option Outcome :=
  let st0 : PlanState := { cumuSize := 0, graphSliceCount := 0, graphFiles := [], calls := [] }
  if sliceSize = 0 then
    some (.error "Unexpected! Slice size has been set as 0")
  else if parallel ≤ 0 then
    some (.error "Unexpected! Parallel has to be greater than 0")
  else
    let sliceTotal := GetGraphCount (files.map (fun f => f.Info.size)) sliceSize
    if sliceTotal = 0 then
      some (.done [])
    else
      match planFiles fuel sliceSize graphName sliceTotal files st0 with
      | none => none
      | some st =>
        if st.cumuSize > 0 then
          some (.done (st.build graphName sliceTotal).calls)
        else
          some (.done st.calls)

/-- A descriptor as the enumerator yields it: no window set. -/
def mkFile (path name : String) (size : Int) : Finfo :=
  { Path := path, Name := name, Uuid := "", Info := ⟨name, size⟩, SeekStart := 0, SeekEnd := 0 }


/-! ## Planner invariants -/

/-- Every entry handed over or pending, in order. -/
def PlanState.flat (st : PlanState) : List Entry :=
  st.calls.flatMap (fun c => c.graphFiles) ++ st.graphFiles

/-- The windows `ws` are built from `item`, numbered `c, c+1, ...`, each within
the file, each starting right after the previous one, the first at byte `s` and
the last ending at the last byte of the file. -/
def IsChain (item : Finfo) : Nat → Int → List Entry → Prop
  | _, s, [] => s = item.Info.size
  | c, s, e :: es =>
    ∃ t, e = Entry.window item c s t ∧ s ≤ t ∧ t ≤ item.Info.size - 1 ∧ IsChain item (c + 1) (t + 1) es

/-- The entries an enumerated file turns into: the file itself, or a chain of
adjacent windows from byte 0 to the last byte. -/
def Pieces (item : Finfo) (ps : List Entry) : Prop :=
  ps = [Entry.whole item] ∨ (ps ≠ [] ∧ IsChain item 0 0 ps)

/-- Invariant of the planner state between two files. -/
structure PlanOK (sliceSize : Int) (graphName : String) (sliceTotal : Int) (st : PlanState) :
    Prop where
  cumu_nonneg : 0 ≤ st.cumuSize
  cumu_lt : st.cumuSize < sliceSize
  cumu_eq : sliceBytes st.graphFiles = st.cumuSize
  full : ∀ c ∈ st.calls, sliceBytes c.graphFiles = sliceSize
  count : st.calls.length = st.graphSliceCount
  names : ∀ k (h : k < st.calls.length),
    (st.calls.get ⟨k, h⟩).graphName = GenGraphName graphName k sliceTotal

/-- Bytes an entry contributes to its slice, `disk` giving the content of the file
at each path: a whole-file entry contributes all bytes of its file, a windowed
entry the bytes `SeekStart..SeekEnd` inclusive. -/
def Entry.content (disk : String → List UInt8) : Entry → List UInt8
  | .whole item => disk item.Path
  | .window item _ s e => ((disk item.Path).drop s.toNat).take (e - s + 1).toNat

/-- The calls to `BuildIpldGraph` of an outcome; none when an error is returned at
validation. -/
def Outcome.calls : Outcome → List BuildCall
  | .error _ => []
  | .done calls => calls

/-- An entry is built from `item` and is either the file itself or a window
`SeekStart..SeekEnd` that lies within the file. -/
def Entry.WellFormedFor (item : Finfo) (e : Entry) : Prop :=
  e = Entry.whole item ∨
    ∃ k s t, e = Entry.window item k s t ∧ 0 ≤ s ∧ s ≤ t ∧ t ≤ item.Info.size - 1

/-- Sample enumeration: a 9-byte file, a 25-byte file and an empty file. -/
def sampleFiles : List Finfo :=
  [mkFile "/in/a" "a" 9, mkFile "/in/b" "b" 25, mkFile "/in/c" "c" 0]

/-- Sample disk holding the files of `sampleFiles`. -/
def sampleDisk (path : String) : List UInt8 :=
  if path = "/in/a" then List.replicate 9 1
  else if path = "/in/b" then List.replicate 25 2
  else []

/-! ## Windowed reads: `fileSlice` and `BuildFileNode` -/

/-- Errors a read can return: `io.EOF`, the error "read data out bound of the
slice" of `fileSlice.Read`, and a failed `Seek`. -/
inductive ReadErr where
  | eof
  | outOfBound
  | seek
  deriving DecidableEq, Repr

/-- What one `Read(p)` call returns: the bytes `p[:n]` it delivered and `err`. -/
structure ReadResult where
  data : List UInt8
  err : Option ReadErr
  deriving DecidableEq, Repr

/-- An open regular file (`*os.File`): its content and its read position. -/
structure OsFile where
  data : List UInt8
  pos : Nat
  deriving DecidableEq, Repr

/-- `(*os.File).Read` on a buffer of length `n`: the next `n` bytes, fewer at the
end of the file; `0, io.EOF` at the end of the file when `n > 0`. -/
def OsFile.Read (f : OsFile) (n : Nat) : ReadResult × OsFile :=
  let got := (f.data.drop f.pos).take n
  if n ≠ 0 ∧ got = [] then
    (⟨[], some .eof⟩, f)
  else
    (⟨got, none⟩, { f with pos := f.pos + got.length })

/-- `(*os.File).Seek(offset, 0)`: sets the read position; a negative offset is an
error. -/
def OsFile.Seek (f : OsFile) (offset : Int) : Option ReadErr × OsFile :=
  if offset < 0 then (some .seek, f) else (none, { f with pos := offset.toNat })

/-- The struct `fileSlice` (lines 475-481). -/
structure fileSlice where
  r : OsFile
  offset : Int
  start : Int
  end_ : Int
  fileSize : Int
  deriving DecidableEq, Repr

/-- Lines 496-522 of `fileSlice.Read`: the part after the defaulting of `end` and
the initial seek. -/
def fileSlice.readBody (fs : fileSlice) (plen : Nat) : ReadResult × fileSlice :=
  if fs.end_ - fs.offset + 1 = 0 then
    (⟨[], some .eof⟩, fs)
  else if fs.end_ - fs.offset + 1 < 0 then
    (⟨[], some .outOfBound⟩, fs)
  else
    let leftLen := fs.end_ - fs.offset + 1
    if leftLen > (plen : Int) then
      let (res, r1) := fs.r.Read plen
      match res.err with
      | some e => (⟨res.data, some e⟩, { fs with r := r1 })
      | none => (⟨res.data, none⟩, { fs with r := r1, offset := fs.offset + res.data.length })
    else
      let (res, r1) := fs.r.Read leftLen.toNat
      match res.err with
      | some e => (⟨[], some e⟩, { fs with r := r1 })
      | none =>
        let b := res.data ++ List.replicate (leftLen.toNat - res.data.length) 0
        (⟨b.take plen, some .eof⟩, { fs with r := r1, offset := fs.offset + res.data.length })

/-- `fileSlice.Read` (lines 483-523) on a buffer `p` of length `plen`. -/
def fileSlice.Read (fs : fileSlice) (plen : Nat) : ReadResult × fileSlice :=
  let fs1 := if fs.end_ = 0 then { fs with end_ := fs.fileSize - 1 } else fs
  if fs1.offset = 0 ∧ fs1.start > 0 then
    match fs1.r.Seek fs1.start with
    | (some e, r1) => (⟨[], some e⟩, { fs1 with r := r1 })
    | (none, r1) => fileSlice.readBody { fs1 with r := r1, offset := fs1.start } plen
  else
    fileSlice.readBody fs1 plen

/-- A sequence of `Read` calls on buffers of the given lengths: what each call
returns, in order. -/
def fileSlice.readSeq : fileSlice → List Nat → List ReadResult
  | _, [] => []
  | fs, plen :: rest =>
    let (res, fs1) := fs.Read plen
    res :: fileSlice.readSeq fs1 rest

/-- The reader built in `BuildFileNode` (lines 535-540) over the file just opened. -/
def fileSlice.new (data : List UInt8) (start end_ fileSize : Int) : fileSlice :=
  { r := ⟨data, 0⟩, offset := 0, start := start, end_ := end_, fileSize := fileSize }

/-- Reads of a window as the specification words them: each call delivers the next
bytes of the window `w`, as many as the buffer takes; end-of-input is reported by
the call that delivers the last byte of the window and by every later call, which
delivers nothing; no other error is returned. -/
def windowReads (w : List UInt8) : List Nat → List ReadResult
  | [] => []
  | plen :: rest =>
    ⟨w.take plen, if w.length ≤ plen then some .eof else none⟩ :: windowReads (w.drop plen) rest

/-- Invariant of a `fileSlice` once positioned: `offset` is the read position of
the underlying file and lies between `start` and `end + 1`, and `w` is the part of
the window not yet delivered. -/
structure SliceInv (fs : fileSlice) (w : List UInt8) : Prop where
  end_pos : 0 < fs.end_
  end_le : fs.end_ ≤ fs.fileSize - 1
  size : (fs.r.data.length : Int) = fs.fileSize
  start_nonneg : 0 ≤ fs.start
  start_le : fs.start ≤ fs.offset
  offset_le : fs.offset ≤ fs.end_ + 1
  pos : fs.r.pos = fs.offset.toNat
  window : w = (fs.r.data.drop fs.offset.toNat).take (fs.end_ + 1 - fs.offset).toNat

/-- `UnixfsChunkSize` (line 154): 1 MiB. -/
def UnixfsChunkSize : Nat := 1 <<< 20

/-- The `io.Reader` that `BuildFileNode` passes to `chunker.NewSizeSplitter`: the
opened file itself or a `fileSlice` over it. -/
inductive Reader where
  | file (f : OsFile)
  | slice (fs : fileSlice)
  deriving DecidableEq, Repr

/-- `Read` of either reader. -/
def Reader.Read : Reader → Nat → ReadResult × Reader
  | .file f, n => let (res, f1) := f.Read n; (res, .file f1)
  | .slice fs, n => let (res, fs1) := fs.Read n; (res, .slice fs1)

/-- Lines 526-541 of `BuildFileNode`: open `item.Path` and, when `item.SeekStart > 0`
or `item.SeekEnd > 0`, wrap the file in a `fileSlice`.  `disk` gives the content of
the file at each path. -/
def BuildFileNode.reader (disk : String → List UInt8) (item : Finfo) : Reader :=
  let f : OsFile := ⟨disk item.Path, 0⟩
  if item.SeekStart > 0 ∨ item.SeekEnd > 0 then
    .slice { r := f, offset := 0, start := item.SeekStart, end_ := item.SeekEnd,
             fileSize := item.Info.size }
  else
    .file f

/-- The byte stream a size splitter draws from a reader: it reads chunk-size
buffers until a read returns an error, and keeps the bytes delivered.  The result
is the stream and the error that ended it (`io.EOF` at a regular end). -/
def Reader.drain (bufLen : Nat) : Nat → Reader → Option ReadResult
  | 0, _ => none
  | fuel + 1, r =>
    let (res, r1) := r.Read bufLen
    match res.err with
    | some e => some ⟨res.data, some e⟩
    | none =>
      match Reader.drain bufLen fuel r1 with
      | none => none
      | some rest => some ⟨res.data ++ rest.data, rest.err⟩

/-- The byte stream that `BuildFileNode` hands to the chunker for `item`
(line 550). -/
def BuildFileNode.chunkerInput (disk : String → List UInt8) (fuel : Nat) (item : Finfo) :
    Option ReadResult :=
  (BuildFileNode.reader disk item).drain UnixfsChunkSize fuel

/-! ## Directory materialization: paths, keys and nodes -/

/-- `strings.HasPrefix`. -/
def hasPrefix (s pre : String) : Bool :=
  pre.data.isPrefixOf s.data

/-- The Go slice expression `s[n:]`, for `n` the length of a prefix of `s`. -/
def sliceFrom (s : String) (n : Nat) : String :=
  String.mk (s.data.drop n)

/-- `strings.Split(s, "/")`. -/
def splitSlash (s : String) : List String :=
  (s.data.splitOn '/').map String.mk

/-- The element-wise pass of `path.Clean`, on the `/`-separated elements of a path,
`acc` holding the elements kept so far, last one first: an empty element and `.`
are dropped; `..` removes the element kept before it, is dropped at the root of a
rooted path, and is kept otherwise. -/
def cleanElems (rooted : Bool) : List (List Char) → List (List Char) → List (List Char)
  | [], acc => acc.reverse
  | c :: cs, acc =>
    if c = [] ∨ c = ['.'] then
      cleanElems rooted cs acc
    else if c = ['.', '.'] then
      match acc with
      | top :: below =>
        if top = ['.', '.'] then cleanElems rooted cs (c :: acc) else cleanElems rooted cs below
      | [] => if rooted then cleanElems rooted cs acc else cleanElems rooted cs (c :: acc)
    else
      cleanElems rooted cs (c :: acc)

/-- Go `path.Clean`, after its documentation: the shortest path equivalent to `p`
by purely lexical processing; `"."` for the empty result. -/
def pathClean (p : String) : String :=
  if p = "" then
    "."
  else
    let rooted : Bool := p.data.head? = some '/'
    let out := cleanElems rooted (p.data.splitOn '/') []
    let s := (if rooted then ['/'] else []) ++ ['/'].intercalate out
    if s = [] then "." else String.mk s

/-- Go `path.Dir`: `path.Clean` of the path up to and including its last slash. -/
def pathDir (p : String) : String :=
  pathClean (String.mk (p.data.reverse.dropWhile (fun c => c ≠ '/')).reverse)

/-- `getDirKey` (lines 456-464). -/
def getDirKey (dirList : List String) (i : Nat) : String :=
  (List.range (i + 1)).foldl
    (fun key j =>
      let key := key ++ dirList.getD j ""
      if j < i then key ++ "." else key)
    ""

/-- A named link of a directory node: `format.Link` without its size. -/
structure Link (C : Type) where
  Name : String
  Cid : C

/-- A content identifier, modelled as the content it commits to: the root of a
file DAG, or a directory node given by its links.  Equal contents have equal
identifiers and, the hash being collision-free, conversely. -/
inductive Cid where
  | file (root : String)
  | dir (links : List (Link Cid))

/-- Whether `a` is at most `b` in the order Go's `<` puts strings in (byte-wise;
on UTF-8 text this is the order of the code points). -/
def charsLE : List Char → List Char → Bool
  | [], _ => true
  | _ :: _, [] => false
  | a :: as, b :: bs =>
    if a.toNat < b.toNat then true
    else if b.toNat < a.toNat then false
    else charsLE as bs

/-- The order of link names used when a node is encoded. -/
def nameLE (a b : String) : Bool :=
  charsLE a.data b.data

/-- A UnixFS directory node (`*dag.ProtoNode` made by `unixfs.EmptyDirNode`): its
links, in the order in which `Links()` lists them and the encoder writes them.
go-merkledag sorts the links of a node by name, stably and in place, whenever it
lists or encodes them (`sort.Stable(LinkSlice(n.links))`), and this code reads the
links of a node in no other way, so the model keeps them sorted. -/
abbrev ProtoNode := List (Link Cid)

/-- `unixfs.EmptyDirNode()`. -/
def EmptyDirNode : ProtoNode := []

/-- `(*ProtoNode).Cid()`. -/
def ProtoNode.Cid (n : ProtoNode) : Metalib.Cid := Metalib.Cid.dir n

/-- The links of a node put in the order of their names, links of one name in the
order they have: `sort.Stable(LinkSlice(n.links))`. -/
def ProtoNode.sortedLinks (n : ProtoNode) : ProtoNode :=
  List.insertionSort (fun a b => nameLE a.Name b.Name = true) n

/-- `(*ProtoNode).AddNodeLink(name, that)`: append a link to `that`, whose
identifier is taken at the time of the call; the links are in name order the next
time they are listed or encoded. -/
def ProtoNode.AddNodeLink (n : ProtoNode) (name : String) (that : Metalib.Cid) : ProtoNode :=
  ProtoNode.sortedLinks (n ++ [(⟨name, that⟩ : Link Metalib.Cid)])

/-- `(*ProtoNode).RemoveNodeLink(name)`: drop every link of that name. -/
def ProtoNode.RemoveNodeLink (n : ProtoNode) (name : String) : ProtoNode :=
  n.filter (fun l => l.Name ≠ name)

/-- `(*ProtoNode).UpdateNodeLink(name, that)`: a copy of the node in which the
links of that name are removed and a link to `that` is appended. -/
def ProtoNode.UpdateNodeLink (n : ProtoNode) (name : String) (that : Metalib.Cid) : ProtoNode :=
  (n.RemoveNodeLink name).AddNodeLink name that

/-- `(*ProtoNode).GetNodeLink(name)`: the first link of that name. -/
def ProtoNode.GetNodeLink (n : ProtoNode) (name : String) : Option Metalib.Cid :=
  (n.find? (fun l => l.Name = name)).map (fun l => l.Cid)

/-- `isLinked` (lines 466-473): whether `node.Links()` holds a link of that name.
The call of `Links()` sorts the links of the node; in the model they are sorted
already. -/
def isLinked (node : ProtoNode) (name : String) : Bool :=
  node.any (fun lk => lk.Name = name)

/-- The map `dirNodeMap` from directory key to directory node. -/
abbrev DirNodeMap := String → Option ProtoNode

/-- The assignment `dirNodeMap[key] = node`. -/
def DirNodeMap.set (m : DirNodeMap) (key : String) (node : ProtoNode) : DirNodeMap :=
  fun k => if k = key then some node else m k

/-- The key of the virtual root, `rootKey`. -/
def rootKey : String := "root"

/-- The map after line 290 (689): only the virtual root, empty. -/
def DirNodeMap.init : DirNodeMap :=
  DirNodeMap.set (fun _ => none) rootKey EmptyDirNode

/-- Lines 335-352 (727-744): the directory names of a file relative to
`parentPath`, given the cleaned `parentPath`. -/
def dirListOf (parentPath : String) (itemPath : String) : List String :=
  let dirStr := pathDir itemPath
  let dirStr :=
    if parentPath = pathClean itemPath then ""
    else if parentPath ≠ "" ∧ hasPrefix dirStr parentPath then sliceFrom dirStr parentPath.length
    else dirStr
  let dirStr := if hasPrefix dirStr "/" then sliceFrom dirStr 1 else dirStr
  if dirStr = "" then [] else splitSlash dirStr

/-- The loop `for ; i >= 0; i--` (lines 364-405, 756-797) from index `n - 1` down to
0: look up or create the directory of each prefix of `dirList`, add the file to the
deepest one, and link each directory into its parent. -/
def linkDirs (dirList : List String) (fileLink : String) (fileNode : Cid) :
    Nat → DirNodeMap → DirNodeMap
  | 0, m => m
  | i + 1, m =>
    let dir := dirList.getD i ""
    let dirKey := getDirKey dirList i
    let dirNode0 := (m dirKey).getD EmptyDirNode
    let m1 := if (m dirKey).isSome then m else m.set dirKey dirNode0
    let dirNode := if i = dirList.length - 1 then dirNode0.AddNodeLink fileLink fileNode else dirNode0
    let m2 := if i = dirList.length - 1 then m1.set dirKey dirNode else m1
    let parentKey := if i = 0 then rootKey else getDirKey dirList (i - 1)
    let parentNode := (m2 parentKey).getD EmptyDirNode
    let m3 :=
      if isLinked parentNode dir then
        m2.set parentKey (parentNode.UpdateNodeLink dir dirNode.Cid)
      else
        m2.set parentKey (parentNode.AddNodeLink dir dirNode.Cid)
    linkDirs dirList fileLink fileNode i m3

/-- Why the build of a slice stops: the `panic("unexpected, missing file node")`
of line 355 (747). -/
inductive BuildErr where
  | missingFileNode
  deriving DecidableEq, Repr

/-- State of the loop "build dir tree": the variable `parentPath` and the map. -/
structure TreeState where
  parentPath : String
  dirNodeMap : DirNodeMap

/-- The body of the loop "build dir tree" (lines 332-406, 724-798) for one file.
`fileNodeMap` is the map filled by the file workers. -/
def placeFile (fileNodeMap : String → Option Cid) (st : TreeState) (item : Finfo) :
    Except BuildErr TreeState :=
  let parentPath := pathClean st.parentPath
  let dirList := dirListOf parentPath item.Path
  match fileNodeMap item.Path with
  | none => .error .missingFileNode
  | some fileNode =>
    if dirList.length = 0 then
      let root := (st.dirNodeMap rootKey).getD EmptyDirNode
      .ok ⟨parentPath, st.dirNodeMap.set rootKey (root.AddNodeLink (item.Name ++ item.Uuid) fileNode)⟩
    else
      .ok ⟨parentPath,
        linkDirs dirList (item.Name ++ item.Uuid) fileNode dirList.length st.dirNodeMap⟩

/-- The loop "build dir tree" over the file list. -/
def placeFiles (fileNodeMap : String → Option Cid) :
    List Finfo → TreeState → Except BuildErr TreeState
  | [], st => .ok st
  | item :: rest, st =>
    match placeFile fileNodeMap st item with
    | .error e => .error e
    | .ok st1 => placeFiles fileNodeMap rest st1

/-- The directory tree of `buildIpldGraph` (lines 283-414): the final `dirNodeMap`,
whose entry `rootKey` is the root node. -/
def buildIpldGraph (fileNodeMap : String → Option Cid) (fileList : List Finfo)
    (parentPath : String) : Except BuildErr DirNodeMap :=
  match placeFiles fileNodeMap fileList ⟨parentPath, DirNodeMap.init⟩ with
  | .error e => .error e
  | .ok st => .ok st.dirNodeMap

/-- The directory tree of `buildGraph` (lines 670-806): the same loop with
`parentPath := "/"`. -/
def buildGraph (fileNodeMap : String → Option Cid) (fileList : List Finfo) :
    Except BuildErr DirNodeMap :=
  match placeFiles fileNodeMap fileList ⟨"/", DirNodeMap.init⟩ with
  | .error e => .error e
  | .ok st => .ok st.dirNodeMap

/-- Follow links by name from a node identifier, as a path resolver does. -/
def resolve : Cid → List String → Option Cid
  | c, [] => some c
  | .dir links, name :: rest =>
    match ProtoNode.GetNodeLink links name with
    | some c => resolve c rest
    | none => none
  | .file _, _ :: _ => none

/-- The key under which `dirNodeMap` holds the directory with path `p` (a list of
directory names): `rootKey` for the virtual root, the names joined by dots
otherwise. -/
def dirKeyOf (p : List String) : String :=
  match p with
  | [] => rootKey
  | _ :: _ => String.mk (['.'].intercalate (p.map String.data))

/-- A directory name that the keys tell apart: no dot in it, and not `root`. -/
def ValidDirName (d : String) : Prop :=
  '.' ∉ d.data ∧ d ≠ "root"

/-- Every name of a directory path is valid. -/
def ValidDirPath (p : List String) : Prop :=
  ∀ d ∈ p, ValidDirName d

/-- Whether an identifier is that of a directory node. -/
def Cid.isDir : Cid → Bool
  | .file _ => false
  | .dir _ => true

/-- The identifier of the root node a build returns, `rootNode.Cid()`. -/
def rootCid (r : Except BuildErr DirNodeMap) : Option Cid :=
  match r with
  | .ok m => (m rootKey).map ProtoNode.Cid
  | .error _ => none

/-- The link names of the directory node a build holds under `key`, in the order
of `Links()`. -/
def linkNamesAt (r : Except BuildErr DirNodeMap) (key : String) : Option (List String) :=
  match r with
  | .ok m => (m key).map (fun n => n.map (fun l => l.Name))
  | .error _ => none

/-- Sample `fileNodeMap`: every file was built, its DAG root named after its path. -/
def sampleNodes (path : String) : Option Cid :=
  some (Cid.file path)

/-- Sample input: a file `/a/x` tagged with the suffix `1` next to a directory
`/a/x1`. -/
def suffixClash : List Finfo :=
  [{ mkFile "/a/x" "x" 5 with Uuid := "1" }, mkFile "/a/x1/g" "g" 5]

/-! ## Directory materialization: invariants -/

/-- What the loop "build dir tree" needs of one file: its directory names, the
name of its link and the identifier of its DAG root. -/
structure Job where
  dirs : List String
  name : String
  cid : Cid

/-- The body of the loop "build dir tree" once the directory names and the file
node are known (lines 357-405). -/
def placeJob (m : DirNodeMap) (j : Job) : DirNodeMap :=
  if j.dirs.length = 0 then
    m.set rootKey (((m rootKey).getD EmptyDirNode).AddNodeLink j.name j.cid)
  else
    linkDirs j.dirs j.name j.cid j.dirs.length m

/-- The node of the directory `p ++ [d]` after one pass of the loop of `linkDirs`:
its node so far (empty when it had none), with the link `extra` if there is one. -/
def stepChild (m : DirNodeMap) (p : List String) (d : String) (extra : Option (Link Cid)) :
    ProtoNode :=
  match extra with
  | some l => ((m (dirKeyOf (p ++ [d]))).getD EmptyDirNode).AddNodeLink l.Name l.Cid
  | none => (m (dirKeyOf (p ++ [d]))).getD EmptyDirNode

/-- The node of the parent directory `p` after one pass of the loop of `linkDirs`:
it gets, or gets anew, its link `d` to the directory `p ++ [d]`. -/
def stepParent (m : DirNodeMap) (p : List String) (d : String) (extra : Option (Link Cid)) :
    ProtoNode :=
  if isLinked ((m (dirKeyOf p)).getD EmptyDirNode) d then
    ((m (dirKeyOf p)).getD EmptyDirNode).UpdateNodeLink d (ProtoNode.Cid (stepChild m p d extra))
  else
    ((m (dirKeyOf p)).getD EmptyDirNode).AddNodeLink d (ProtoNode.Cid (stepChild m p d extra))

/-- One pass of the loop of `linkDirs` for the directory `p ++ [d]` and its parent
`p`, in terms of directory paths. -/
def linkStep (m : DirNodeMap) (p : List String) (d : String) (extra : Option (Link Cid)) :
    DirNodeMap :=
  (m.set (dirKeyOf (p ++ [d])) (stepChild m p d extra)).set (dirKeyOf p) (stepParent m p d extra)

/-- Every link of every directory node is either the link of a file placed in that
directory, or the link to a sub-directory carrying the identifier of the
sub-directory's current node; `exc` names the one directory whose node may have
changed since it was linked. -/
def Cons (J : List Job) (exc : Option (List String)) (m : DirNodeMap) : Prop :=
  ∀ p, ValidDirPath p → ∀ n, m (dirKeyOf p) = some n → ∀ l ∈ n,
    (∃ j ∈ J, j.dirs = p ∧ j.name = l.Name ∧ j.cid = l.Cid) ∨
    ((∃ j ∈ J, ∃ rest, j.dirs = p ++ l.Name :: rest) ∧
      ∃ c, m (dirKeyOf (p ++ [l.Name])) = some c ∧
        (l.Cid = ProtoNode.Cid c ∨ exc = some (p ++ [l.Name])))

/-- Every node of `m` is a node of `m1` under the same key, with at least the same
link names. -/
def NamesLE (m m1 : DirNodeMap) : Prop :=
  ∀ k n, m k = some n → ∃ n1, m1 k = some n1 ∧ ∀ l ∈ n, ∃ l1 ∈ n1, l1.Name = l.Name

/-- The directory `p` has a node with a link named `name`. -/
def HasLink (m : DirNodeMap) (p : List String) (name : String) : Prop :=
  ∃ n, m (dirKeyOf p) = some n ∧ ∃ l ∈ n, l.Name = name

/-- The file of job `j` is linked in its directory and every directory on its path
is linked in its parent. -/
def JobLinked (m : DirNodeMap) (j : Job) : Prop :=
  HasLink m j.dirs j.name ∧
    ∀ i (h : i < j.dirs.length), HasLink m (j.dirs.take i) (j.dirs.get ⟨i, h⟩)

/-- No two link names clash: files of one directory with one link name have one
DAG root, and no file's link name is the name of a sub-directory of its
directory. -/
def NoClash (J : List Job) : Prop :=
  (∀ j ∈ J, ∀ j1 ∈ J, j.dirs = j1.dirs → j.name = j1.name → j.cid = j1.cid) ∧
    ∀ j ∈ J, ∀ j1 ∈ J, ∀ rest, j1.dirs ≠ j.dirs ++ j.name :: rest

/-- The job of a file in the loop "build dir tree": its directory names relative to
`parentPath`, its link name `item.Name + item.Uuid`, and its file node. -/
def jobOf (parentPath : String) (fileNodeMap : String → Option Cid) (item : Finfo) : Job :=
  ⟨dirListOf parentPath item.Path, item.Name ++ item.Uuid,
    (fileNodeMap item.Path).getD (Cid.file "")⟩

/-- The absolute path `/d1/.../dn/base`. -/
def absPath (dirs : List String) (base : String) : String :=
  String.mk ('/' :: ['/'].intercalate ((dirs ++ [base]).map String.data))

/-- A path element: not empty, without a slash, and neither `.` nor `..`. -/
def PathElem (s : String) : Prop :=
  s ≠ "" ∧ '/' ∉ s.data ∧ s ≠ "." ∧ s ≠ ".."

instance (s : String) : Decidable (PathElem s) := by
  unfold PathElem
  infer_instance

instance (d : String) : Decidable (ValidDirName d) := by
  unfold ValidDirName
  infer_instance

/-- The five files of `genCarWithUuidDemo`, each tagged with its `-uuid-` suffix. -/
def demoFiles : List Finfo :=
  [{ mkFile "/test/input/test0" "test0" 262159510 with
      Uuid := "-uuid-94d6a0d0-3e76-45b7-9705-4d829e0e3ca8" },
   { mkFile "/test/input/test4" "test4" 262159510 with
      Uuid := "-uuid-571e4e2b-d50b-4ac2-a89f-07795b684148" },
   { mkFile "/test/input/dir1/test1" "test1" 262159510 with
      Uuid := "-uuid-36f4da38-a028-493a-a855-51b07269e709" },
   { mkFile "/test/input/dir1/dir2/test2" "test2" 262159510 with
      Uuid := "-uuid-e99d2819-09a8-4e53-8158-a48d8154e057" },
   { mkFile "/test/input/dir1/dir2/test3" "test3" 262159510 with
      Uuid := "-uuid-6631aa2a-5e89-4f98-b114-86bf4403f1c2" }]

/-! ## Window names and the pieces `merge` looks for -/

/-- The path of piece number `i` that `merge` opens for the file it rebuilds at
`fpath` (line 1176): `fmt.Sprintf("%s.%08d", fpath, i)`. -/
def chunkPath (fpath : String) (i : Nat) : String :=
  fpath ++ "." ++ pad8 i

/-- What a file turns into, with the names of its windows: the file itself, or
windows whose `k`-th one (from 0, in increasing byte order) is built with
`fileSliceCount = k` and carries the name `merge` opens as piece `k`. -/
def NumberedPieces (item : Finfo) (ps : List Entry) : Prop :=
  ps = [Entry.whole item] ∨
    ∀ k (h : k < ps.length), ∃ s t, ps.get ⟨k, h⟩ = Entry.window item k s t ∧
      (ps.get ⟨k, h⟩).toFinfo.Name = chunkPath item.Info.name k

/-- A 10-byte file followed by an empty file. -/
def zeroTailFiles : List Finfo :=
  [mkFile "/in/a" "a" 10, mkFile "/in/c" "c" 0]

/-- The paths of the entries of a slice, as `buildIpldGraph` keys `fileNodeMap`
by them (line 325). -/
def slicePaths (es : List Entry) : List String :=
  es.map (fun e => e.toFinfo.Path)

/-- Invariant of the planner for the paths in a slice: no slice handed over and
no pending file list holds two entries of one path, and the pending entries come
from the files of `seen`. -/
def PathsOK (seen : List String) (st : PlanState) : Prop :=
  (∀ c ∈ st.calls, (slicePaths c.graphFiles).Nodup) ∧
    (slicePaths st.graphFiles).Nodup ∧
    ∀ p ∈ slicePaths st.graphFiles, p ∈ seen

/-! ## File workers and the way a build ends -/

/-- The file workers of `buildIpldGraph` (lines 302-330): each one runs
`BuildFileNode` on its file and, unless that fails, stores the node under
`item.Path`; a failure is logged and the worker returns without storing anything.
`BuildFileNode item = none` stands for a failure.  The workers are taken in list
order; the outcome depends on the order only when two entries share a path. -/
def fileWorkers (BuildFileNode : Finfo → Option Cid) :
    List Finfo → (String → Option Cid) → String → Option Cid
  | [], m => m
  | item :: rest, m =>
    match BuildFileNode item with
    | none => fileWorkers BuildFileNode rest m
    | some fileNode =>
      fileWorkers BuildFileNode rest (fun p => if p = item.Path then some fileNode else m p)

/-- How a call of `buildIpldGraph` ends: it returns (with `err` the error, `none`
for `nil`), or it panics. -/
inductive Ending where
  | returned (err : Option String)
  | panicked (msg : String)
  deriving DecidableEq, Repr

/-- The end of `buildIpldGraph` (lines 272-434) for given outcomes of
`BuildFileNode`: the workers fill `fileNodeMap`, then the loop "build dir tree"
runs; a file without an entry in `fileNodeMap` makes it panic (line 355).  Writing
the CAR is taken to succeed, so a build that gets through the loop returns `nil`;
the error a failed write returns (lines 419-431) is outside this definition. -/
def buildIpldGraphEnding (BuildFileNode : Finfo → Option Cid) (fileList : List Finfo)
    (parentPath : String) : Ending :=
  match buildIpldGraph (fileWorkers BuildFileNode fileList (fun _ => none)) fileList
      parentPath with
  | .error .missingFileNode => .panicked "unexpected, missing file node"
  | .ok _ => .returned none

/-- Sample outcomes of `BuildFileNode`: the file `/in/b` cannot be opened, every
other file is built. -/
def failOnB (item : Finfo) : Option Cid :=
  if item.Path = "/in/b" then none else some (Cid.file item.Path)

/-! ## The manifest: `SaveToCsv` -/

/-- The header `SaveToCsv` writes into a manifest it creates (line 576). -/
def manifestHeader : String :=
  "playload_cid,filename,detail\n"

/-- The row of one CAR (line 580): `fmt.Sprintf("%s,%s,%s\n", node.Cid(), graphName,
fsDetail)`, with `rootCid` the text of `node.Cid()`. -/
def manifestRow (rootCid graphName fsDetail : String) : String :=
  rootCid ++ "," ++ graphName ++ "," ++ fsDetail ++ "\n"

/-- `SaveToCsv` (lines 561-585) on the content of `manifest.csv` in `carDir`
(`none` when the file does not exist), giving the content after the call.  The
file is opened with `O_APPEND|O_CREATE`, so what is written goes behind what is
there.  A failing `Stat`, `OpenFile` or `Write` ends the process (`Fatal`) and is
not modelled. -/
def SaveToCsv (manifest : Option String) (rootCid graphName fsDetail : String) : String :=
  let isCreateAction := manifest.isNone
  let f := manifest.getD ""
  let f := if isCreateAction then f ++ manifestHeader else f
  f ++ manifestRow rootCid graphName fsDetail

/-- Successive calls of `SaveToCsv` on the same directory, one per row of `rows`
(root CID, graph name, detail), starting from the manifest `manifest`. -/
def saveAll : Option String → List (String × String × String) → Option String
  | manifest, [] => manifest
  | manifest, (rootCid, graphName, fsDetail) :: rest =>
    saveAll (some (SaveToCsv manifest rootCid graphName fsDetail)) rest

/-! ## Extraction: the file system and the nodes written to it -/

/-- What a path of the file system holds. -/
inductive FsObj where
  | dir
  | file (data : List UInt8)
  | symlink (target : String)
  deriving DecidableEq, Repr

/-- The file system, as far as extraction sees it: what each path holds, `none`
for a path that does not exist.  Paths are compared as strings. -/
abbrev FS := String → Option FsObj

/-- The file system with `p` holding `o`. -/
def FS.set (fs : FS) (p : String) (o : FsObj) : FS :=
  fun q => if q = p then some o else fs q

/-- The errors of the system calls the extraction makes: `EEXIST`, `ENOENT`,
`EISDIR`, `ENOTDIR`. -/
inductive OsErr where
  | exist
  | notExist
  | isDir
  | notDir
  deriving DecidableEq, Repr

/-- `os.IsNotExist(err)`. -/
def OsErr.IsNotExist : OsErr → Bool
  | .notExist => true
  | _ => false

/-- The errors extraction returns: the two sentinels of lines 1224-1225, the
"file type ... is not supported" error, or the error of a system call. -/
inductive ExportErr where
  | ErrInvalidDirectoryEntry
  | ErrPathExistsOverwrite
  | notSupported
  | os (e : OsErr)
  deriving DecidableEq, Repr

/-- A node handed to extraction (`files.Node`): a symbolic link, a file with its
bytes, a directory with its entries in iteration order, or a node of another
type. -/
inductive FNode where
  | Symlink (Target : String)
  | File (data : List UInt8)
  | Directory (entries : List (String × FNode))
  | other

/-- `filepath.Join(a, b)` on a system whose separator is `/`: the non-empty
arguments joined by `/` and cleaned; the empty string when both are empty. -/
def filepathJoin (a b : String) : String :=
  if a = "" then (if b = "" then "" else pathClean b)
  else if b = "" then pathClean a
  else pathClean (a ++ "/" ++ b)

/-- The path a symbolic link at `linkPath` with target `target` names: the target
itself when it is rooted, the target taken from the directory of the link
otherwise.  A link met on the way is followed once. -/
def linkTarget (linkPath target : String) : String :=
  if hasPrefix target "/" then pathClean target else filepathJoin (pathDir linkPath) target

/-- Whether something can be created at `p`: the directory it is to be created in
must exist and be a directory (or a link to one); `ENOENT` when it is missing,
`ENOTDIR` when it is something else. -/
def parentDir (fs : FS) (p : String) : Except OsErr Unit :=
  match fs (pathDir p) with
  | some .dir => .ok ()
  | some (.file _) => .error .notDir
  | some (.symlink target) =>
    match fs (linkTarget (pathDir p) target) with
    | some .dir => .ok ()
    | some _ => .error .notDir
    | none => .error .notExist
  | none => .error .notExist

/-- `os.Mkdir(p, 0777)`: fails when `p` exists, or when it cannot be created in
its directory. -/
def osMkdir (fs : FS) (p : String) : Except OsErr FS :=
  if (fs p).isSome then .error .exist
  else
    match parentDir fs p with
    | .error e => .error e
    | .ok _ => .ok (fs.set p .dir)

/-- `os.Symlink(target, p)`: fails when `p` exists, or when it cannot be created
in its directory. -/
def osSymlink (fs : FS) (target p : String) : Except OsErr FS :=
  if (fs p).isSome then .error .exist
  else
    match parentDir fs p with
    | .error e => .error e
    | .ok _ => .ok (fs.set p (.symlink target))

/-- `createNewFile(p)` (lines 1232-1234, `O_EXCL|O_CREATE|O_WRONLY|O_NOFOLLOW`)
followed by `io.Copy` of `data`: fails when `p` exists. -/
def createNewFile (fs : FS) (p : String) (data : List UInt8) : Except OsErr FS :=
  if (fs p).isSome then .error .exist
  else
    match parentDir fs p with
    | .error e => .error e
    | .ok _ => .ok (fs.set p (.file data))

/-- `os.Create(p)` followed by `io.Copy` of `data`: an existing file is truncated
and rewritten; a directory at `p` is an error; through a symbolic link at `p` the
file the link names is written.  The link is followed once: a target that is a
link again is outside the model and reported as missing. -/
def osCreate (fs : FS) (p : String) (data : List UInt8) : Except OsErr FS :=
  match fs p with
  | some .dir => .error .isDir
  | some (.file _) => .ok (fs.set p (.file data))
  | some (.symlink target) =>
    match fs (linkTarget p target) with
    | some .dir => .error .isDir
    | some (.file _) => .ok (fs.set (linkTarget p target) (.file data))
    | some (.symlink _) => .error .notExist
    | none =>
      match parentDir fs (linkTarget p target) with
      | .error e => .error e
      | .ok _ => .ok (fs.set (linkTarget p target) (.file data))
  | none =>
    match parentDir fs p with
    | .error e => .error e
    | .ok _ => .ok (fs.set p (.file data))

/-- Go `path.Base`: the last element of the path, trailing slashes removed; `"."`
for the empty path and `"/"` for a path of slashes only. -/
def pathBase (p : String) : String :=
  if p = "" then "."
  else
    let s := p.data.reverse.dropWhile (fun c => c = '/')
    if s = [] then "/" else String.mk (s.takeWhile (fun c => c ≠ '/')).reverse

/-- `isValidFilename` (lines 1228-1230): `!strings.ContainsAny(filename, "/\x00")`. -/
def isValidFilename (filename : String) : Bool :=
  !(filename.data.any (fun c => c = '/' || c = Char.ofNat 0))

/-- The test of lines 1264-1267 and 1314-1317 on an entry name. -/
def invalidEntryName (entryName : String) : Bool :=
  entryName = "" || entryName = "." || entryName = ".." || !isValidFilename entryName

mutual
/-- `exportFileInCar` (lines 1237-1281): the error returned (`none` for `nil`) and
the file system left behind. -/
def exportFileInCar : FNode → String → FS → Option ExportErr × FS
  | nd, fpath, fs =>
    if (fs fpath).isSome then (some .ErrPathExistsOverwrite, fs)
    else
      match nd with
      | .Symlink target =>
        match osSymlink fs target fpath with
        | .error e => (some (.os e), fs)
        | .ok fs1 => (none, fs1)
      | .File data =>
        match createNewFile fs fpath data with
        | .error e => (some (.os e), fs)
        | .ok fs1 => (none, fs1)
      | .Directory entries =>
        match osMkdir fs fpath with
        | .error e => (some (.os e), fs)
        | .ok fs1 => exportEntries entries fpath fs1
      | .other => (some .notSupported, fs)
/-- The loop over the entries of a directory (lines 1261-1273). -/
def exportEntries : List (String × FNode) → String → FS → Option ExportErr × FS
  | [], _, fs => (none, fs)
  | (entryName, nd) :: rest, fpath, fs =>
    if invalidEntryName entryName then (some .ErrInvalidDirectoryEntry, fs)
    else
      match exportFileInCar nd (filepathJoin fpath entryName) fs with
      | (some e, fs1) => (some e, fs1)
      | (none, fs1) => exportEntries rest fpath fs1
end

mutual
/-- `exportFileInCarByName` (lines 1283-1331): as `exportFileInCar`, but a file is
written only when the last element of its path is `targetName`. -/
def exportFileInCarByName : FNode → String → String → FS → Option ExportErr × FS
  | nd, fpath, targetName, fs =>
    if (fs fpath).isSome then (some .ErrPathExistsOverwrite, fs)
    else
      match nd with
      | .Symlink target =>
        match osSymlink fs target fpath with
        | .error e => (some (.os e), fs)
        | .ok fs1 => (none, fs1)
      | .File data =>
        if pathBase fpath = targetName then
          match createNewFile fs fpath data with
          | .error e => (some (.os e), fs)
          | .ok fs1 => (none, fs1)
        else (none, fs)
      | .Directory entries =>
        match osMkdir fs fpath with
        | .error e => (some (.os e), fs)
        | .ok fs1 => exportEntriesByName entries fpath targetName fs1
      | .other => (some .notSupported, fs)
/-- The loop over the entries of a directory (lines 1311-1323). -/
def exportEntriesByName : List (String × FNode) → String → String → FS → Option ExportErr × FS
  | [], _, _, fs => (none, fs)
  | (entryName, nd) :: rest, fpath, targetName, fs =>
    if invalidEntryName entryName then (some .ErrInvalidDirectoryEntry, fs)
    else
      match exportFileInCarByName nd (filepathJoin fpath entryName) targetName fs with
      | (some e, fs1) => (some e, fs1)
      | (none, fs1) => exportEntriesByName rest fpath targetName fs1
end

mutual
/-- `NodeWriteTo` (lines 1040-1074).  `ExistDir` stands for `util.ExistDir`. -/
def NodeWriteTo (ExistDir : FS → String → Bool) : FNode → String → FS → Option ExportErr × FS
  | .Symlink target, fpath, fs =>
    match osSymlink fs target fpath with
    | .error e => (some (.os e), fs)
    | .ok fs1 => (none, fs1)
  | .File data, fpath, fs =>
    match osCreate fs fpath data with
    | .error e => (some (.os e), fs)
    | .ok fs1 => (none, fs1)
  | .Directory entries, fpath, fs =>
    if !ExistDir fs fpath then
      match osMkdir fs fpath with
      | .error e => if e.IsNotExist then (some (.os e), fs) else writeEntries ExistDir entries fpath fs
      | .ok fs1 => writeEntries ExistDir entries fpath fs1
    else writeEntries ExistDir entries fpath fs
  | .other, _, fs => (some .notSupported, fs)
/-- The loop over the entries of a directory (lines 1065-1071). -/
def writeEntries (ExistDir : FS → String → Bool) :
    List (String × FNode) → String → FS → Option ExportErr × FS
  | [], _, fs => (none, fs)
  | (entryName, nd) :: rest, fpath, fs =>
    match NodeWriteTo ExistDir nd (filepathJoin fpath entryName) fs with
    | (some e, fs1) => (some e, fs1)
    | (none, fs1) => writeEntries ExistDir rest fpath fs1
end

/-- Sample file system: the directories `/` and `/out`. -/
def sampleFS : FS :=
  fun p => if p = "/" ∨ p = "/out" then some .dir else none

/-- Sample directory node: two entries of the same name `a`, then an entry `..`. -/
def twiceThenDotDot : FNode :=
  .Directory [("a", .File [1]), ("a", .File [2]), ("..", .File [3])]

/-- Sample directory node: one file entry named `../x`. -/
def escapingDir : FNode :=
  .Directory [("../x", .File [7])]

/-! ## The summary of `FSBuilder` -/

/-- A node of the summary `FSBuilder.Build` returns (`fsNode`, lines 157-162).
`Link` is `none` for a nil slice, which `json.Marshal` renders as `null`, and
`some` for a slice, rendered as a list.  The field `Size` is left out. -/
inductive fsNode where
  | mk (Name : String) (Hash : Cid) (Link : Option (List fsNode))

/-- The field `Name`. -/
def fsNode.Name : fsNode → String
  | .mk name _ _ => name

/-- The field `Hash`. -/
def fsNode.Hash : fsNode → Cid
  | .mk _ hash _ => hash

/-- The field `Link`. -/
def fsNode.Link : fsNode → Option (List fsNode)
  | .mk _ _ link => link

/-- The slice built by `fn.Link = append(fn.Link, node)` for each of `nodes`,
starting from the nil slice: nil when there is no node. -/
def appendAll (nodes : List fsNode) : Option (List fsNode) :=
  if nodes.isEmpty then none else some nodes

/-- Nodes put in the order of their names, the order in which the links of the
stored directory are listed. -/
def sortNodes (nodes : List fsNode) : List fsNode :=
  List.insertionSort (fun a b => nameLE a.Name b.Name = true) nodes

mutual
/-- The field `Link` that `getNodeByLink` (lines 198-233) leaves for the node with
identifier `c`.  `ds.Get` is taken to find every node; the node of a `Cid.file` is
not a directory, so `Link` stays nil (line 222); the node of a `Cid.dir` is the
directory with these links, listed in encoded order, and each one is appended
(lines 224-230). -/
def getNodeByLink.Link : Cid → Option (List fsNode)
  | .file _ => none
  | .dir links => appendAll (sortNodes (getNodesByLinks links))
/-- The summaries of the nodes a list of links points to: for each link the node
`fsNode{Name: ln.Name, Hash: ln.Cid.String()}` of lines 200-204 with its `Link`. -/
def getNodesByLinks : List (Link Cid) → List fsNode
  | [] => []
  | ⟨name, c⟩ :: rest => .mk name c (getNodeByLink.Link c) :: getNodesByLinks rest
end

/-- `getNodeByLink` (lines 198-233): the summary of the node a link points to. -/
def getNodeByLink (ln : Link Cid) : fsNode :=
  .mk ln.Name ln.Cid (getNodeByLink.Link ln.Cid)

/-- `FSBuilder.Build` (lines 173-196) on the root with identifier `root`. -/
def Build (root : Cid) : fsNode :=
  match root with
  | .file r => .mk "" (.file r) (some [])
  | .dir links => .mk "" (.dir links) (some (sortNodes (getNodesByLinks links)))

/-- The names of the children of a summary node, each with whether its `Link` is a
list (`true`) or nil (`false`); `none` when the node's own `Link` is nil. -/
def fsNode.children (n : fsNode) : Option (List (String × Bool)) :=
  n.Link.map (fun l => l.map (fun c => (c.Name, c.Link.isSome)))

/-- Sample input: `/in/b/f1`, then `/in/a/f2`, then `/in/b/f3`. -/
def relinkFiles : List Finfo :=
  [mkFile "/in/b/f1" "f1" 1, mkFile "/in/a/f2" "f2" 1, mkFile "/in/b/f3" "f3" 1]

instance (p : List String) : Decidable (ValidDirPath p) := by
  unfold ValidDirPath
  infer_instance

/-! ## The carving loop on `int64` -/

/-- A value as a Go `int64` holds it: reduced modulo `2^64` into the range from
`-2^63` to `2^63 - 1`. -/
def wrap64 (x : Int) : Int :=
  (x + 9223372036854775808) % 18446744073709551616 - 9223372036854775808

/-- The loop `for seekEnd < fileSize-1` (lines 109-136) with every sum and
difference taken as `int64` computes it; otherwise as `carveLoop`. -/
def carveLoop64 (sliceSize : Int) (graphName : String) (sliceTotal : Int) (item : Finfo)
    (fileSize : Int) : Nat → Int → Nat → PlanState → Option PlanState
  | 0, seekEnd, _, st => if seekEnd < wrap64 (fileSize - 1) then none else some st
  | fuel + 1, seekEnd, fileSliceCount, st =>
    if seekEnd < wrap64 (fileSize - 1) then
      let seekStart := wrap64 (seekEnd + 1)
      let seekEnd1 := wrap64 (wrap64 (seekStart + sliceSize) - 1)
      let seekEnd2 := if seekEnd1 ≥ wrap64 (fileSize - 1) then wrap64 (fileSize - 1) else seekEnd1
      let st1 : PlanState :=
        { st with
          cumuSize := wrap64 (st.cumuSize + wrap64 (wrap64 (seekEnd2 - seekStart) + 1))
          graphFiles := st.graphFiles ++ [Entry.window item fileSliceCount seekStart seekEnd2] }
      let st2 :=
        if wrap64 (seekEnd2 - seekStart) = wrap64 (sliceSize - 1) then
          st1.build graphName sliceTotal
        else st1
      carveLoop64 sliceSize graphName sliceTotal item fileSize fuel seekEnd2 (fileSliceCount + 1) st2
    else
      some st

/-- The case `cumuSize+fileSize > sliceSize` of the loop over the files (lines
83-136) on `int64`: the first cut, then the carving loop. -/
def splitFile64 (fuel : Nat) (sliceSize : Int) (graphName : String) (sliceTotal : Int)
    (st : PlanState) (item : Finfo) : Option PlanState :=
  let fileSize := item.Info.size
  let fileSliceCount := 0
  let firstCut := wrap64 (sliceSize - st.cumuSize)
  let seekStart : Int := 0
  let seekEnd : Int := wrap64 (wrap64 (seekStart + firstCut) - 1)
  let st1 : PlanState :=
    { st with graphFiles := st.graphFiles ++ [Entry.window item fileSliceCount seekStart seekEnd] }
  let st2 := st1.build graphName sliceTotal
  carveLoop64 sliceSize graphName sliceTotal item fileSize fuel seekEnd (fileSliceCount + 1) st2

/-! ## The planner on `int64`

`doGenerateCar64` is `doGenerateCar` with every sum and difference of `int64`
values reduced as Go reduces it, and with the calls made so far kept when the
budget of loop passes runs out.  The two agree as long as the total size of the
files plus the slice size stays below `2^63`. -/

/-- `GetGraphCount` (lines 242-260) as `int64` computes it. -/
def GetGraphCount64 (sizes : List Int) (sliceSize : Int) : Int :=
  let totalSize := sizes.foldl (fun acc s => wrap64 (acc + s)) 0
  if totalSize = 0 then
    0
  else
    wrap64 (wrap64 (Int.tdiv totalSize sliceSize) + 1)

/-- The planner state reached under a budget of loop passes, and whether the code
run so far came to its end (`false`: the budget ran out inside a carving loop). -/
structure Run where
  st : PlanState
  ended : Bool
  deriving DecidableEq, Repr

/-- The loop `for seekEnd < fileSize-1` (lines 109-136) on `int64`, run for at most
`fuel` passes. -/
def carveRun64 (sliceSize : Int) (graphName : String) (sliceTotal : Int) (item : Finfo)
    (fileSize : Int) : Nat → Int → Nat → PlanState → Run
  | 0, seekEnd, _, st => ⟨st, !decide (seekEnd < wrap64 (fileSize - 1))⟩
  | fuel + 1, seekEnd, fileSliceCount, st =>
    if seekEnd < wrap64 (fileSize - 1) then
      let seekStart := wrap64 (seekEnd + 1)
      let seekEnd1 := wrap64 (wrap64 (seekStart + sliceSize) - 1)
      let seekEnd2 := if seekEnd1 ≥ wrap64 (fileSize - 1) then wrap64 (fileSize - 1) else seekEnd1
      let st1 : PlanState :=
        { st with
          cumuSize := wrap64 (st.cumuSize + wrap64 (wrap64 (seekEnd2 - seekStart) + 1))
          graphFiles := st.graphFiles ++ [Entry.window item fileSliceCount seekStart seekEnd2] }
      let st2 :=
        if wrap64 (seekEnd2 - seekStart) = wrap64 (sliceSize - 1) then
          st1.build graphName sliceTotal
        else st1
      carveRun64 sliceSize graphName sliceTotal item fileSize fuel seekEnd2 (fileSliceCount + 1) st2
    else
      ⟨st, true⟩

/-- The body of `for item := range files` (lines 67-138) on `int64`. -/
def planFile64 (fuel : Nat) (sliceSize : Int) (graphName : String) (sliceTotal : Int)
    (st : PlanState) (item : Finfo) : Run :=
  let fileSize := item.Info.size
  if wrap64 (st.cumuSize + fileSize) < sliceSize then
    ⟨{ st with cumuSize := wrap64 (st.cumuSize + fileSize),
               graphFiles := st.graphFiles ++ [Entry.whole item] }, true⟩
  else if wrap64 (st.cumuSize + fileSize) = sliceSize then
    let st1 : PlanState :=
      { st with cumuSize := wrap64 (st.cumuSize + fileSize),
                graphFiles := st.graphFiles ++ [Entry.whole item] }
    ⟨st1.build graphName sliceTotal, true⟩
  else if wrap64 (st.cumuSize + fileSize) > sliceSize then
    let fileSliceCount := 0
    let firstCut := wrap64 (sliceSize - st.cumuSize)
    let seekStart : Int := 0
    let seekEnd : Int := wrap64 (wrap64 (seekStart + firstCut) - 1)
    let st1 : PlanState :=
      { st with graphFiles := st.graphFiles ++ [Entry.window item fileSliceCount seekStart seekEnd] }
    let st2 := st1.build graphName sliceTotal
    carveRun64 sliceSize graphName sliceTotal item fileSize fuel seekEnd (fileSliceCount + 1) st2
  else
    ⟨st, true⟩

/-- The loop `for item := range files` (lines 66-139) on `int64`. -/
def planFiles64 (fuel : Nat) (sliceSize : Int) (graphName : String) (sliceTotal : Int) :
    List Finfo → PlanState → Run
  | [], st => ⟨st, true⟩
  | item :: rest, st =>
    let r := planFile64 fuel sliceSize graphName sliceTotal st item
    if r.ended then planFiles64 fuel sliceSize graphName sliceTotal rest r.st else r

/-- How far a call of `doGenerateCar` has come: still running when the budget of
loop passes ran out, or returned, with the error it returned (`none` for `nil`). -/
inductive Status where
  | running
  | returned (err : Option String)
  deriving DecidableEq, Repr

/-- What a call of `doGenerateCar` has done: the calls to `BuildIpldGraph` it has
made, in order, and how far it has come. -/
structure Trace where
  calls : List BuildCall
  status : Status
  deriving DecidableEq, Repr

/-- `doGenerateCar` (lines 45-148) on `int64`, with each window-carving loop run
for at most `fuel` passes.  `sliceSize` and the file sizes are `int64` values. -/
def doGenerateCar64 (fuel : Nat) (sliceSize : Int) (graphName : String) (parallel : Int)
    (files : List Finfo) : Trace :=
  let st0 : PlanState := { cumuSize := 0, graphSliceCount := 0, graphFiles := [], calls := [] }
  if sliceSize = 0 then
    ⟨[], .returned (some "Unexpected! Slice size has been set as 0")⟩
  else if parallel ≤ 0 then
    ⟨[], .returned (some "Unexpected! Parallel has to be greater than 0")⟩
  else
    let sliceTotal := GetGraphCount64 (files.map (fun f => f.Info.size)) sliceSize
    if sliceTotal = 0 then
      ⟨[], .returned none⟩
    else
      let r := planFiles64 fuel sliceSize graphName sliceTotal files st0
      if r.ended then
        if r.st.cumuSize > 0 then
          ⟨(r.st.build graphName sliceTotal).calls, .returned none⟩
        else
          ⟨r.st.calls, .returned none⟩
      else
        ⟨r.st.calls, .running⟩

/-- Sample input: files of `2^63 - 2`, `2^63 - 2` and 5 bytes. -/
def hugeFiles : List Finfo :=
  [mkFile "/in/a" "a" 9223372036854775806, mkFile "/in/b" "b" 9223372036854775806,
   mkFile "/in/c" "c" 5]

/-- Sample input: a file of 1 byte and a file of `2^63 - 1` bytes. -/
def smallThenHuge : List Finfo :=
  [mkFile "/in/a" "a" 1, mkFile "/in/b" "b" 9223372036854775807]

/-- Sample input: one file of `2^63 - 1` bytes. -/
def oneHugeFile : List Finfo :=
  [mkFile "/in/a" "a" 9223372036854775807]

/-- Sample input: one file of 2 bytes. -/
def twoByteFile : List Finfo :=
  [mkFile "/in/a" "a" 2]

/-- Sample input: a file below `/input`, for a parent path `/in`. -/
def inputFile : List Finfo :=
  [mkFile "/input/x/f" "f" 1]

/-- Every directory node of the map lists its links in ascending order of name. -/
def NodesSorted (m : DirNodeMap) : Prop :=
  ∀ key n, m key = some n → n.Pairwise (fun a b => a.Name ≤ b.Name)

/-- The directory map built for `relinkFiles` below `/in`. -/
def relinkMap : DirNodeMap :=
  match buildIpldGraph sampleNodes relinkFiles "/in" with
  | .ok m => m
  | .error _ => DirNodeMap.init

/-- The number that a string of decimal digits denotes, leading zeros allowed. -/
def decodeDec (cs : List Char) : Nat :=
  cs.foldl (fun acc ch => 10 * acc + (ch.toNat - 48)) 0

/-! ## Theorems: planner invariants -/

theorem sliceBytes_append (xs ys : List Entry) :
    sliceBytes (xs ++ ys) = sliceBytes xs + sliceBytes ys := by
  simp [sliceBytes]

theorem sliceBytes_singleton (e : Entry) : sliceBytes [e] = e.bytes := by
  simp [sliceBytes]

theorem PlanState.flat_build (st : PlanState) (g : String) (n : Int) :
    (st.build g n).flat = st.flat := by
  simp [PlanState.build, PlanState.flat, List.flatMap_append]

/-- Closing a slice whose file list holds exactly `sliceSize` bytes keeps the
invariant. -/
theorem PlanOK.build {sliceSize : Int} {g : String} {n : Int} {st : PlanState}
    (hs : 0 < sliceSize)
    (hfull : ∀ c ∈ st.calls, sliceBytes c.graphFiles = sliceSize)
    (hcount : st.calls.length = st.graphSliceCount)
    (hnames : ∀ k (h : k < st.calls.length),
      (st.calls.get ⟨k, h⟩).graphName = GenGraphName g k n)
    (hbytes : sliceBytes st.graphFiles = sliceSize) :
    PlanOK sliceSize g n (st.build g n) := by
  refine ⟨le_refl _, hs, rfl, ?_, ?_, ?_⟩
  · intro c hc
    simp only [PlanState.build, List.mem_append, List.mem_singleton] at hc
    rcases hc with hc | hc
    · exact hfull c hc
    · subst hc; exact hbytes
  · simp [PlanState.build, hcount]
  · intro k hk
    simp only [PlanState.build, List.length_append, List.length_singleton] at hk
    by_cases hlt : k < st.calls.length
    · have := hnames k hlt
      simp only [PlanState.build, List.get_eq_getElem] at this ⊢
      rw [List.getElem_append_left hlt]
      exact this
    · have hk' : k = st.calls.length := by omega
      subst hk'
      simp [PlanState.build, hcount]

theorem PlanState.flat_push (st : PlanState) (cumu : Int) (e : Entry) :
    ({ st with cumuSize := cumu, graphFiles := st.graphFiles ++ [e] } : PlanState).flat
      = st.flat ++ [e] := by
  simp [PlanState.flat]

theorem carveLoop_done {sliceSize : Int} {g : String} {n : Int} {item : Finfo} {fileSize : Int}
    (fuel : Nat) {seekEnd : Int} (c : Nat) (st : PlanState) (h : ¬ seekEnd < fileSize - 1) :
    carveLoop sliceSize g n item fileSize fuel seekEnd c st = some st := by
  cases fuel <;> simp [carveLoop, h]

/-- With a positive slice size the carving loop ends within `fileSize - 1 - seekEnd`
steps, keeps the planner invariant and appends a chain of adjacent windows that
starts at `seekEnd + 1` and ends at the last byte of the file. -/
theorem carveLoop_spec {sliceSize : Int} {g : String} {n : Int} (item : Finfo)
    (hs : 0 < sliceSize) :
    ∀ (fuel : Nat) (seekEnd : Int) (c : Nat) (st : PlanState),
      seekEnd ≤ item.Info.size - 1 →
      item.Info.size - 1 - seekEnd ≤ fuel →
      PlanOK sliceSize g n st →
      (seekEnd < item.Info.size - 1 → st.cumuSize = 0 ∧ st.graphFiles = []) →
      ∃ st1 ws, carveLoop sliceSize g n item item.Info.size fuel seekEnd c st = some st1 ∧
        PlanOK sliceSize g n st1 ∧ IsChain item c (seekEnd + 1) ws ∧ st1.flat = st.flat ++ ws := by
  intro fuel
  induction fuel with
  | zero =>
    intro seekEnd c st hle hfuel hok _
    have hnot : ¬ seekEnd < item.Info.size - 1 := by
      have : item.Info.size - 1 - seekEnd ≤ 0 := by exact_mod_cast hfuel
      omega
    refine ⟨st, [], carveLoop_done 0 c st hnot, hok, ?_, by simp⟩
    show seekEnd + 1 = item.Info.size
    omega
  | succ fuel ih =>
    intro seekEnd c st hle hfuel hok hempty
    by_cases hlt : seekEnd < item.Info.size - 1
    · obtain ⟨hc0, hg0⟩ := hempty hlt
      have hfuel' : item.Info.size - 1 - seekEnd ≤ (fuel : Int) + 1 := by exact_mod_cast hfuel
      by_cases hclip : seekEnd + 1 + sliceSize - 1 ≥ item.Info.size - 1
      · -- the window is clipped at the last byte of the file
        by_cases hfullw : item.Info.size - 1 - (seekEnd + 1) = sliceSize - 1
        · have hbuild : PlanOK sliceSize g n
              (({ st with
                  cumuSize := st.cumuSize + (item.Info.size - 1 - (seekEnd + 1) + 1)
                  graphFiles := st.graphFiles ++
                    [Entry.window item c (seekEnd + 1) (item.Info.size - 1)] } : PlanState).build g n) := by
            refine PlanOK.build hs ?_ ?_ ?_ ?_
            · exact hok.full
            · exact hok.count
            · exact hok.names
            · show sliceBytes (st.graphFiles ++ _) = sliceSize
              simp only [hg0, List.nil_append, sliceBytes_singleton, Entry.bytes]
              omega
          obtain ⟨st1, ws, hrun, hok1, hchain, hflat⟩ :=
            ih (item.Info.size - 1) (c + 1) _ (le_refl _) (by omega) hbuild
              (fun h => absurd h (lt_irrefl _))
          refine ⟨st1, Entry.window item c (seekEnd + 1) (item.Info.size - 1) :: ws, ?_, hok1, ?_, ?_⟩
          · rw [carveLoop]
            simp only [if_pos hlt, if_pos hclip, if_pos hfullw]
            exact hrun
          · exact ⟨item.Info.size - 1, rfl, by omega, le_refl _, hchain⟩
          · rw [hflat, PlanState.flat_build, PlanState.flat_push]
            simp
        · have hok1 : PlanOK sliceSize g n
              ({ st with
                  cumuSize := st.cumuSize + (item.Info.size - 1 - (seekEnd + 1) + 1)
                  graphFiles := st.graphFiles ++
                    [Entry.window item c (seekEnd + 1) (item.Info.size - 1)] } : PlanState) := by
            refine ⟨?_, ?_, ?_, hok.full, hok.count, hok.names⟩
            · show 0 ≤ st.cumuSize + (item.Info.size - 1 - (seekEnd + 1) + 1)
              omega
            · show st.cumuSize + (item.Info.size - 1 - (seekEnd + 1) + 1) < sliceSize
              omega
            · show sliceBytes (st.graphFiles ++ _) = st.cumuSize + _
              simp only [hg0, List.nil_append, sliceBytes_singleton, Entry.bytes]
              omega
          obtain ⟨st1, ws, hrun, hok2, hchain, hflat⟩ :=
            ih (item.Info.size - 1) (c + 1) _ (le_refl _) (by omega) hok1
              (fun h => absurd h (lt_irrefl _))
          refine ⟨st1, Entry.window item c (seekEnd + 1) (item.Info.size - 1) :: ws, ?_, hok2, ?_, ?_⟩
          · rw [carveLoop]
            simp only [if_pos hlt, if_pos hclip, if_neg hfullw]
            exact hrun
          · exact ⟨item.Info.size - 1, rfl, by omega, le_refl _, hchain⟩
          · rw [hflat, PlanState.flat_push]
            simp
      · -- a full window strictly inside the file
        have hfullw : seekEnd + 1 + sliceSize - 1 - (seekEnd + 1) = sliceSize - 1 := by omega
        have hbuild : PlanOK sliceSize g n
            (({ st with
                cumuSize := st.cumuSize + (seekEnd + 1 + sliceSize - 1 - (seekEnd + 1) + 1)
                graphFiles := st.graphFiles ++
                  [Entry.window item c (seekEnd + 1) (seekEnd + 1 + sliceSize - 1)] } : PlanState).build g n) := by
          refine PlanOK.build hs ?_ ?_ ?_ ?_
          · exact hok.full
          · exact hok.count
          · exact hok.names
          · show sliceBytes (st.graphFiles ++ _) = sliceSize
            simp only [hg0, List.nil_append, sliceBytes_singleton, Entry.bytes]
            omega
        obtain ⟨st1, ws, hrun, hok1, hchain, hflat⟩ :=
          ih (seekEnd + 1 + sliceSize - 1) (c + 1) _ (by omega) (by omega) hbuild
            (fun _ => ⟨rfl, rfl⟩)
        refine ⟨st1, Entry.window item c (seekEnd + 1) (seekEnd + 1 + sliceSize - 1) :: ws, ?_, hok1, ?_, ?_⟩
        · rw [carveLoop]
          simp only [if_pos hlt, if_neg hclip, if_pos hfullw]
          exact hrun
        · exact ⟨seekEnd + 1 + sliceSize - 1, rfl, by omega, by omega, hchain⟩
        · rw [hflat, PlanState.flat_build, PlanState.flat_push]
          simp
    · refine ⟨st, [], carveLoop_done _ c st hlt, hok, ?_, by simp⟩
      show seekEnd + 1 = item.Info.size
      omega


/-- One enumerated file: the planner state stays well-formed and the file turns
into its pieces, appended to the entries planned so far. -/
theorem planFile_spec {sliceSize : Int} {g : String} {n : Int} (hs : 0 < sliceSize)
    (fuel : Nat) (st : PlanState) (item : Finfo) (hsz : 0 ≤ item.Info.size)
    (hfuel : item.Info.size ≤ fuel) (hok : PlanOK sliceSize g n st) :
    ∃ st1 ps, planFile fuel sliceSize g n st item = some st1 ∧ PlanOK sliceSize g n st1 ∧
      Pieces item ps ∧ st1.flat = st.flat ++ ps := by
  have h0 := hok.cumu_nonneg
  have h1 := hok.cumu_lt
  by_cases hlt : st.cumuSize + item.Info.size < sliceSize
  · refine ⟨{ st with cumuSize := st.cumuSize + item.Info.size,
                         graphFiles := st.graphFiles ++ [Entry.whole item] },
      [Entry.whole item], by simp only [planFile, if_pos hlt], ?_, Or.inl rfl,
      PlanState.flat_push st _ _⟩
    refine ⟨?_, hlt, ?_, hok.full, hok.count, hok.names⟩
    · show 0 ≤ st.cumuSize + item.Info.size
      omega
    · show sliceBytes (st.graphFiles ++ [Entry.whole item]) = st.cumuSize + item.Info.size
      rw [sliceBytes_append, sliceBytes_singleton, hok.cumu_eq]
      rfl
  · by_cases heq : st.cumuSize + item.Info.size = sliceSize
    · refine ⟨({ st with cumuSize := st.cumuSize + item.Info.size,
                          graphFiles := st.graphFiles ++ [Entry.whole item] } : PlanState).build g n,
        [Entry.whole item], by simp only [planFile, if_neg hlt, if_pos heq], ?_, Or.inl rfl, ?_⟩
      · refine PlanOK.build hs ?_ ?_ ?_ ?_
        · exact hok.full
        · exact hok.count
        · exact hok.names
        · show sliceBytes (st.graphFiles ++ [Entry.whole item]) = sliceSize
          rw [sliceBytes_append, sliceBytes_singleton, hok.cumu_eq]
          exact heq
      · rw [PlanState.flat_build, PlanState.flat_push]
    · have hgt : st.cumuSize + item.Info.size > sliceSize := by omega
      have hbuild : PlanOK sliceSize g n
          (({ st with graphFiles := st.graphFiles ++
                [Entry.window item 0 0 (0 + (sliceSize - st.cumuSize) - 1)] } : PlanState).build g n) := by
        refine PlanOK.build hs ?_ ?_ ?_ ?_
        · exact hok.full
        · exact hok.count
        · exact hok.names
        · show sliceBytes (st.graphFiles ++ _) = sliceSize
          rw [sliceBytes_append, sliceBytes_singleton, hok.cumu_eq]
          simp only [Entry.bytes]
          omega
      obtain ⟨st1, ws, hrun, hok1, hchain, hflat⟩ :=
        carveLoop_spec item hs fuel (0 + (sliceSize - st.cumuSize) - 1) (0 + 1) _ (by omega)
          (by omega) hbuild (fun _ => ⟨rfl, rfl⟩)
      refine ⟨st1, Entry.window item 0 0 (0 + (sliceSize - st.cumuSize) - 1) :: ws, ?_, hok1,
        Or.inr ⟨List.cons_ne_nil _ _, ?_⟩, ?_⟩
      · simp only [planFile, if_neg hlt, if_neg heq, if_pos hgt]
        exact hrun
      · exact ⟨0 + (sliceSize - st.cumuSize) - 1, rfl, by omega, by omega, hchain⟩
      · rw [hflat, PlanState.flat_build]
        have := PlanState.flat_push st st.cumuSize
          (Entry.window item 0 0 (0 + (sliceSize - st.cumuSize) - 1))
        simp only [PlanState.flat] at this ⊢
        simp

/-- The whole enumeration: every file turns into its pieces, in order. -/
theorem planFiles_spec {sliceSize : Int} {g : String} {n : Int} (hs : 0 < sliceSize)
    (fuel : Nat) :
    ∀ (files : List Finfo) (st : PlanState),
      (∀ f ∈ files, 0 ≤ f.Info.size) → (∀ f ∈ files, f.Info.size ≤ fuel) →
      PlanOK sliceSize g n st →
      ∃ st1 pcs, planFiles fuel sliceSize g n files st = some st1 ∧ PlanOK sliceSize g n st1 ∧
        List.Forall₂ Pieces files pcs ∧ st1.flat = st.flat ++ pcs.flatten := by
  intro files
  induction files with
  | nil =>
    intro st _ _ hok
    exact ⟨st, [], rfl, hok, List.Forall₂.nil, by simp⟩
  | cons item rest ih =>
    intro st hsz hfuel hok
    obtain ⟨st1, ps, hrun1, hok1, hps, hflat1⟩ :=
      planFile_spec hs fuel st item (hsz item (List.mem_cons_self _ _))
        (hfuel item (List.mem_cons_self _ _)) hok
    obtain ⟨st2, pcs, hrun2, hok2, hpcs, hflat2⟩ :=
      ih st1 (fun f hf => hsz f (List.mem_cons_of_mem _ hf))
        (fun f hf => hfuel f (List.mem_cons_of_mem _ hf)) hok1
    refine ⟨st2, ps :: pcs, ?_, hok2, List.Forall₂.cons hps hpcs, ?_⟩
    · simp only [planFiles, hrun1]
      exact hrun2
    · rw [hflat2, hflat1]
      simp


theorem GetGraphCount_eq (sizes : List Int) (sliceSize : Int) :
    GetGraphCount sizes sliceSize
      = if sizes.sum = 0 then 0 else Int.tdiv sizes.sum sliceSize + 1 := by
  simp only [GetGraphCount, List.sum_eq_foldl]

theorem GetGraphCount_ne_zero {sizes : List Int} {sliceSize : Int} (hs : 0 < sliceSize)
    (hsz : ∀ x ∈ sizes, 0 ≤ x) (hne : sizes.sum ≠ 0) : GetGraphCount sizes sliceSize ≠ 0 := by
  rw [GetGraphCount_eq, if_neg hne]
  have h1 : 0 ≤ sizes.sum := List.sum_nonneg hsz
  have h2 : 0 ≤ Int.tdiv sizes.sum sliceSize := Int.tdiv_nonneg h1 (le_of_lt hs)
  omega

theorem forall₂_pieces_whole (files : List Finfo) :
    List.Forall₂ Pieces files (files.map (fun f => [Entry.whole f])) := by
  induction files with
  | nil => exact List.Forall₂.nil
  | cons f fs ih => exact List.Forall₂.cons (Or.inl rfl) ih

theorem flatten_map_whole (files : List Finfo) :
    (files.map (fun f => [Entry.whole f])).flatten = files.map Entry.whole := by
  induction files with
  | nil => rfl
  | cons f fs ih => simp [ih]

theorem sliceBytes_map_whole (files : List Finfo) :
    sliceBytes (files.map Entry.whole) = (files.map (fun f => f.Info.size)).sum := by
  induction files with
  | nil => rfl
  | cons f fs ih =>
    simp only [sliceBytes, List.map_cons, List.sum_cons, Entry.bytes] at ih ⊢
    rw [ih]

/-- The planner as a whole, for a positive slice size and parallelism: it returns
without error; every file list handed to `BuildIpldGraph` holds at most
`sliceSize` bytes; the entries handed over, followed by the entries `rest` still
pending when the function returns, are the pieces of the enumerated files in
enumeration order; the pending entries hold no byte; the `k`-th call carries the
name `GenGraphName graphName k sliceTotal`. -/
theorem doGenerateCar_spec {sliceSize : Int} (g : String) {parallel : Int}
    (hs : 0 < sliceSize) (hp : 0 < parallel) (fuel : Nat) (files : List Finfo)
    (hsz : ∀ f ∈ files, 0 ≤ f.Info.size) (hfuel : ∀ f ∈ files, f.Info.size ≤ fuel) :
    ∃ calls pcs rest, doGenerateCar fuel sliceSize g parallel files = some (.done calls) ∧
      (∀ c ∈ calls, sliceBytes c.graphFiles ≤ sliceSize) ∧
      List.Forall₂ Pieces files pcs ∧
      calls.flatMap (fun c => c.graphFiles) ++ rest = pcs.flatten ∧
      sliceBytes rest = 0 ∧
      (∀ k (h : k < calls.length), (calls.get ⟨k, h⟩).graphName
        = GenGraphName g k (GetGraphCount (files.map (fun f => f.Info.size)) sliceSize)) := by
  have hs0 : ¬ sliceSize = 0 := by omega
  have hp0 : ¬ parallel ≤ 0 := by omega
  have hsz' : ∀ x ∈ files.map (fun f => f.Info.size), 0 ≤ x := by
    intro x hx
    obtain ⟨f, hf, rfl⟩ := List.mem_map.1 hx
    exact hsz f hf
  by_cases htot : (files.map (fun f => f.Info.size)).sum = 0
  · have hcount : GetGraphCount (files.map (fun f => f.Info.size)) sliceSize = 0 := by
      rw [GetGraphCount_eq, if_pos htot]
    refine ⟨[], files.map (fun f => [Entry.whole f]), files.map Entry.whole, ?_, ?_,
      forall₂_pieces_whole files, ?_, ?_, ?_⟩
    · simp only [doGenerateCar, if_neg hs0, if_neg hp0, hcount, if_true]
    · intro c hc
      cases hc
    · simp [flatten_map_whole]
    · rw [sliceBytes_map_whole, htot]
    · intro k hk
      exact absurd hk (Nat.not_lt_zero _)
  · have hcount := GetGraphCount_ne_zero hs hsz' htot
    have hok0 : PlanOK sliceSize g (GetGraphCount (files.map (fun f => f.Info.size)) sliceSize)
        { cumuSize := 0, graphSliceCount := 0, graphFiles := [], calls := [] } :=
      ⟨le_refl _, hs, rfl, fun c hc => (by cases hc), rfl,
        fun k hk => absurd hk (Nat.not_lt_zero _)⟩
    obtain ⟨st, pcs, hrun, hok, hpcs, hflat⟩ :=
      planFiles_spec hs fuel files _ hsz hfuel hok0
    by_cases hcumu : st.cumuSize > 0
    · have hokb : ∀ c ∈ (st.build g
          (GetGraphCount (files.map (fun f => f.Info.size)) sliceSize)).calls,
          sliceBytes c.graphFiles ≤ sliceSize := by
        intro c hc
        simp only [PlanState.build, List.mem_append, List.mem_singleton] at hc
        rcases hc with hc | hc
        · exact le_of_eq (hok.full c hc)
        · subst hc
          show sliceBytes st.graphFiles ≤ sliceSize
          rw [hok.cumu_eq]
          exact le_of_lt hok.cumu_lt
      refine ⟨_, pcs, [], ?_, hokb, hpcs, ?_, rfl, ?_⟩
      · simp only [doGenerateCar, if_neg hs0, if_neg hp0, if_neg hcount, hrun, if_pos hcumu]
      · have := PlanState.flat_build st g
          (GetGraphCount (files.map (fun f => f.Info.size)) sliceSize)
        simp only [PlanState.flat, PlanState.build] at this hflat ⊢
        simp only [List.append_nil] at this ⊢
        rw [this, hflat]
        simp
      · intro k hk
        simp only [PlanState.build, List.length_append, List.length_singleton] at hk
        by_cases hlt : k < st.calls.length
        · have := hok.names k hlt
          simp only [PlanState.build, List.get_eq_getElem] at this ⊢
          rw [List.getElem_append_left hlt]
          exact this
        · have hk' : k = st.calls.length := by omega
          subst hk'
          simp [PlanState.build, hok.count]
    · refine ⟨st.calls, pcs, st.graphFiles, ?_, fun c hc => le_of_eq (hok.full c hc), hpcs, ?_,
        ?_, hok.names⟩
      · simp only [doGenerateCar, if_neg hs0, if_neg hp0, if_neg hcount, hrun, if_neg hcumu]
      · simpa [PlanState.flat] using hflat
      · rw [hok.cumu_eq]
        have := hok.cumu_nonneg
        omega


/-! ## Theorems: contents of the planned slices -/

/-- A chain of adjacent windows starting at byte `s` holds the bytes of the file
from `s` on, and each window holds as many bytes as it counts. -/
theorem isChain_content {disk : String → List UInt8} {item : Finfo}
    (hlen : item.Info.size = (disk item.Path).length) :
    ∀ (ws : List Entry) (c : Nat) (s : Int), 0 ≤ s → IsChain item c s ws →
      ws.flatMap (Entry.content disk) = (disk item.Path).drop s.toNat ∧
      ∀ e ∈ ws, (((Entry.content disk e).length : Nat) : Int) = e.bytes := by
  intro ws
  induction ws with
  | nil =>
    intro c s hs hch
    have hsz : s = item.Info.size := hch
    refine ⟨?_, fun e he => by cases he⟩
    simp only [List.flatMap_nil]
    symm
    apply List.drop_eq_nil_of_le
    omega
  | cons e es ih =>
    intro c s hs hch
    obtain ⟨t, he, hst, htz, hrest⟩ := hch
    obtain ⟨hcat, hlens⟩ := ih (c + 1) (t + 1) (by omega) hrest
    subst he
    constructor
    · rw [List.flatMap_cons, hcat]
      simp only [Entry.content]
      have h1 : (t + 1).toNat = s.toNat + (t - s + 1).toNat := by omega
      rw [h1, ← List.drop_drop]
      exact List.take_append_drop _ _
    · intro e he
      rcases List.mem_cons.1 he with he | he
      · subst he
        simp only [Entry.content, Entry.bytes, List.length_take, List.length_drop]
        omega
      · exact hlens e he

/-- The pieces of a file hold the bytes of the file, and each piece holds as many
bytes as it counts. -/
theorem pieces_content {disk : String → List UInt8} {item : Finfo} {ps : List Entry}
    (hlen : item.Info.size = (disk item.Path).length) (hps : Pieces item ps) :
    ps.flatMap (Entry.content disk) = disk item.Path ∧
      ∀ e ∈ ps, (((Entry.content disk e).length : Nat) : Int) = e.bytes := by
  rcases hps with rfl | ⟨_, hch⟩
  · refine ⟨by simp [Entry.content], ?_⟩
    intro e he
    rw [List.mem_singleton.1 he]
    simp only [Entry.content, Entry.bytes]
    exact hlen.symm
  · have := isChain_content hlen ps 0 0 (le_refl _) hch
    simpa using this

theorem forall₂_pieces_content {disk : String → List UInt8} :
    ∀ {files : List Finfo} {pcs : List (List Entry)},
      (∀ f ∈ files, f.Info.size = (disk f.Path).length) → List.Forall₂ Pieces files pcs →
      pcs.flatten.flatMap (Entry.content disk) = files.flatMap (fun f => disk f.Path) ∧
      ∀ e ∈ pcs.flatten, (((Entry.content disk e).length : Nat) : Int) = e.bytes := by
  intro files pcs hlen h
  induction h with
  | nil => exact ⟨rfl, fun e he => by cases he⟩
  | @cons f ps fs pss hps _ ih =>
    obtain ⟨h1, h2⟩ := pieces_content (hlen f (List.mem_cons_self _ _)) hps
    obtain ⟨h3, h4⟩ := ih (fun f hf => hlen f (List.mem_cons_of_mem _ hf))
    constructor
    · simp only [List.flatten_cons, List.flatMap_append, List.flatMap_cons, h1, h3]
    · intro e he
      simp only [List.flatten_cons, List.mem_append] at he
      rcases he with he | he
      · exact h2 e he
      · exact h4 e he

/-- Entries that count no byte hold no byte. -/
theorem content_nil_of_sliceBytes {disk : String → List UInt8} :
    ∀ (es : List Entry), (∀ e ∈ es, (((Entry.content disk e).length : Nat) : Int) = e.bytes) →
      sliceBytes es = 0 → es.flatMap (Entry.content disk) = [] := by
  intro es hlen hzero
  have hsum : (((es.flatMap (Entry.content disk)).length : Nat) : Int) = sliceBytes es := by
    clear hzero
    induction es with
    | nil => rfl
    | cons e es ih =>
      have h1 := hlen e (List.mem_cons_self _ _)
      have h2 := ih (fun e he => hlen e (List.mem_cons_of_mem _ he))
      simp only [List.flatMap_cons, List.length_append, Nat.cast_add, sliceBytes, List.map_cons,
        List.sum_cons] at h2 ⊢
      rw [h1, h2]
  rw [hzero] at hsum
  exact List.length_eq_zero.1 (by exact_mod_cast hsum)


/-! ## Theorems: shape of the planned entries -/

theorem isChain_wellFormed {item : Finfo} :
    ∀ (ws : List Entry) (c : Nat) (s : Int), 0 ≤ s → IsChain item c s ws →
      ∀ e ∈ ws, Entry.WellFormedFor item e := by
  intro ws
  induction ws with
  | nil => intro c s _ _ e he; cases he
  | cons w ws ih =>
    intro c s hs hch e he
    obtain ⟨t, hw, hst, htz, hrest⟩ := hch
    rcases List.mem_cons.1 he with he | he
    · subst he
      exact Or.inr ⟨c, s, t, hw, hs, hst, htz⟩
    · exact ih (c + 1) (t + 1) (by omega) hrest e he

theorem pieces_wellFormed {item : Finfo} {ps : List Entry} (hps : Pieces item ps) :
    ∀ e ∈ ps, Entry.WellFormedFor item e := by
  rcases hps with rfl | ⟨_, hch⟩
  · intro e he
    exact Or.inl (List.mem_singleton.1 he)
  · exact isChain_wellFormed ps 0 0 (le_refl _) hch

theorem forall₂_pieces_wellFormed :
    ∀ {files : List Finfo} {pcs : List (List Entry)}, List.Forall₂ Pieces files pcs →
      ∀ e ∈ pcs.flatten, ∃ item ∈ files, Entry.WellFormedFor item e := by
  intro files pcs h
  induction h with
  | nil => intro e he; cases he
  | @cons f ps fs pss hps _ ih =>
    intro e he
    simp only [List.flatten_cons, List.mem_append] at he
    rcases he with he | he
    · exact ⟨f, List.mem_cons_self _ _, pieces_wellFormed hps e he⟩
    · obtain ⟨item, hitem, hwf⟩ := ih e he
      exact ⟨item, List.mem_cons_of_mem _ hitem, hwf⟩

theorem Entry.WellFormedFor.bytes_nonneg {item : Finfo} {e : Entry}
    (h : Entry.WellFormedFor item e) (hsz : 0 ≤ item.Info.size) :
    0 ≤ e.bytes ∧ (e.isWindow = true → 1 ≤ e.bytes) := by
  rcases h with rfl | ⟨k, s, t, rfl, _, hst, _⟩
  · exact ⟨hsz, fun h => by cases h⟩
  · simp only [Entry.bytes]
    constructor
    · omega
    · intro _; omega

theorem sliceBytes_eq_zero {es : List Entry} (hnn : ∀ e ∈ es, 0 ≤ e.bytes)
    (hzero : sliceBytes es = 0) : ∀ e ∈ es, e.bytes = 0 := by
  induction es with
  | nil => intro e he; cases he
  | cons x xs ih =>
    have hx := hnn x (List.mem_cons_self _ _)
    have hxs : 0 ≤ sliceBytes xs :=
      List.sum_nonneg (by
        intro b hb
        obtain ⟨e, he, rfl⟩ := List.mem_map.1 hb
        exact hnn e (List.mem_cons_of_mem _ he))
    have hsum : x.bytes + sliceBytes xs = 0 := by
      simpa [sliceBytes] using hzero
    intro e he
    rcases List.mem_cons.1 he with he | he
    · subst he; omega
    · exact ih (fun e he => hnn e (List.mem_cons_of_mem _ he)) (by omega) e he


/-! ## Claims about the slice planner -/

/-! ## Theorems: windowed reads -/

theorem SliceInv.length {fs : fileSlice} {w : List UInt8} (h : SliceInv fs w) :
    (w.length : Int) = fs.end_ + 1 - fs.offset := by
  have h1 := h.size
  have h2 := h.end_le
  have h3 := h.offset_le
  have h4 := h.start_nonneg
  have h5 := h.start_le
  rw [h.window, List.length_take, List.length_drop]
  omega

theorem OsFile.Read_eq (f : OsFile) (n : Nat) (got : List UInt8)
    (hgot : (f.data.drop f.pos).take n = got) (h : ¬ (n ≠ 0 ∧ got = [])) :
    f.Read n = (⟨got, none⟩, { f with pos := f.pos + got.length }) := by
  subst hgot
  simp only [OsFile.Read, if_neg h]

/-- One pass through lines 496-522 on a positioned slice delivers the next bytes
of the window and leaves the slice positioned. -/
theorem fileSlice.readBody_spec {fs : fileSlice} {w : List UInt8} (h : SliceInv fs w)
    (plen : Nat) :
    ∃ fs1, fs.readBody plen
        = (⟨w.take plen, if w.length ≤ plen then some .eof else none⟩, fs1) ∧
      SliceInv fs1 (w.drop plen) := by
  have hlen := h.length
  have h1 := h.size
  have h2 := h.end_le
  have h3 := h.offset_le
  have h4 := h.start_nonneg
  have h5 := h.start_le
  have h6 := h.end_pos
  have hpos := h.pos
  by_cases hz : fs.end_ - fs.offset + 1 = 0
  · have hw : w = [] := List.length_eq_zero.1 (by omega)
    refine ⟨fs, ?_, ?_⟩
    · simp only [fileSlice.readBody, if_pos hz, hw, List.take_nil, List.length_nil,
        Nat.zero_le, if_true]
    · rw [hw, List.drop_nil, ← hw]
      exact h
  · have hneg : ¬ fs.end_ - fs.offset + 1 < 0 := by omega
    by_cases hbig : fs.end_ - fs.offset + 1 > (plen : Int)
    · -- the buffer is smaller than what is left of the window
      have hgot : (fs.r.data.drop fs.r.pos).take plen = w.take plen := by
        rw [h.window, hpos, List.take_take]
        congr 1
        omega
      have hgotlen : (w.take plen).length = plen := by
        rw [List.length_take]
        omega
      have hne : ¬ (plen ≠ 0 ∧ w.take plen = []) := by
        rintro ⟨hp, he⟩
        have := congrArg List.length he
        rw [hgotlen] at this
        exact hp this
      have hnle : ¬ w.length ≤ plen := by omega
      refine ⟨{ fs with r := { fs.r with pos := fs.r.pos + (w.take plen).length },
                        offset := fs.offset + ((w.take plen).length : Nat) }, ?_, ?_⟩
      · simp only [fileSlice.readBody, if_neg hz, if_neg hneg, if_pos hbig,
          OsFile.Read_eq fs.r plen _ hgot hne, if_neg hnle]
      · refine ⟨h6, h2, h1, h4, ?_, ?_, ?_, ?_⟩
        · show fs.start ≤ fs.offset + ((w.take plen).length : Nat)
          omega
        · show fs.offset + ((w.take plen).length : Nat) ≤ fs.end_ + 1
          rw [hgotlen]
          omega
        · show fs.r.pos + (w.take plen).length = (fs.offset + ((w.take plen).length : Nat)).toNat
          omega
        · show w.drop plen = (fs.r.data.drop (fs.offset + ((w.take plen).length : Nat)).toNat).take
            (fs.end_ + 1 - (fs.offset + ((w.take plen).length : Nat))).toNat
          rw [hgotlen, h.window, List.drop_take, List.drop_drop]
          congr 2 <;> omega
    · -- the buffer takes all that is left of the window
      have hleft : (fs.end_ - fs.offset + 1).toNat = w.length := by omega
      have hgot : (fs.r.data.drop fs.r.pos).take w.length = w := by
        rw [← hleft]
        conv_rhs => rw [h.window]
        rw [hpos]
        congr 1
        omega
      have hwne : w ≠ [] := by
        intro he
        rw [he] at hlen
        simp only [List.length_nil, Nat.cast_zero] at hlen
        omega
      have hne : ¬ (w.length ≠ 0 ∧ w = []) := by
        rintro ⟨_, he⟩
        exact hwne he
      have hle : w.length ≤ plen := by omega
      refine ⟨{ fs with r := { fs.r with pos := fs.r.pos + w.length },
                        offset := fs.offset + (w.length : Nat) }, ?_, ?_⟩
      · simp only [fileSlice.readBody, if_neg hz, if_neg hneg, if_neg hbig,
          OsFile.Read_eq fs.r _ _ hgot hne, if_pos hle, hleft, Nat.sub_self,
          List.replicate_zero, List.append_nil, List.take_of_length_le hle]
      · refine ⟨h6, h2, h1, h4, ?_, ?_, ?_, ?_⟩
        · show fs.start ≤ fs.offset + (w.length : Nat)
          omega
        · show fs.offset + (w.length : Nat) ≤ fs.end_ + 1
          omega
        · show fs.r.pos + w.length = (fs.offset + (w.length : Nat)).toNat
          omega
        · show w.drop plen = (fs.r.data.drop (fs.offset + (w.length : Nat)).toNat).take
            (fs.end_ + 1 - (fs.offset + (w.length : Nat))).toNat
          rw [List.drop_eq_nil_of_le hle]
          have : (fs.end_ + 1 - (fs.offset + (w.length : Nat))).toNat = 0 := by omega
          rw [this, List.take_zero]

/-- One `Read` on a positioned slice delivers the next bytes of the window and
leaves the slice positioned. -/
theorem fileSlice.Read_spec {fs : fileSlice} {w : List UInt8} (h : SliceInv fs w)
    (plen : Nat) :
    ∃ fs1, fs.Read plen
        = (⟨w.take plen, if w.length ≤ plen then some .eof else none⟩, fs1) ∧
      SliceInv fs1 (w.drop plen) := by
  have hend : ¬ fs.end_ = 0 := ne_of_gt h.end_pos
  have hseek : ¬ (fs.offset = 0 ∧ fs.start > 0) := by
    have := h.start_le
    omega
  obtain ⟨fs1, hrun, hinv⟩ := fileSlice.readBody_spec h plen
  refine ⟨fs1, ?_, hinv⟩
  simp only [fileSlice.Read, if_neg hend, if_neg hseek]
  exact hrun

theorem fileSlice.readSeq_spec :
    ∀ (bufs : List Nat) (fs : fileSlice) (w : List UInt8), SliceInv fs w →
      fs.readSeq bufs = windowReads w bufs := by
  intro bufs
  induction bufs with
  | nil => intro fs w _; rfl
  | cons plen rest ih =>
    intro fs w h
    obtain ⟨fs1, hrun, hinv⟩ := fileSlice.Read_spec h plen
    simp only [fileSlice.readSeq, hrun, windowReads]
    rw [ih fs1 _ hinv]

/-- C7: a `fileSlice` with `0 ≤ start ≤ end ≤ fileSize - 1` and `end > 0`, over a
file holding `fileSize` bytes, answers every sequence of `Read` calls as the
window `start..end` of the file read in order: each call delivers the next bytes
of the window and nothing beyond it, end-of-input comes with the call that
delivers the last byte of the window, every later call delivers 0 bytes with
end-of-input, and no other error (in particular not "read data out bound of the
slice") is returned. -/
theorem fileSlice_reads_window (data : List UInt8) (start end_ fileSize : Int)
    (bufs : List Nat) (hsize : fileSize = (data.length : Int)) (h0 : 0 ≤ start)
    (hse : start ≤ end_) (hend : end_ ≤ fileSize - 1) (hpos : 0 < end_) :
    (fileSlice.new data start end_ fileSize).readSeq bufs
      = windowReads ((data.drop start.toNat).take (end_ - start + 1).toNat) bufs := by
  have hinv : SliceInv
      { r := ⟨data, start.toNat⟩, offset := start, start := start, end_ := end_,
        fileSize := fileSize }
      ((data.drop start.toNat).take (end_ - start + 1).toNat) := by
    refine ⟨hpos, hend, hsize.symm, h0, le_refl _, by show start ≤ end_ + 1; omega, rfl, ?_⟩
    show _ = (data.drop start.toNat).take (end_ + 1 - start).toNat
    congr 1
    omega
  by_cases hs : start = 0
  · subst hs
    exact fileSlice.readSeq_spec bufs _ _ hinv
  · cases bufs with
    | nil => rfl
    | cons plen rest =>
      obtain ⟨fs1, hrun, hinv1⟩ := fileSlice.readBody_spec hinv plen
      have hend0 : ¬ end_ = 0 := ne_of_gt hpos
      have hseek : True ∧ start > 0 := ⟨trivial, by omega⟩
      have hneg : ¬ start < 0 := by omega
      have hstep : (fileSlice.new data start end_ fileSize).Read plen
          = (⟨((data.drop start.toNat).take (end_ - start + 1).toNat).take plen,
              if ((data.drop start.toNat).take (end_ - start + 1).toNat).length ≤ plen
                then some .eof else none⟩, fs1) := by
        simp only [fileSlice.Read, fileSlice.new, if_neg hend0, OsFile.Seek, if_neg hneg]
        rw [if_pos hseek]
        exact hrun
      simp only [fileSlice.readSeq, hstep, windowReads]
      rw [fileSlice.readSeq_spec rest fs1 _ hinv1]

theorem fileSlice_reads_window_witness :
    (fileSlice.new [10, 11, 12, 13, 14, 15, 16, 17, 18, 19] 2 6 10).readSeq [2, 2, 2, 2]
      = windowReads
          (([10, 11, 12, 13, 14, 15, 16, 17, 18, 19] : List UInt8).drop (2 : Int).toNat
            |>.take ((6 : Int) - 2 + 1).toNat) [2, 2, 2, 2] :=
  fileSlice_reads_window [10, 11, 12, 13, 14, 15, 16, 17, 18, 19] 2 6 10 [2, 2, 2, 2]
    (by decide) (by decide) (by decide) (by decide) (by decide)


/-! ## Theorems: number of slices -/

theorem sliceBytes_flatMap_full {sliceSize : Int} :
    ∀ (calls : List BuildCall), (∀ c ∈ calls, sliceBytes c.graphFiles = sliceSize) →
      sliceBytes (calls.flatMap (fun c => c.graphFiles)) = calls.length * sliceSize := by
  intro calls
  induction calls with
  | nil => intro _; simp [sliceBytes]
  | cons c cs ih =>
    intro h
    rw [List.flatMap_cons, sliceBytes_append, h c (List.mem_cons_self _ _),
      ih (fun x hx => h x (List.mem_cons_of_mem _ hx))]
    simp only [List.length_cons, Nat.cast_add, Nat.cast_one]
    ring

theorem isChain_bytes {item : Finfo} :
    ∀ (ws : List Entry) (c : Nat) (s : Int), IsChain item c s ws →
      sliceBytes ws = item.Info.size - s := by
  intro ws
  induction ws with
  | nil =>
    intro c s hch
    have hsz : s = item.Info.size := hch
    simp [sliceBytes, hsz]
  | cons w ws ih =>
    intro c s hch
    obtain ⟨t, hw, _, _, hrest⟩ := hch
    have h1 := ih (c + 1) (t + 1) hrest
    have h2 : sliceBytes (w :: ws) = w.bytes + sliceBytes ws := by
      simp [sliceBytes]
    rw [h2, h1, hw]
    simp only [Entry.bytes]
    ring

theorem pieces_bytes {item : Finfo} {ps : List Entry} (hps : Pieces item ps) :
    sliceBytes ps = item.Info.size := by
  rcases hps with rfl | ⟨_, hch⟩
  · simp [sliceBytes, Entry.bytes]
  · rw [isChain_bytes ps 0 0 hch]
    ring

theorem forall₂_pieces_bytes :
    ∀ {files : List Finfo} {pcs : List (List Entry)}, List.Forall₂ Pieces files pcs →
      sliceBytes pcs.flatten = (files.map (fun f => f.Info.size)).sum := by
  intro files pcs h
  induction h with
  | nil => rfl
  | @cons f ps fs pss hps _ ih =>
    rw [List.flatten_cons, sliceBytes_append, pieces_bytes hps, ih]
    simp

/-- For a positive slice size and parallelism, the number of slices `doGenerateCar`
emits is the total size divided by the slice size, rounded up. -/
theorem doGenerateCar_count {sliceSize : Int} (g : String) {parallel : Int}
    (hs : 0 < sliceSize) (hp : 0 < parallel) (fuel : Nat) (files : List Finfo)
    (hsz : ∀ f ∈ files, 0 ≤ f.Info.size) (hfuel : ∀ f ∈ files, f.Info.size ≤ fuel) :
    ∃ calls, doGenerateCar fuel sliceSize g parallel files = some (.done calls) ∧
      (calls.length : Int)
        = ((files.map (fun f => f.Info.size)).sum + sliceSize - 1) / sliceSize := by
  have hs0 : ¬ sliceSize = 0 := by omega
  have hp0 : ¬ parallel ≤ 0 := by omega
  have hsz1 : ∀ x ∈ files.map (fun f => f.Info.size), 0 ≤ x := by
    intro x hx
    obtain ⟨f, hf, rfl⟩ := List.mem_map.1 hx
    exact hsz f hf
  by_cases htot : (files.map (fun f => f.Info.size)).sum = 0
  · have hcount : GetGraphCount (files.map (fun f => f.Info.size)) sliceSize = 0 := by
      rw [GetGraphCount_eq, if_pos htot]
    refine ⟨[], by simp only [doGenerateCar, if_neg hs0, if_neg hp0, hcount, if_true], ?_⟩
    rw [htot, zero_add, Int.ediv_eq_zero_of_lt (by omega) (by omega)]
    rfl
  · have hcount := GetGraphCount_ne_zero hs hsz1 htot
    have hok0 : PlanOK sliceSize g (GetGraphCount (files.map (fun f => f.Info.size)) sliceSize)
        { cumuSize := 0, graphSliceCount := 0, graphFiles := [], calls := [] } :=
      ⟨le_refl _, hs, rfl, fun c hc => (by cases hc), rfl,
        fun k hk => absurd hk (Nat.not_lt_zero _)⟩
    obtain ⟨st, pcs, hrun, hok, hpcs, hflat⟩ :=
      planFiles_spec hs fuel files _ hsz hfuel hok0
    have htotal : (st.calls.length : Int) * sliceSize + st.cumuSize
        = (files.map (fun f => f.Info.size)).sum := by
      rw [← forall₂_pieces_bytes hpcs]
      have : pcs.flatten = st.flat := by
        rw [hflat]
        simp [PlanState.flat]
      rw [this, PlanState.flat, sliceBytes_append, sliceBytes_flatMap_full _ hok.full,
        hok.cumu_eq]
    have h0 := hok.cumu_nonneg
    have h1 := hok.cumu_lt
    by_cases hcumu : st.cumuSize > 0
    · refine ⟨(st.build g
          (GetGraphCount (files.map (fun f => f.Info.size)) sliceSize)).calls,
        by simp only [doGenerateCar, if_neg hs0, if_neg hp0, if_neg hcount, hrun, if_pos hcumu],
        ?_⟩
      have hform : (files.map (fun f => f.Info.size)).sum + sliceSize - 1
          = (st.cumuSize - 1) + sliceSize * ((st.calls.length : Int) + 1) := by
        rw [← htotal]
        ring
      rw [hform, Int.add_mul_ediv_left _ _ (ne_of_gt hs),
        Int.ediv_eq_zero_of_lt (by omega) (by omega)]
      simp [PlanState.build]
    · refine ⟨st.calls,
        by simp only [doGenerateCar, if_neg hs0, if_neg hp0, if_neg hcount, hrun, if_neg hcumu],
        ?_⟩
      have hc0 : st.cumuSize = 0 := by omega
      have hform : (files.map (fun f => f.Info.size)).sum + sliceSize - 1
          = (sliceSize - 1) + sliceSize * (st.calls.length : Int) := by
        rw [← htotal, hc0]
        ring
      rw [hform, Int.add_mul_ediv_left _ _ (ne_of_gt hs),
        Int.ediv_eq_zero_of_lt (by omega) (by omega)]
      simp


/-! ## Claims the code does not meet -/

/-- For a total that is a positive multiple `k * sliceSize` of the slice size,
`GetGraphCount` returns `k + 1`. -/
theorem GetGraphCount_multiple (sliceSize k : Int) (hs : 0 < sliceSize) (hk : 0 < k) :
    GetGraphCount [k * sliceSize] sliceSize = k + 1 := by
  have hne : ¬ k * sliceSize = 0 := by
    have := Int.mul_pos hk hs
    omega
  have hs0 : sliceSize ≠ 0 := by omega
  simp only [GetGraphCount, List.foldl_cons, List.foldl_nil, zero_add, if_neg hne]
  rw [Int.mul_tdiv_cancel _ hs0]

/-- C3 (code defect): one 10-byte file and `sliceSize = 10` give a total that is a
positive multiple of the slice size; `ceil(total / sliceSize)` is 1 and
`GetGraphCount` returns 2. -/
theorem GetGraphCount_exact_multiple : GetGraphCount [10] 10 = 2 := by
  decide

/-- C4 (code defect): on one 10-byte file with `sliceSize = 10`, `doGenerateCar`
emits exactly one slice while the slice total used in its name, the value of
`GetGraphCount`, is 2; the slice is named `g-total-2-part-1.car` and no
`part-2` is produced. -/
theorem doGenerateCar_exact_multiple :
    doGenerateCar 10 10 "g" 1 [mkFile "/in/a" "a" 10]
        = some (.done [⟨[Entry.whole (mkFile "/in/a" "a" 10)], "g-total-2-part-1.car"⟩]) ∧
      GetGraphCount ([mkFile "/in/a" "a" 10].map (fun f => f.Info.size)) 10 = 2 := by
  decide

/-- `doGenerateCar` returns a configuration error exactly when `sliceSize = 0` or
`parallel ≤ 0`. -/
theorem doGenerateCar_error_iff (fuel : Nat) (sliceSize : Int) (graphName : String)
    (parallel : Int) (files : List Finfo) :
    (∃ msg, doGenerateCar fuel sliceSize graphName parallel files = some (.error msg))
      ↔ (sliceSize = 0 ∨ parallel ≤ 0) := by
  constructor
  · rintro ⟨msg, h⟩
    by_contra hcon
    have hs0 : ¬ sliceSize = 0 := fun h => hcon (Or.inl h)
    have hp0 : ¬ parallel ≤ 0 := fun h => hcon (Or.inr h)
    simp only [doGenerateCar, if_neg hs0, if_neg hp0] at h
    split at h
    · cases h
    · split at h
      · cases h
      · split at h <;> cases h
  · rintro (h | h)
    · exact ⟨"Unexpected! Slice size has been set as 0",
        by simp only [doGenerateCar, if_pos h]⟩
    · by_cases hs0 : sliceSize = 0
      · exact ⟨"Unexpected! Slice size has been set as 0",
          by simp only [doGenerateCar, if_pos hs0]⟩
      · exact ⟨"Unexpected! Parallel has to be greater than 0",
          by simp only [doGenerateCar, if_neg hs0, if_pos h]⟩

/-- C5 (code defect): with `sliceSize = -1` and `parallel = 1`, `doGenerateCar`
returns `nil`, not an error: the guard of line 49 tests `sliceSize == 0` only. -/
theorem doGenerateCar_negative_sliceSize :
    doGenerateCar 0 (-1) "g" 1 [mkFile "/in/c" "c" 0] = some (.done []) := by
  decide

/-- C6 (code defect): with `sliceSize = 10`, a 9-byte file followed by a 25-byte
file leaves one byte of room, so the first slice ends with the window `[0, 0]` of
the second file; for that entry `BuildFileNode` hands the chunker all 25 bytes of
the file, not the one byte of the window. -/
theorem BuildFileNode_window_zero_zero :
    (doGenerateCar 25 10 "g" 1 sampleFiles).map
        (fun out => out.calls.head?.map (fun c => c.graphFiles))
      = some (some [Entry.whole (mkFile "/in/a" "a" 9),
          Entry.window (mkFile "/in/b" "b" 25) 0 0 0]) ∧
    BuildFileNode.chunkerInput sampleDisk 2 (Entry.window (mkFile "/in/b" "b" 25) 0 0 0).toFinfo
      = some ⟨sampleDisk "/in/b", some .eof⟩ ∧
    (sampleDisk "/in/b").length = 25 := by
  decide


/-! ## Theorems: directory keys -/

theorem intercalate_snoc {α : Type} (sep : List α) (xs : List (List α)) (x : List α) :
    sep.intercalate (xs ++ [x]) = (xs.map (fun d => d ++ sep)).flatten ++ x := by
  induction xs with
  | nil => simp [List.intercalate]
  | cons y ys ih =>
    cases ys with
    | nil => simp [List.intercalate]
    | cons z zs =>
      have h2 : sep.intercalate (y :: (z :: zs ++ [x]))
          = y ++ sep ++ sep.intercalate (z :: zs ++ [x]) := by
        simp [List.intercalate]
      rw [List.cons_append, h2, ih]
      simp

theorem dirKeyOf_of_ne_nil (p : List String) (h : p ≠ []) :
    dirKeyOf p = String.mk (['.'].intercalate (p.map String.data)) := by
  cases p with
  | nil => exact absurd rfl h
  | cons a as => rfl

theorem getDirKey_fold (dirList : List String) (i : Nat) :
    ∀ n, n ≤ i → n ≤ dirList.length →
      ((List.range n).foldl
        (fun key j =>
          let key := key ++ dirList.getD j ""
          if j < i then key ++ "." else key) "").data
        = ((dirList.take n).map (fun d => d.data ++ ['.'])).flatten := by
  intro n
  induction n with
  | zero => intro _ _; rfl
  | succ n ih =>
    intro hn hlen
    have hlt : n < i := hn
    have hn' : n < dirList.length := hlen
    rw [List.range_succ, List.foldl_append, List.foldl_cons, List.foldl_nil]
    simp only [if_pos hlt, String.data_append, ih (Nat.le_of_lt hlt) (Nat.le_of_lt hn')]
    rw [List.take_succ, List.getElem?_eq_getElem hn', List.getD_eq_getElem _ _ hn']
    simp only [Option.toList_some, List.map_append, List.map_cons, List.map_nil,
      List.flatten_append, List.flatten_cons, List.flatten_nil, List.append_nil,
      List.append_assoc]

/-- `getDirKey dirList i` is the key of the directory path `dirList[0..i]`. -/
theorem getDirKey_eq (dirList : List String) (i : Nat) (hi : i < dirList.length) :
    getDirKey dirList i = dirKeyOf (dirList.take (i + 1)) := by
  apply String.ext
  have hfold := getDirKey_fold dirList i i (le_refl _) (Nat.le_of_lt hi)
  have hne : ¬ i < i := lt_irrefl _
  have hkey : (getDirKey dirList i).data
      = ((dirList.take i).map (fun d => d.data ++ ['.'])).flatten ++ (dirList[i]).data := by
    unfold getDirKey
    rw [List.range_succ, List.foldl_append, List.foldl_cons, List.foldl_nil]
    simp only [if_neg hne, String.data_append, hfold, List.getD_eq_getElem _ _ hi]
  rw [hkey, List.take_succ, List.getElem?_eq_getElem hi, Option.toList_some,
    dirKeyOf_of_ne_nil _ (List.append_ne_nil_of_right_ne_nil _ (List.cons_ne_nil _ _)),
    List.map_append, List.map_singleton, intercalate_snoc,
    List.map_map]
  rfl

/-- Directory paths with valid names have distinct keys, and only the virtual
root has the key `root`. -/
theorem dirKeyOf_inj {p q : List String} (hp : ValidDirPath p) (hq : ValidDirPath q)
    (h : dirKeyOf p = dirKeyOf q) : p = q := by
  have hroot : ∀ r : List String, ValidDirPath r → r ≠ [] → dirKeyOf r = rootKey → False := by
    intro r hr hne hk
    cases r with
    | nil => exact hne rfl
    | cons a as =>
      simp only [dirKeyOf, rootKey] at hk
      have hdata : ['.'].intercalate ((a :: as).map String.data) = "root".data :=
        congrArg String.data hk
      have hsplit := List.splitOn_intercalate ((a :: as).map String.data) '.'
        (by
          intro l hl
          obtain ⟨d, hd, rfl⟩ := List.mem_map.1 hl
          exact (hr d hd).1)
        (by simp)
      rw [hdata] at hsplit
      have h1 : ("root".data).splitOn '.' = ["root".data] := by decide
      rw [h1] at hsplit
      simp only [List.map_cons, List.cons.injEq] at hsplit
      have ha : a = "root" := String.ext hsplit.1.symm
      exact (hr a (List.mem_cons_self _ _)).2 ha
  cases p with
  | nil =>
    cases q with
    | nil => rfl
    | cons b bs => exact absurd h.symm (fun hk => hroot _ hq (List.cons_ne_nil _ _) hk)
  | cons a as =>
    cases q with
    | nil => exact absurd h (fun hk => hroot _ hp (List.cons_ne_nil _ _) hk)
    | cons b bs =>
      simp only [dirKeyOf] at h
      have hdata := congrArg String.data h
      simp only at hdata
      have h1 := List.splitOn_intercalate ((a :: as).map String.data) '.'
        (by
          intro l hl
          obtain ⟨d, hd, rfl⟩ := List.mem_map.1 hl
          exact (hp d hd).1)
        (by simp)
      have h2 := List.splitOn_intercalate ((b :: bs).map String.data) '.'
        (by
          intro l hl
          obtain ⟨d, hd, rfl⟩ := List.mem_map.1 hl
          exact (hq d hd).1)
        (by simp)
      rw [hdata, h2] at h1
      exact (List.map_injective_iff.2 (fun s t hst => String.ext hst) h1).symm


/-! ## Claims about directory materialization -/

/-- C10 (code defect): the relative directory paths `a.b` and `a/b` differ and
share the key `a.b`, so the files `/in/a.b/f` and `/in/a/b/g` of one slice are
placed in one directory node; the relative directory path `root` gets the key of
the virtual root, so the file `/in/root/f` is placed in the virtual root's node. -/
theorem getDirKey_collision :
    getDirKey ["a.b"] 0 = getDirKey ["a", "b"] 1 ∧
    getDirKey ["root"] 0 = rootKey ∧
    dirListOf "/in" "/in/a.b/f" = ["a.b"] ∧
    dirListOf "/in" "/in/a/b/g" = ["a", "b"] ∧
    linkNamesAt
        (buildIpldGraph sampleNodes [mkFile "/in/a.b/f" "f" 1, mkFile "/in/a/b/g" "g" 1] "/in")
        "a.b" = some ["f", "g"] ∧
    dirListOf "/in" "/in/root/f" = ["root"] ∧
    linkNamesAt (buildIpldGraph sampleNodes [mkFile "/in/root/f" "f" 1] "/in") rootKey
      = some ["f", "root"] := by
  decide

/-- C9, counterexample: the files `/a/x` (tagged with the suffix `1`) and
`/a/x1/g` have distinct absolute paths and directory names without a dot; the link
`x1` of directory `a` is the directory `/a/x1`, so following `a` and then
`item.Name` followed by `item.Uuid` does not reach the DAG root of `/a/x`. -/
theorem buildGraph_suffix_clash :
    (suffixClash.map (fun f => f.Path)).Nodup ∧
    suffixClash.map (fun f => dirListOf "/" f.Path) = [["a"], ["a", "x1"]] ∧
    (rootCid (buildGraph sampleNodes suffixClash)).bind
        (fun c => resolve c (["a"] ++ ["x" ++ "1"]))
      ≠ sampleNodes "/a/x" := by
  refine ⟨by decide, by decide, ?_⟩
  have h : ((rootCid (buildGraph sampleNodes suffixClash)).bind
      (fun c => resolve c (["a"] ++ ["x" ++ "1"]))).map Cid.isDir = some true := by
    decide
  intro hc
  rw [hc] at h
  exact absurd h (by decide)


/-! ## Theorems: the directory tree -/

theorem DirNodeMap.set_same (m : DirNodeMap) (k : String) (n : ProtoNode) :
    m.set k n k = some n := by
  simp [DirNodeMap.set]

theorem DirNodeMap.set_other (m : DirNodeMap) {k k1 : String} (n : ProtoNode) (h : k1 ≠ k) :
    m.set k n k1 = m k1 := by
  simp [DirNodeMap.set, h]

theorem DirNodeMap.set_set (m : DirNodeMap) (k : String) (a b : ProtoNode) :
    (m.set k a).set k b = m.set k b := by
  funext k1
  by_cases h : k1 = k <;> simp [DirNodeMap.set, h]

theorem DirNodeMap.ite_set_getD (m : DirNodeMap) (k : String) (e : ProtoNode) :
    (if (m k).isSome then m else m.set k ((m k).getD e)) = m.set k ((m k).getD e) := by
  cases hm : m k with
  | none => simp
  | some c =>
    simp only [Option.isSome_some, if_true, Option.getD_some]
    funext k1
    by_cases h : k1 = k
    · subst h
      simp [DirNodeMap.set, hm]
    · simp [DirNodeMap.set, h]

theorem append_singleton_ne_self {α : Type} (p : List α) (d : α) : p ++ [d] ≠ p := by
  intro h
  have := congrArg List.length h
  simp at this

theorem ValidDirPath.take {p : List String} (h : ValidDirPath p) (i : Nat) :
    ValidDirPath (p.take i) :=
  fun d hd => h d (List.mem_of_mem_take hd)

theorem ValidDirPath.snoc {p : List String} {d : String} (hp : ValidDirPath p)
    (hd : ValidDirName d) : ValidDirPath (p ++ [d]) := by
  intro x hx
  rcases List.mem_append.1 hx with hx | hx
  · exact hp x hx
  · rw [List.mem_singleton.1 hx]
    exact hd

theorem ValidDirPath.of_append {p : List String} {d : String} {rest : List String}
    (h : ValidDirPath (p ++ d :: rest)) : ValidDirPath p ∧ ValidDirName d := by
  constructor
  · intro x hx
    exact h x (List.mem_append_left _ hx)
  · exact h d (List.mem_append_right _ (List.mem_cons_self _ _))

/-- One pass of the loop of `linkDirs` at index `i` is `linkStep` on the directory
path `dirList[0..i]`. -/
theorem linkDirs_succ (dirList : List String) (fileLink : String) (fileNode : Cid) (i : Nat)
    (m : DirNodeMap) (hi : i < dirList.length) (hvalid : ValidDirPath dirList) :
    linkDirs dirList fileLink fileNode (i + 1) m
      = linkDirs dirList fileLink fileNode i
          (linkStep m (dirList.take i) (dirList.get ⟨i, hi⟩)
            (if i = dirList.length - 1 then some ⟨fileLink, fileNode⟩ else none)) := by
  have hchild : getDirKey dirList i = dirKeyOf (dirList.take i ++ [dirList.get ⟨i, hi⟩]) := by
    rw [getDirKey_eq dirList i hi, List.take_succ, List.get_eq_getElem,
      List.getElem?_eq_getElem hi, Option.toList_some]
  have hparent : (if i = 0 then rootKey else getDirKey dirList (i - 1))
      = dirKeyOf (dirList.take i) := by
    by_cases h0 : i = 0
    · subst h0
      rfl
    · rw [if_neg h0, getDirKey_eq dirList (i - 1) (by omega)]
      congr 2
      omega
  have hdir : dirList.getD i "" = dirList.get ⟨i, hi⟩ := by
    rw [List.getD_eq_getElem _ _ hi, List.get_eq_getElem]
  have hne : dirKeyOf (dirList.take i) ≠ dirKeyOf (dirList.take i ++ [dirList.get ⟨i, hi⟩]) := by
    intro h
    have hv1 : ValidDirPath (dirList.take i) := hvalid.take i
    have hv2 : ValidDirPath (dirList.take i ++ [dirList.get ⟨i, hi⟩]) :=
      hv1.snoc (hvalid _ (List.get_mem _ _ _))
    exact append_singleton_ne_self _ _ (dirKeyOf_inj hv1 hv2 h).symm
  rw [linkDirs]
  simp only [hchild, hparent, hdir]
  refine congrArg (linkDirs dirList fileLink fileNode i) ?_
  rw [DirNodeMap.ite_set_getD]
  by_cases hlast : i = dirList.length - 1
  · simp only [if_pos hlast, DirNodeMap.set_set, DirNodeMap.set_other _ _ hne, linkStep,
      stepParent, stepChild, ProtoNode.AddNodeLink]
    split <;> rfl
  · simp only [if_neg hlast, DirNodeMap.set_other _ _ hne, linkStep, stepParent, stepChild]
    split <;> rfl

theorem mem_getD_nil {o : Option ProtoNode} {l : Link Cid}
    (h : l ∈ o.getD EmptyDirNode) : ∃ n, o = some n ∧ l ∈ n := by
  cases o with
  | none => cases h
  | some n => exact ⟨n, rfl, h⟩

theorem mem_sortedLinks {n : ProtoNode} {l : Link Cid} : l ∈ n.sortedLinks ↔ l ∈ n :=
  (List.perm_insertionSort _ n).mem_iff

theorem mem_AddNodeLink {n : ProtoNode} {name : String} {c : Cid} {l : Link Cid} :
    l ∈ n.AddNodeLink name c ↔ l ∈ n ∨ l = ⟨name, c⟩ := by
  simp only [ProtoNode.AddNodeLink, mem_sortedLinks, List.mem_append, List.mem_singleton]

theorem mem_stepChild {m : DirNodeMap} {p : List String} {d : String}
    {extra : Option (Link Cid)} {l : Link Cid} (h : l ∈ stepChild m p d extra) :
    l ∈ (m (dirKeyOf (p ++ [d]))).getD EmptyDirNode ∨ extra = some l := by
  cases extra with
  | none => exact Or.inl h
  | some e =>
    simp only [stepChild, mem_AddNodeLink] at h
    rcases h with h | h
    · exact Or.inl h
    · exact Or.inr (by rw [h])

theorem stepChild_names (m : DirNodeMap) (p : List String) (d : String)
    (extra : Option (Link Cid)) :
    (∀ l ∈ (m (dirKeyOf (p ++ [d]))).getD EmptyDirNode, l ∈ stepChild m p d extra) ∧
      ∀ e, extra = some e → e ∈ stepChild m p d extra := by
  cases extra with
  | none => exact ⟨fun l hl => hl, fun e he => by cases he⟩
  | some x =>
    refine ⟨fun l hl => ?_, fun e he => ?_⟩
    · simp only [stepChild, mem_AddNodeLink]
      exact Or.inl hl
    · cases he
      simp only [stepChild, mem_AddNodeLink]
      exact Or.inr trivial

theorem mem_stepParent {m : DirNodeMap} {p : List String} {d : String}
    {extra : Option (Link Cid)} {l : Link Cid} (h : l ∈ stepParent m p d extra) :
    (l ∈ (m (dirKeyOf p)).getD EmptyDirNode ∧ l.Name ≠ d) ∨
      (l.Name = d ∧ l.Cid = ProtoNode.Cid (stepChild m p d extra)) := by
  unfold stepParent at h
  split at h
  · simp only [ProtoNode.UpdateNodeLink, mem_AddNodeLink, ProtoNode.RemoveNodeLink,
      List.mem_filter] at h
    rcases h with ⟨h1, h2⟩ | h
    · exact Or.inl ⟨h1, by simpa using h2⟩
    · exact Or.inr (by rw [h]; exact ⟨rfl, rfl⟩)
  · rename_i hnot
    simp only [mem_AddNodeLink] at h
    rcases h with h | h
    · refine Or.inl ⟨h, fun hname => hnot ?_⟩
      exact List.any_eq_true.2 ⟨l, h, by simpa using hname⟩
    · exact Or.inr (by rw [h]; exact ⟨rfl, rfl⟩)

theorem stepParent_names (m : DirNodeMap) (p : List String) (d : String)
    (extra : Option (Link Cid)) :
    (∀ l ∈ (m (dirKeyOf p)).getD EmptyDirNode, ∃ l1 ∈ stepParent m p d extra, l1.Name = l.Name) ∧
      ∃ l1 ∈ stepParent m p d extra, l1.Name = d := by
  have hnew : (⟨d, ProtoNode.Cid (stepChild m p d extra)⟩ : Link Cid)
      ∈ stepParent m p d extra := by
    unfold stepParent
    split <;> simp only [ProtoNode.UpdateNodeLink, mem_AddNodeLink] <;> exact Or.inr trivial
  refine ⟨fun l hl => ?_, ⟨_, hnew, rfl⟩⟩
  by_cases hname : l.Name = d
  · exact ⟨_, hnew, hname.symm⟩
  · refine ⟨l, ?_, rfl⟩
    unfold stepParent
    split
    · simp only [ProtoNode.UpdateNodeLink, mem_AddNodeLink, ProtoNode.RemoveNodeLink,
        List.mem_filter]
      exact Or.inl ⟨hl, by simpa using hname⟩
    · simp only [mem_AddNodeLink]
      exact Or.inl hl

theorem linkStep_parent (m : DirNodeMap) (p : List String) (d : String)
    (extra : Option (Link Cid)) :
    linkStep m p d extra (dirKeyOf p) = some (stepParent m p d extra) := by
  simp [linkStep, DirNodeMap.set]

theorem linkStep_child (m : DirNodeMap) (p : List String) (d : String)
    (extra : Option (Link Cid)) (hne : dirKeyOf (p ++ [d]) ≠ dirKeyOf p) :
    linkStep m p d extra (dirKeyOf (p ++ [d])) = some (stepChild m p d extra) := by
  simp [linkStep, DirNodeMap.set, hne]

theorem linkStep_other (m : DirNodeMap) (p : List String) (d : String)
    (extra : Option (Link Cid)) {k : String} (h1 : k ≠ dirKeyOf p)
    (h2 : k ≠ dirKeyOf (p ++ [d])) : linkStep m p d extra k = m k := by
  simp [linkStep, DirNodeMap.set, h1, h2]

/-- One pass of the loop of `linkDirs` keeps every link accurate, except the link
to the parent directory `p` whose node it has just changed. -/
theorem linkStep_cons {J : List Job} {m : DirNodeMap} {p : List String} {d : String}
    {rest : List String} {j0 : Job} {extra : Option (Link Cid)} {exc : Option (List String)}
    (hj0 : j0 ∈ J) (hds : j0.dirs = p ++ d :: rest) (hvalid : ∀ j ∈ J, ValidDirPath j.dirs)
    (hextra : ∀ l, extra = some l → rest = [] ∧ j0.name = l.Name ∧ j0.cid = l.Cid)
    (hexc : exc = none ∨ exc = some (p ++ [d])) (h : Cons J exc m) :
    Cons J (some p) (linkStep m p d extra) := by
  have hv0 : ValidDirPath (p ++ d :: rest) := hds ▸ hvalid j0 hj0
  obtain ⟨hvp, hvd⟩ := hv0.of_append
  have hvc : ValidDirPath (p ++ [d]) := hvp.snoc hvd
  have hne : dirKeyOf (p ++ [d]) ≠ dirKeyOf p :=
    fun e => append_singleton_ne_self _ _ (dirKeyOf_inj hvc hvp e)
  -- a directory other than the two touched keeps its node
  have hother : ∀ r, ValidDirPath r → r ≠ p → r ≠ p ++ [d] →
      linkStep m p d extra (dirKeyOf r) = m (dirKeyOf r) := by
    intro r hr h1 h2
    exact linkStep_other m p d extra (fun e => h1 (dirKeyOf_inj hr hvp e))
      (fun e => h2 (dirKeyOf_inj hr hvc e))
  -- an accurate link of the old map whose target is not touched stays accurate
  have hkeep : ∀ q (l : Link Cid), ValidDirPath q → q ++ [l.Name] ≠ p → q ++ [l.Name] ≠ p ++ [d] →
      ((∃ j ∈ J, ∃ rest, j.dirs = q ++ l.Name :: rest) ∧
        ∃ c, m (dirKeyOf (q ++ [l.Name])) = some c ∧
          (l.Cid = ProtoNode.Cid c ∨ exc = some (q ++ [l.Name]))) →
      ((∃ j ∈ J, ∃ rest, j.dirs = q ++ l.Name :: rest) ∧
        ∃ c, linkStep m p d extra (dirKeyOf (q ++ [l.Name])) = some c ∧
          (l.Cid = ProtoNode.Cid c ∨ some p = some (q ++ [l.Name]))) := by
    intro q l hq h1 h2 hdir
    obtain ⟨⟨j, hj, rest1, hjd⟩, c, hc, hfresh⟩ := hdir
    have hvr : ValidDirPath (q ++ [l.Name]) := by
      have : ValidDirPath (q ++ l.Name :: rest1) := hjd ▸ hvalid j hj
      exact hq.snoc this.of_append.2
    refine ⟨⟨j, hj, rest1, hjd⟩, c, ?_, ?_⟩
    · rw [hother _ hvr h1 h2]
      exact hc
    · rcases hfresh with hfresh | hfresh
      · exact Or.inl hfresh
      · rcases hexc with hexc | hexc
        · rw [hexc] at hfresh
          cases hfresh
        · rw [hexc] at hfresh
          exact absurd (Option.some.inj hfresh).symm h2
  intro q hq n hn l hl
  by_cases hqp : q = p
  · -- the parent directory
    subst hqp
    rw [linkStep_parent] at hn
    cases hn
    rcases mem_stepParent hl with ⟨hold, hname⟩ | ⟨hname, hcid⟩
    · obtain ⟨n0, hn0, hl0⟩ := mem_getD_nil hold
      rcases h q hq n0 hn0 l hl0 with hfile | hdir
      · exact Or.inl hfile
      · refine Or.inr (hkeep q l hq (append_singleton_ne_self _ _) ?_ hdir)
        intro e
        exact hname (List.singleton_inj.1 (List.append_cancel_left e))
    · refine Or.inr ⟨⟨j0, hj0, rest, by rw [hname]; exact hds⟩, stepChild m q d extra, ?_,
        Or.inl hcid⟩
      rw [hname]
      exact linkStep_child m q d extra hne
  · by_cases hqc : q = p ++ [d]
    · -- the directory itself
      subst hqc
      rw [linkStep_child m p d extra hne] at hn
      cases hn
      rcases mem_stepChild hl with hold | hnew
      · obtain ⟨n0, hn0, hl0⟩ := mem_getD_nil hold
        rcases h _ hq n0 hn0 l hl0 with hfile | hdir
        · exact Or.inl hfile
        · refine Or.inr (hkeep _ l hq ?_ (append_singleton_ne_self _ _) hdir)
          intro e
          have := congrArg List.length e
          simp at this
      · obtain ⟨hrest, hn1, hc1⟩ := hextra l hnew
        refine Or.inl ⟨j0, hj0, ?_, hn1, hc1⟩
        rw [hds, hrest]
    · -- any other directory
      rw [hother q hq hqp hqc] at hn
      rcases h q hq n hn l hl with hfile | hdir
      · exact Or.inl hfile
      · by_cases hrp : q ++ [l.Name] = p
        · refine Or.inr ⟨hdir.1, stepParent m p d extra, ?_, Or.inr (by rw [hrp])⟩
          rw [hrp]
          exact linkStep_parent m p d extra
        · refine Or.inr (hkeep q l hq hrp ?_ hdir)
          intro e
          exact hqp (List.append_inj_left' e rfl)

/-- One pass of the loop of `linkDirs` keeps every node and every link name. -/
theorem linkStep_namesLE (m : DirNodeMap) (p : List String) (d : String)
    (extra : Option (Link Cid)) : NamesLE m (linkStep m p d extra) := by
  intro k n hk
  by_cases h1 : k = dirKeyOf p
  · subst h1
    refine ⟨stepParent m p d extra, linkStep_parent m p d extra, ?_⟩
    intro l hl
    exact (stepParent_names m p d extra).1 l (by rw [hk]; exact hl)
  · by_cases h2 : k = dirKeyOf (p ++ [d])
    · subst h2
      refine ⟨stepChild m p d extra, by simp [linkStep, DirNodeMap.set, h1], ?_⟩
      intro l hl
      exact ⟨l, (stepChild_names m p d extra).1 l (by rw [hk]; exact hl), rfl⟩
    · exact ⟨n, by rw [linkStep_other m p d extra h1 h2]; exact hk, fun l hl => ⟨l, hl, rfl⟩⟩

theorem NamesLE.refl (m : DirNodeMap) : NamesLE m m :=
  fun _ n hk => ⟨n, hk, fun l hl => ⟨l, hl, rfl⟩⟩

theorem NamesLE.trans {m1 m2 m3 : DirNodeMap} (h12 : NamesLE m1 m2) (h23 : NamesLE m2 m3) :
    NamesLE m1 m3 := by
  intro k n hk
  obtain ⟨n2, hk2, hn2⟩ := h12 k n hk
  obtain ⟨n3, hk3, hn3⟩ := h23 k n2 hk2
  refine ⟨n3, hk3, fun l hl => ?_⟩
  obtain ⟨l2, hl2, hname2⟩ := hn2 l hl
  obtain ⟨l3, hl3, hname3⟩ := hn3 l2 hl2
  exact ⟨l3, hl3, hname3.trans hname2⟩

theorem HasLink.mono {m m1 : DirNodeMap} {p : List String} {name : String}
    (hle : NamesLE m m1) (h : HasLink m p name) : HasLink m1 p name := by
  obtain ⟨n, hn, l, hl, hname⟩ := h
  obtain ⟨n1, hn1, hnames⟩ := hle _ n hn
  obtain ⟨l1, hl1, hname1⟩ := hnames l hl
  exact ⟨n1, hn1, l1, hl1, hname1.trans hname⟩

theorem Cons.of_nil_exc {J : List Job} {m : DirNodeMap} (h : Cons J (some []) m) :
    Cons J none m := by
  intro p hp n hn l hl
  rcases h p hp n hn l hl with hfile | ⟨hj, c, hc, hfresh⟩
  · exact Or.inl hfile
  · refine Or.inr ⟨hj, c, hc, ?_⟩
    rcases hfresh with hfresh | hfresh
    · exact Or.inl hfresh
    · have := Option.some.inj hfresh
      exact absurd this.symm (List.append_ne_nil_of_right_ne_nil _ (List.cons_ne_nil _ _))

theorem list_split_at {α : Type} (l : List α) (k : Nat) (hk : k < l.length) :
    l = l.take k ++ l.get ⟨k, hk⟩ :: l.drop (k + 1) := by
  rw [List.get_eq_getElem]
  simp

/-- The loop of `linkDirs`, run from index `k - 1` down to 0: every link ends up
accurate, no node or link name is lost, each directory `dirs[0..i]` with `i < k` is
linked in its parent, and a full run links the file in the deepest directory. -/
theorem linkDirs_spec {J : List Job} {j0 : Job} (hj0 : j0 ∈ J)
    (hvalid : ∀ j ∈ J, ValidDirPath j.dirs) :
    ∀ (k : Nat), k ≤ j0.dirs.length → ∀ (m : DirNodeMap),
      Cons J (if k < j0.dirs.length then some (j0.dirs.take k) else none) m →
      Cons J none (linkDirs j0.dirs j0.name j0.cid k m) ∧
      NamesLE m (linkDirs j0.dirs j0.name j0.cid k m) ∧
      (∀ i (h : i < j0.dirs.length), i < k →
        HasLink (linkDirs j0.dirs j0.name j0.cid k m) (j0.dirs.take i) (j0.dirs.get ⟨i, h⟩)) ∧
      (k = j0.dirs.length → 0 < k →
        HasLink (linkDirs j0.dirs j0.name j0.cid k m) j0.dirs j0.name) := by
  intro k
  induction k with
  | zero =>
    intro _ m hcons
    refine ⟨?_, NamesLE.refl m, fun i _ hi => absurd hi (Nat.not_lt_zero _),
      fun _ h => absurd h (lt_irrefl _)⟩
    show Cons J none m
    by_cases hlen : 0 < j0.dirs.length
    · rw [if_pos hlen, List.take_zero] at hcons
      exact hcons.of_nil_exc
    · rw [if_neg hlen] at hcons
      exact hcons
  | succ k ih =>
    intro hk m hcons
    have hlt : k < j0.dirs.length := hk
    have hv0 : ValidDirPath j0.dirs := hvalid j0 hj0
    have hsplit := list_split_at j0.dirs k hlt
    have hvc : ValidDirPath (j0.dirs.take k ++ [j0.dirs.get ⟨k, hlt⟩]) :=
      (hv0.take k).snoc (hv0 _ (List.get_mem _ _ _))
    have hne : dirKeyOf (j0.dirs.take k ++ [j0.dirs.get ⟨k, hlt⟩]) ≠ dirKeyOf (j0.dirs.take k) :=
      fun e => append_singleton_ne_self _ _ (dirKeyOf_inj hvc (hv0.take k) e)
    have htake : j0.dirs.take (k + 1) = j0.dirs.take k ++ [j0.dirs.get ⟨k, hlt⟩] := by
      rw [List.take_succ, List.get_eq_getElem, List.getElem?_eq_getElem hlt, Option.toList_some]
    rw [linkDirs_succ j0.dirs j0.name j0.cid k m hlt hv0]
    have hstep : Cons J (some (j0.dirs.take k))
        (linkStep m (j0.dirs.take k) (j0.dirs.get ⟨k, hlt⟩)
          (if k = j0.dirs.length - 1 then some ⟨j0.name, j0.cid⟩ else none)) := by
      refine linkStep_cons hj0 hsplit hvalid ?_ ?_ hcons
      · intro l hl
        by_cases hlast : k = j0.dirs.length - 1
        · rw [if_pos hlast] at hl
          cases hl
          refine ⟨?_, rfl, rfl⟩
          apply List.drop_eq_nil_of_le
          omega
        · rw [if_neg hlast] at hl
          cases hl
      · by_cases hlt2 : k + 1 < j0.dirs.length
        · rw [if_pos hlt2, htake]
          exact Or.inr rfl
        · rw [if_neg hlt2]
          exact Or.inl rfl
    have hih := ih (Nat.le_of_lt hlt) _ (by rw [if_pos hlt]; exact hstep)
    obtain ⟨hc, hle, hdirs, _⟩ := hih
    refine ⟨hc, (linkStep_namesLE _ _ _ _).trans hle, ?_, ?_⟩
    · intro i hi hik
      by_cases hik2 : i < k
      · exact hdirs i hi hik2
      · have hik3 : i = k := by omega
        subst hik3
        refine HasLink.mono hle ?_
        obtain ⟨l1, hl1, hname⟩ := (stepParent_names m (j0.dirs.take i) (j0.dirs.get ⟨i, hi⟩)
          (if i = j0.dirs.length - 1 then some ⟨j0.name, j0.cid⟩ else none)).2
        exact ⟨_, linkStep_parent _ _ _ _, l1, hl1, hname⟩
    · intro hfull _
      refine HasLink.mono hle ?_
      have hlast : k = j0.dirs.length - 1 := by omega
      have hdirs_eq : j0.dirs = j0.dirs.take k ++ [j0.dirs.get ⟨k, hlt⟩] := by
        rw [← htake, hfull, List.take_length]
      have hkey : dirKeyOf j0.dirs = dirKeyOf (j0.dirs.take k ++ [j0.dirs.get ⟨k, hlt⟩]) :=
        congrArg dirKeyOf hdirs_eq
      refine ⟨stepChild m (j0.dirs.take k) (j0.dirs.get ⟨k, hlt⟩)
        (if k = j0.dirs.length - 1 then some ⟨j0.name, j0.cid⟩ else none), ?_,
        ⟨j0.name, j0.cid⟩, ?_, rfl⟩
      · rw [hkey]
        exact linkStep_child m _ _ _ hne
      · exact (stepChild_names _ _ _ _).2 _ (by rw [if_pos hlast])

/-- Placing one file keeps every link accurate, loses no node and no link name,
and links the file and the directories on its path. -/
theorem placeJob_spec {J : List Job} {j0 : Job} (hj0 : j0 ∈ J)
    (hvalid : ∀ j ∈ J, ValidDirPath j.dirs) {m : DirNodeMap} (hcons : Cons J none m) :
    Cons J none (placeJob m j0) ∧ NamesLE m (placeJob m j0) ∧ JobLinked (placeJob m j0) j0 := by
  by_cases hlen : j0.dirs.length = 0
  · have hnil : j0.dirs = [] := List.length_eq_zero.1 hlen
    have hroot : rootKey = dirKeyOf [] := rfl
    have hplace : placeJob m j0
        = m.set (dirKeyOf [])
            (((m (dirKeyOf [])).getD EmptyDirNode).AddNodeLink j0.name j0.cid) := by
      simp only [placeJob, if_pos hlen, hroot]
    have hother : ∀ r, ValidDirPath r → r ≠ [] → placeJob m j0 (dirKeyOf r) = m (dirKeyOf r) := by
      intro r hr hne
      rw [hplace]
      exact DirNodeMap.set_other _ _ (fun e => hne (dirKeyOf_inj hr (fun _ h => by cases h) e))
    have hkeep : ∀ q (l : Link Cid), ValidDirPath q →
        ((∃ j ∈ J, ∃ rest, j.dirs = q ++ l.Name :: rest) ∧
          ∃ c, m (dirKeyOf (q ++ [l.Name])) = some c ∧
            (l.Cid = ProtoNode.Cid c ∨ (none : Option (List String)) = some (q ++ [l.Name]))) →
        ((∃ j ∈ J, ∃ rest, j.dirs = q ++ l.Name :: rest) ∧
          ∃ c, placeJob m j0 (dirKeyOf (q ++ [l.Name])) = some c ∧
            (l.Cid = ProtoNode.Cid c ∨ (none : Option (List String)) = some (q ++ [l.Name]))) := by
      intro q l hq hdir
      obtain ⟨⟨j, hj, rest1, hjd⟩, c, hc, hfresh⟩ := hdir
      have hvr : ValidDirPath (q ++ [l.Name]) := by
        have : ValidDirPath (q ++ l.Name :: rest1) := hjd ▸ hvalid j hj
        exact hq.snoc this.of_append.2
      refine ⟨⟨j, hj, rest1, hjd⟩, c, ?_, hfresh⟩
      rw [hother _ hvr (List.append_ne_nil_of_right_ne_nil _ (List.cons_ne_nil _ _))]
      exact hc
    refine ⟨?_, ?_, ?_, ?_⟩
    · intro q hq n hn l hl
      by_cases hq0 : q = []
      · subst hq0
        rw [hplace, DirNodeMap.set_same] at hn
        cases hn
        rcases mem_AddNodeLink.1 hl with hold | hnew
        · obtain ⟨n0, hn0, hl0⟩ := mem_getD_nil hold
          rcases hcons [] hq n0 hn0 l hl0 with hfile | hdir
          · exact Or.inl hfile
          · exact Or.inr (hkeep [] l hq hdir)
        · rw [hnew]
          exact Or.inl ⟨j0, hj0, hnil, rfl, rfl⟩
      · rw [hother q hq hq0] at hn
        rcases hcons q hq n hn l hl with hfile | hdir
        · exact Or.inl hfile
        · exact Or.inr (hkeep q l hq hdir)
    · intro k n hk
      by_cases hk0 : k = dirKeyOf []
      · subst hk0
        refine ⟨_, by rw [hplace, DirNodeMap.set_same], fun l hl => ⟨l, ?_, rfl⟩⟩
        rw [hk]
        exact mem_AddNodeLink.2 (Or.inl hl)
      · exact ⟨n, by rw [hplace, DirNodeMap.set_other _ _ hk0]; exact hk,
          fun l hl => ⟨l, hl, rfl⟩⟩
    · rw [hnil]
      exact ⟨_, by rw [hplace, DirNodeMap.set_same], ⟨j0.name, j0.cid⟩,
        mem_AddNodeLink.2 (Or.inr rfl), rfl⟩
    · intro i hi
      rw [hlen] at hi
      exact absurd hi (Nat.not_lt_zero _)
  · have hpos : 0 < j0.dirs.length := Nat.pos_of_ne_zero hlen
    have hplace : placeJob m j0 = linkDirs j0.dirs j0.name j0.cid j0.dirs.length m := by
      simp only [placeJob, if_neg hlen]
    obtain ⟨hc, hle, hdirs, hfile⟩ :=
      linkDirs_spec hj0 hvalid j0.dirs.length (le_refl _) m
        (by rw [if_neg (lt_irrefl _)]; exact hcons)
    rw [hplace]
    exact ⟨hc, hle, hfile rfl hpos, fun i hi => hdirs i hi hi⟩

/-- Placing a list of files, one after the other. -/
theorem placeJobs_spec {J : List Job} (hvalid : ∀ j ∈ J, ValidDirPath j.dirs) :
    ∀ (js : List Job) (m : DirNodeMap), (∀ j ∈ js, j ∈ J) → Cons J none m →
      Cons J none (js.foldl placeJob m) ∧ NamesLE m (js.foldl placeJob m) ∧
        ∀ j ∈ js, JobLinked (js.foldl placeJob m) j := by
  intro js
  induction js with
  | nil =>
    intro m _ hcons
    exact ⟨hcons, NamesLE.refl m, fun j hj => by cases hj⟩
  | cons j0 js ih =>
    intro m hsub hcons
    obtain ⟨hc1, hle1, hlinked1⟩ :=
      placeJob_spec (hsub j0 (List.mem_cons_self _ _)) hvalid hcons
    obtain ⟨hc2, hle2, hlinked2⟩ :=
      ih (placeJob m j0) (fun j hj => hsub j (List.mem_cons_of_mem _ hj)) hc1
    refine ⟨hc2, hle1.trans hle2, ?_⟩
    intro j hj
    rcases List.mem_cons.1 hj with hj | hj
    · subst hj
      exact ⟨hlinked1.1.mono hle2, fun i hi => (hlinked1.2 i hi).mono hle2⟩
    · exact hlinked2 j hj

theorem resolve_nil (c : Cid) : resolve c [] = some c := by
  cases c <;> rfl

theorem resolve_singleton (n : ProtoNode) (name : String) (c : Cid)
    (h : ProtoNode.GetNodeLink n name = some c) :
    resolve (ProtoNode.Cid n) [name] = some c := by
  simp only [ProtoNode.Cid, resolve, h, resolve_nil]

theorem resolve_append (xs ys : List String) :
    ∀ c : Cid, resolve c (xs ++ ys) = (resolve c xs).bind (fun c1 => resolve c1 ys) := by
  induction xs with
  | nil =>
    intro c
    rw [resolve_nil]
    rfl
  | cons x xs ih =>
    intro c
    cases c with
    | file r => rfl
    | dir links =>
      simp only [List.cons_append, resolve]
      cases ProtoNode.GetNodeLink links x with
      | none => rfl
      | some c1 => exact ih c1

theorem GetNodeLink_of_mem {n : ProtoNode} {name : String} (h : ∃ l ∈ n, l.Name = name) :
    ∃ l ∈ n, l.Name = name ∧ ProtoNode.GetNodeLink n name = some l.Cid := by
  obtain ⟨l, hl, hname⟩ := h
  cases hfind : n.find? (fun l => l.Name = name) with
  | none =>
    have := List.find?_eq_none.1 hfind l hl
    simp [hname] at this
  | some l0 =>
    refine ⟨l0, List.mem_of_find?_eq_some hfind, ?_, ?_⟩
    · simpa using List.find?_some hfind
    · simp [ProtoNode.GetNodeLink, hfind]

/-- With accurate links and no clash of link names, following the directory names
of a placed file from the root reaches, at every depth, the current node of the
directory of that path. -/
theorem reach_dirs {J : List Job} {m : DirNodeMap} {root : ProtoNode}
    (hroot : m rootKey = some root) (hcons : Cons J none m) (hclash : NoClash J)
    (hvalid : ∀ j ∈ J, ValidDirPath j.dirs) {j : Job} (hj : j ∈ J) (hlinked : JobLinked m j) :
    ∀ i, i ≤ j.dirs.length →
      ∃ n, m (dirKeyOf (j.dirs.take i)) = some n ∧
        resolve (ProtoNode.Cid root) (j.dirs.take i) = some (ProtoNode.Cid n) := by
  intro i
  induction i with
  | zero =>
    intro _
    exact ⟨root, hroot, resolve_nil _⟩
  | succ i ih =>
    intro hi
    have hlt : i < j.dirs.length := hi
    obtain ⟨n, hn, hres⟩ := ih (Nat.le_of_lt hlt)
    obtain ⟨n1, hn1, hex⟩ := hlinked.2 i hlt
    rw [hn] at hn1
    cases hn1
    obtain ⟨l, hl, hname, hget⟩ := GetNodeLink_of_mem hex
    have htake : j.dirs.take (i + 1) = j.dirs.take i ++ [j.dirs.get ⟨i, hlt⟩] := by
      rw [List.take_succ, List.get_eq_getElem, List.getElem?_eq_getElem hlt, Option.toList_some]
    rcases hcons _ ((hvalid j hj).take i) n hn l hl with ⟨j1, hj1, hd1, hname1, _⟩ | hdir
    · exfalso
      refine hclash.2 j1 hj1 j hj (j.dirs.drop (i + 1)) ?_
      rw [hd1, hname1, hname]
      exact list_split_at j.dirs i hlt
    · obtain ⟨_, c, hc, hfresh⟩ := hdir
      rcases hfresh with hfresh | hfresh
      · refine ⟨c, ?_, ?_⟩
        · rw [htake, ← hname]
          exact hc
        · rw [htake, resolve_append, hres, Option.some_bind, resolve_singleton n _ _ hget,
            hfresh]
      · cases hfresh

/-- With accurate links and no clash of link names, following the directory names
of a placed file and then its link name reaches the DAG root of the file. -/
theorem reach_file {J : List Job} {m : DirNodeMap} {root : ProtoNode}
    (hroot : m rootKey = some root) (hcons : Cons J none m) (hclash : NoClash J)
    (hvalid : ∀ j ∈ J, ValidDirPath j.dirs) {j : Job} (hj : j ∈ J) (hlinked : JobLinked m j) :
    resolve (ProtoNode.Cid root) (j.dirs ++ [j.name]) = some j.cid := by
  obtain ⟨n, hn, hres⟩ := reach_dirs hroot hcons hclash hvalid hj hlinked j.dirs.length (le_refl _)
  rw [List.take_length] at hn hres
  obtain ⟨n1, hn1, hex⟩ := hlinked.1
  rw [hn] at hn1
  cases hn1
  obtain ⟨l, hl, hname, hget⟩ := GetNodeLink_of_mem hex
  rw [resolve_append, hres, Option.some_bind, resolve_singleton n _ _ hget]
  rcases hcons _ (hvalid j hj) n hn l hl with ⟨j1, hj1, hd1, hname1, hcid1⟩ | hdir
  · rw [← hcid1]
    exact congrArg some (hclash.1 j1 hj1 j hj hd1 (hname1.trans hname))
  · exfalso
    obtain ⟨⟨j2, hj2, rest, hd2⟩, _⟩ := hdir
    exact hclash.2 j hj j2 hj2 rest (by rw [hd2, hname])


/-! ## Theorems: directory names of an absolute path -/

theorem intercalate_cons_cons {α : Type} (sep x y : List α) (ys : List (List α)) :
    sep.intercalate (x :: y :: ys) = x ++ sep ++ sep.intercalate (y :: ys) := by
  simp [List.intercalate]

theorem flatten_map_append_sep {α : Type} (sep : List α) (xs : List (List α)) (h : xs ≠ []) :
    (xs.map (fun d => d ++ sep)).flatten = sep.intercalate xs ++ sep := by
  induction xs with
  | nil => exact absurd rfl h
  | cons x xs ih =>
    cases xs with
    | nil => simp [List.intercalate]
    | cons y ys =>
      rw [intercalate_cons_cons, List.map_cons, List.flatten_cons, ih (List.cons_ne_nil _ _)]
      simp

theorem cleanElems_plain (rooted : Bool) :
    ∀ (cs acc : List (List Char)), (∀ c ∈ cs, c ≠ ['.'] ∧ c ≠ ['.', '.']) →
      cleanElems rooted cs acc = acc.reverse ++ cs.filter (fun c => c ≠ []) := by
  intro cs
  induction cs with
  | nil => intro acc _; simp [cleanElems]
  | cons c cs ih =>
    intro acc h
    obtain ⟨h1, h2⟩ := h c (List.mem_cons_self _ _)
    have hrest : ∀ c ∈ cs, c ≠ ['.'] ∧ c ≠ ['.', '.'] :=
      fun x hx => h x (List.mem_cons_of_mem _ hx)
    by_cases hc : c = []
    · subst hc
      simp [cleanElems, ih acc hrest]
    · have hcond : ¬ (c = [] ∨ c = ['.']) := by
        rintro (h | h)
        · exact hc h
        · exact h1 h
      simp only [cleanElems, if_neg hcond, if_neg h2, ih (c :: acc) hrest]
      simp [hc]

theorem dropWhile_append_all {α : Type} (p : α → Bool) :
    ∀ (r ys : List α), (∀ c ∈ r, p c = true) → (r ++ ys).dropWhile p = ys.dropWhile p := by
  intro r
  induction r with
  | nil => intro ys _; rfl
  | cons c r ih =>
    intro ys h
    rw [List.cons_append, List.dropWhile_cons, if_pos (h c (List.mem_cons_self _ _))]
    exact ih ys (fun x hx => h x (List.mem_cons_of_mem _ hx))

/-- The part of a path up to and including its last slash. -/
theorem dir_part (xs b : List Char) (hb : '/' ∉ b) :
    ((xs ++ ['/'] ++ b).reverse.dropWhile (fun c => c ≠ '/')).reverse = xs ++ ['/'] := by
  rw [List.reverse_append, dropWhile_append_all]
  · simp
  · intro c hc
    have hcb : c ∈ b := List.mem_reverse.1 hc
    have : c ≠ '/' := fun e => hb (e ▸ hcb)
    simpa using this

theorem pathElem_data {s : String} (h : PathElem s) :
    s.data ≠ [] ∧ '/' ∉ s.data ∧ s.data ≠ ['.'] ∧ s.data ≠ ['.', '.'] := by
  obtain ⟨h1, h2, h3, h4⟩ := h
  refine ⟨fun e => h1 (String.ext e), h2, fun e => h3 (String.ext e), fun e => h4 (String.ext e)⟩

/-- `path.Clean` of a rooted path without `.` and `..` elements: the non-empty
elements, joined by slashes after a leading slash. -/
theorem pathClean_abs (ds : List Char) (cs es : List (List Char))
    (hhead : ds.head? = some '/') (hsplit : ds.splitOn '/' = cs)
    (hplain : ∀ c ∈ cs, c ≠ ['.'] ∧ c ≠ ['.', '.'])
    (hfilter : cs.filter (fun c => c ≠ []) = es) :
    pathClean (String.mk ds) = String.mk ('/' :: ['/'].intercalate es) := by
  have hne : ¬ String.mk ds = "" := by
    intro e
    have : ds = [] := congrArg String.data e
    rw [this] at hhead
    cases hhead
  simp only [pathClean, if_neg hne, hhead, hsplit, cleanElems_plain true cs [] hplain, hfilter,
    decide_True, if_true, List.reverse_nil, List.nil_append, List.singleton_append,
    List.cons_ne_nil, if_false]

theorem absPath_data (dirs : List String) (base : String) :
    (absPath dirs base).data
      = ['/'].intercalate ([] :: dirs.map String.data) ++ ['/'] ++ base.data := by
  have h1 : ('/' :: ((dirs.map String.data).map (fun d => d ++ ['/'])).flatten)
      = ['/'].intercalate ([] :: dirs.map String.data) ++ ['/'] := by
    rw [← flatten_map_append_sep ['/'] ([] :: dirs.map String.data) (List.cons_ne_nil _ _)]
    simp
  show '/' :: ['/'].intercalate ((dirs ++ [base]).map String.data) = _
  rw [List.map_append, List.map_singleton, intercalate_snoc, ← h1]
  simp

theorem filter_ne_nil_of_all {es : List (List Char)} (h : ∀ e ∈ es, e ≠ []) :
    es.filter (fun c => c ≠ []) = es := by
  apply List.filter_eq_self.2
  intro e he
  simpa using h e he

/-- `path.Dir` of the absolute path `/d1/.../dn/base` is `/d1/.../dn`. -/
theorem pathDir_absPath (dirs : List String) (base : String)
    (hdirs : ∀ d ∈ dirs, PathElem d) (hbase : PathElem base) :
    pathDir (absPath dirs base)
      = String.mk ('/' :: ['/'].intercalate (dirs.map String.data)) := by
  have hb := pathElem_data hbase
  have hds : ∀ e ∈ dirs.map String.data, e ≠ [] ∧ '/' ∉ e ∧ e ≠ ['.'] ∧ e ≠ ['.', '.'] := by
    intro e he
    obtain ⟨d, hd, rfl⟩ := List.mem_map.1 he
    exact pathElem_data (hdirs d hd)
  have hsnoc : ['/'].intercalate ([] :: dirs.map String.data) ++ ['/']
      = ['/'].intercalate (([] :: dirs.map String.data) ++ [[]]) := by
    rw [intercalate_snoc, flatten_map_append_sep _ _ (List.cons_ne_nil _ _)]
    simp
  have hhead : (['/'].intercalate ([] :: dirs.map String.data) ++ ['/']).head? = some '/' := by
    rw [← flatten_map_append_sep ['/'] ([] :: dirs.map String.data) (List.cons_ne_nil _ _)]
    simp
  have hmem : ∀ l ∈ ([] :: dirs.map String.data) ++ [[]], l = [] ∨ l ∈ dirs.map String.data := by
    intro l hl
    simp only [List.cons_append, List.mem_cons, List.mem_append, List.mem_singleton,
      List.not_mem_nil, or_false] at hl
    rcases hl with h | h | h
    · exact Or.inl h
    · exact Or.inr h
    · exact Or.inl h
  have hfilter : (([] :: dirs.map String.data) ++ [[]]).filter (fun c => c ≠ [])
      = dirs.map String.data := by
    have h1 : (([] : List Char) :: dirs.map String.data ++ [[]]).filter (fun c => c ≠ [])
        = (dirs.map String.data).filter (fun c => c ≠ []) := by
      simp [List.filter_cons, List.filter_append]
    rw [h1]
    exact filter_ne_nil_of_all (fun e he => (hds e he).1)
  unfold pathDir
  rw [absPath_data, dir_part _ _ hb.2.1]
  apply pathClean_abs _ (([] :: dirs.map String.data) ++ [[]]) _ hhead
  · rw [hsnoc]
    apply List.splitOn_intercalate
    · intro l hl
      rcases hmem l hl with h | h
      · rw [h]
        simp
      · exact (hds l h).2.1
    · simp
  · intro c hc
    rcases hmem c hc with h | h
    · rw [h]
      exact ⟨by simp, by simp⟩
    · exact ⟨(hds c h).2.2.1, (hds c h).2.2.2⟩
  · exact hfilter

/-- `path.Clean` of the absolute path `/d1/.../dn/base` is the path itself. -/
theorem pathClean_absPath (dirs : List String) (base : String)
    (hdirs : ∀ d ∈ dirs, PathElem d) (hbase : PathElem base) :
    pathClean (absPath dirs base) = absPath dirs base := by
  have hall : ∀ e ∈ (dirs ++ [base]).map String.data,
      e ≠ [] ∧ '/' ∉ e ∧ e ≠ ['.'] ∧ e ≠ ['.', '.'] := by
    intro e he
    obtain ⟨d, hd, rfl⟩ := List.mem_map.1 he
    rcases List.mem_append.1 hd with hd | hd
    · exact pathElem_data (hdirs d hd)
    · rw [List.mem_singleton.1 hd]
      exact pathElem_data hbase
  have hne : (dirs ++ [base]).map String.data ≠ [] := by simp
  have hform : '/' :: ['/'].intercalate ((dirs ++ [base]).map String.data)
      = ['/'].intercalate ([] :: (dirs ++ [base]).map String.data) := by
    cases hcase : (dirs ++ [base]).map String.data with
    | nil => exact absurd hcase hne
    | cons y ys => rw [intercalate_cons_cons]; rfl
  show pathClean (String.mk ('/' :: ['/'].intercalate ((dirs ++ [base]).map String.data)))
    = String.mk ('/' :: ['/'].intercalate ((dirs ++ [base]).map String.data))
  apply pathClean_abs ('/' :: ['/'].intercalate ((dirs ++ [base]).map String.data))
    ([] :: (dirs ++ [base]).map String.data) _ rfl
  · rw [hform]
    apply List.splitOn_intercalate
    · intro l hl
      rcases List.mem_cons.1 hl with rfl | hl
      · simp
      · exact (hall l hl).2.1
    · simp
  · intro c hc
    rcases List.mem_cons.1 hc with rfl | hc
    · exact ⟨by simp, by simp⟩
    · exact ⟨(hall c hc).2.2.1, (hall c hc).2.2.2⟩
  · have h1 : (([] : List Char) :: (dirs ++ [base]).map String.data).filter (fun c => c ≠ [])
        = ((dirs ++ [base]).map String.data).filter (fun c => c ≠ []) := by
      simp [List.filter_cons]
    rw [h1]
    exact filter_ne_nil_of_all (fun e he => (hall e he).1)

/-- The directory names computed for the absolute path `/d1/.../dn/base` relative to
`/` are `d1, ..., dn`, the components of its directory name. -/
theorem dirListOf_absPath (dirs : List String) (base : String)
    (hdirs : ∀ d ∈ dirs, PathElem d) (hbase : PathElem base) :
    dirListOf "/" (absPath dirs base) = dirs := by
  have hb := pathElem_data hbase
  have hds : ∀ e ∈ dirs.map String.data, e ≠ [] ∧ '/' ∉ e ∧ e ≠ ['.'] ∧ e ≠ ['.', '.'] := by
    intro e he
    obtain ⟨d, hd, rfl⟩ := List.mem_map.1 he
    exact pathElem_data (hdirs d hd)
  have hroot : ¬ "/" = pathClean (absPath dirs base) := by
    rw [pathClean_absPath dirs base hdirs hbase]
    intro e
    have hdata := congrArg String.data e
    rw [absPath_data] at hdata
    have hlen := congrArg List.length hdata
    simp only [String.data, List.length_append, List.length_cons, List.length_nil] at hlen
    have : base.data.length ≠ 0 := fun h => hb.1 (List.length_eq_zero.1 h)
    omega
  have hpre1 : hasPrefix (String.mk ('/' :: ['/'].intercalate (dirs.map String.data))) "/"
      = true := by
    simp [hasPrefix]
  have hpre2 : hasPrefix (String.mk (['/'].intercalate (dirs.map String.data))) "/" = false := by
    cases hcase : dirs.map String.data with
    | nil => simp [hasPrefix, List.intercalate]
    | cons e es =>
      have he := hds e (by rw [hcase]; exact List.mem_cons_self _ _)
      cases e with
      | nil => exact absurd rfl he.1
      | cons c cs =>
        have hc : c ≠ '/' := fun h => he.2.1 (h ▸ List.mem_cons_self _ _)
        cases es with
        | nil => simp [hasPrefix, List.intercalate, List.isPrefixOf, Ne.symm hc]
        | cons e2 es2 =>
          rw [intercalate_cons_cons]
          simp [hasPrefix, List.isPrefixOf, Ne.symm hc]
  simp only [dirListOf, pathDir_absPath dirs base hdirs hbase, if_neg hroot]
  have hcond : ("/" ≠ "" ∧
      hasPrefix (String.mk ('/' :: ['/'].intercalate (dirs.map String.data))) "/" = true) :=
    ⟨by decide, hpre1⟩
  rw [if_pos hcond]
  have hslice : sliceFrom (String.mk ('/' :: ['/'].intercalate (dirs.map String.data)))
      ("/" : String).length = String.mk (['/'].intercalate (dirs.map String.data)) := rfl
  rw [hslice, hpre2]
  simp only [Bool.false_eq_true, if_false]
  cases hcase : dirs with
  | nil => simp [List.intercalate]
  | cons d ds =>
    have hne : ¬ String.mk (['/'].intercalate ((d :: ds).map String.data)) = "" := by
      intro e
      have hdata : ['/'].intercalate ((d :: ds).map String.data) = [] := congrArg String.data e
      have hd := (hds d.data (by rw [hcase]; simp)).1
      cases hds2 : ds with
      | nil =>
        rw [hds2] at hdata
        simp [List.intercalate] at hdata
        exact hd hdata
      | cons d2 ds3 =>
        rw [hds2, List.map_cons, List.map_cons, intercalate_cons_cons] at hdata
        simp at hdata
    rw [if_neg hne]
    simp only [splitSlash]
    have hid : (String.mk ∘ String.data) = id := by
      funext s
      rfl
    rw [List.splitOn_intercalate]
    · rw [List.map_map, hid, List.map_id]
    · intro l hl
      rw [← hcase] at hl
      exact (hds l hl).2.1
    · simp


/-! ## Theorems: the tree built by `buildGraph` -/

theorem placeFiles_eq (fileNodeMap : String → Option Cid) (parentPath : String)
    (hpp : pathClean parentPath = parentPath) :
    ∀ (files : List Finfo) (m : DirNodeMap), (∀ f ∈ files, (fileNodeMap f.Path).isSome) →
      placeFiles fileNodeMap files ⟨parentPath, m⟩
        = .ok ⟨parentPath, (files.map (jobOf parentPath fileNodeMap)).foldl placeJob m⟩ := by
  intro files
  induction files with
  | nil => intro m _; rfl
  | cons f fs ih =>
    intro m hbuilt
    obtain ⟨c, hc⟩ := Option.isSome_iff_exists.1 (hbuilt f (List.mem_cons_self _ _))
    have hstep : placeFile fileNodeMap ⟨parentPath, m⟩ f
        = .ok ⟨parentPath, placeJob m (jobOf parentPath fileNodeMap f)⟩ := by
      simp only [placeFile, hpp, hc, placeJob, jobOf, Option.getD_some]
      split <;> rfl
    simp only [placeFiles, hstep, List.map_cons, List.foldl_cons]
    exact ih _ (fun g hg => hbuilt g (List.mem_cons_of_mem _ hg))

theorem cons_init (J : List Job) : Cons J none DirNodeMap.init := by
  intro p _ n hn l hl
  simp only [DirNodeMap.init, DirNodeMap.set] at hn
  split at hn
  · cases hn
    cases hl
  · cases hn

/-- C9, amended: for files with absolute paths `/d1/.../dn/base`, whose directory
names contain no dot and are not `root`, whose file nodes were all built, and whose
link names (`item.Name` followed by `item.Uuid`) clash neither with each other
within one directory nor with the name of a sub-directory of their directory,
`buildGraph` returns a root directory from which, for every file, following the
links named `d1, ..., di` reaches the final node of the directory `/d1/.../di`
(for every `i ≤ n`: each directory link carries the bare directory name and the
identifier of the final version of the node it names), and following
`d1, ..., dn` and then the link named `item.Name` followed by `item.Uuid` reaches
the DAG root of the file. -/
theorem buildGraph_reaches (fileNodeMap : String → Option Cid) (files : List Finfo)
    (dirs : Finfo → List String) (base : Finfo → String)
    (hpath : ∀ f ∈ files, f.Path = absPath (dirs f) (base f))
    (hdirs : ∀ f ∈ files, ∀ d ∈ dirs f, PathElem d ∧ ValidDirName d)
    (hbase : ∀ f ∈ files, PathElem (base f))
    (hbuilt : ∀ f ∈ files, (fileNodeMap f.Path).isSome)
    (hfile : ∀ f ∈ files, ∀ g ∈ files, dirs f = dirs g →
      f.Name ++ f.Uuid = g.Name ++ g.Uuid → f.Path = g.Path)
    (hsub : ∀ f ∈ files, ∀ g ∈ files, ¬ (dirs f ++ [f.Name ++ f.Uuid]) <+: dirs g) :
    ∃ m root, buildGraph fileNodeMap files = .ok m ∧ m rootKey = some root ∧
      ∀ f ∈ files,
        (∀ i, i ≤ (dirs f).length →
          ∃ n, m (dirKeyOf ((dirs f).take i)) = some n ∧
            resolve (ProtoNode.Cid root) ((dirs f).take i) = some (ProtoNode.Cid n)) ∧
        resolve (ProtoNode.Cid root) (dirs f ++ [f.Name ++ f.Uuid]) = fileNodeMap f.Path := by
  have hdl : ∀ f ∈ files, dirListOf "/" f.Path = dirs f := by
    intro f hf
    rw [hpath f hf]
    exact dirListOf_absPath _ _ (fun d hd => (hdirs f hf d hd).1) (hbase f hf)
  have hjob : ∀ j ∈ files.map (jobOf "/" fileNodeMap), ∃ f ∈ files,
      j.dirs = dirs f ∧ j.name = f.Name ++ f.Uuid ∧ fileNodeMap f.Path = some j.cid := by
    intro j hj
    obtain ⟨f, hf, rfl⟩ := List.mem_map.1 hj
    obtain ⟨c, hc⟩ := Option.isSome_iff_exists.1 (hbuilt f hf)
    exact ⟨f, hf, hdl f hf, rfl, by simp [jobOf, hc]⟩
  have hvalid : ∀ j ∈ files.map (jobOf "/" fileNodeMap), ValidDirPath j.dirs := by
    intro j hj d hd
    obtain ⟨f, hf, hd1, _, _⟩ := hjob j hj
    rw [hd1] at hd
    exact (hdirs f hf d hd).2
  have hclash : NoClash (files.map (jobOf "/" fileNodeMap)) := by
    constructor
    · intro j hj j1 hj1 hd hn
      obtain ⟨f, hf, hfd, hfn, hfc⟩ := hjob j hj
      obtain ⟨g, hg, hgd, hgn, hgc⟩ := hjob j1 hj1
      have hp : f.Path = g.Path :=
        hfile f hf g hg (by rw [← hfd, ← hgd, hd]) (by rw [← hfn, ← hgn, hn])
      rw [hp, hgc] at hfc
      exact (Option.some.inj hfc).symm
    · intro j hj j1 hj1 rest hd
      obtain ⟨f, hf, hfd, hfn, _⟩ := hjob j hj
      obtain ⟨g, hg, hgd, _, _⟩ := hjob j1 hj1
      refine hsub f hf g hg ⟨rest, ?_⟩
      rw [← hgd, hd, hfd, hfn]
      simp
  have hrun : buildGraph fileNodeMap files
      = .ok ((files.map (jobOf "/" fileNodeMap)).foldl placeJob DirNodeMap.init) := by
    have hpp : pathClean "/" = "/" := by decide
    simp only [buildGraph, placeFiles_eq fileNodeMap "/" hpp files DirNodeMap.init hbuilt]
  obtain ⟨hcons, hle, hlinked⟩ :=
    placeJobs_spec hvalid (files.map (jobOf "/" fileNodeMap)) DirNodeMap.init
      (fun j hj => hj) (cons_init _)
  obtain ⟨root, hroot, _⟩ := hle rootKey EmptyDirNode (by simp [DirNodeMap.init, DirNodeMap.set])
  refine ⟨_, root, hrun, hroot, ?_⟩
  intro f hf
  have hj : jobOf "/" fileNodeMap f ∈ files.map (jobOf "/" fileNodeMap) :=
    List.mem_map_of_mem _ hf
  obtain ⟨c, hc⟩ := Option.isSome_iff_exists.1 (hbuilt f hf)
  have hjd : (jobOf "/" fileNodeMap f).dirs = dirs f := hdl f hf
  constructor
  · intro i hi
    have := reach_dirs hroot hcons hclash hvalid hj (hlinked _ hj) i (by rw [hjd]; exact hi)
    rw [hjd] at this
    exact this
  · have := reach_file hroot hcons hclash hvalid hj (hlinked _ hj)
    rw [hjd] at this
    rw [show (jobOf "/" fileNodeMap f).name = f.Name ++ f.Uuid from rfl] at this
    rw [this, hc]
    simp [jobOf, hc]

theorem buildGraph_reaches_witness :
    ∃ m root, buildGraph sampleNodes demoFiles = .ok m ∧ m rootKey = some root ∧
      ∀ f ∈ demoFiles,
        (∀ i, i ≤ (dirListOf "/" f.Path).length →
          ∃ n, m (dirKeyOf ((dirListOf "/" f.Path).take i)) = some n ∧
            resolve (ProtoNode.Cid root) ((dirListOf "/" f.Path).take i)
              = some (ProtoNode.Cid n)) ∧
        resolve (ProtoNode.Cid root) (dirListOf "/" f.Path ++ [f.Name ++ f.Uuid])
          = sampleNodes f.Path :=
  buildGraph_reaches sampleNodes demoFiles (fun f => dirListOf "/" f.Path) (fun f => f.Name)
    (by decide) (by decide) (by decide) (by decide) (by decide) (by decide)

/-! ## Theorems: window names -/

theorem isChain_index {item : Finfo} : ∀ (ps : List Entry) (c : Nat) (s : Int),
    IsChain item c s ps → ∀ k (h : k < ps.length), ∃ s1 t1,
      ps.get ⟨k, h⟩ = Entry.window item (c + k) s1 t1
  | [], _, _, _, k, h => absurd h (Nat.not_lt_zero k)
  | e :: es, c, s, hch, k, h => by
    obtain ⟨t, he, _, _, hrest⟩ := hch
    cases k with
    | zero => exact ⟨s, t, he⟩
    | succ k =>
      obtain ⟨s1, t1, h1⟩ := isChain_index es (c + 1) (t + 1) hrest k (Nat.lt_of_succ_lt_succ h)
      refine ⟨s1, t1, ?_⟩
      have : c + (k + 1) = c + 1 + k := by omega
      rw [this]
      exact h1

theorem pieces_numbered {item : Finfo} {ps : List Entry} (h : Pieces item ps) :
    NumberedPieces item ps := by
  rcases h with h | ⟨_, hch⟩
  · exact Or.inl h
  · refine Or.inr (fun k hk => ?_)
    obtain ⟨s1, t1, h1⟩ := isChain_index ps 0 0 hch k hk
    rw [Nat.zero_add] at h1
    refine ⟨s1, t1, h1, ?_⟩
    rw [h1]
    rfl

theorem forall₂_pieces_numbered {files : List Finfo} {pcs : List (List Entry)}
    (h : List.Forall₂ Pieces files pcs) : List.Forall₂ NumberedPieces files pcs :=
  h.imp (fun _ _ hp => pieces_numbered hp)

theorem rest_whole {files : List Finfo} {pcs : List (List Entry)} {flat rest : List Entry}
    (hsz : ∀ f ∈ files, 0 ≤ f.Info.size) (hpcs : List.Forall₂ Pieces files pcs)
    (hflat : flat ++ rest = pcs.flatten) (hrest : sliceBytes rest = 0) :
    ∀ e ∈ rest, e.isWindow = false := by
  have hwf := forall₂_pieces_wellFormed hpcs
  have hnn : ∀ e ∈ rest, 0 ≤ e.bytes ∧ (e.isWindow = true → 1 ≤ e.bytes) := by
    intro e he
    have hmem : e ∈ pcs.flatten := by
      rw [← hflat]
      exact List.mem_append_right _ he
    obtain ⟨item1, hitem1, hwf1⟩ := hwf e hmem
    exact hwf1.bytes_nonneg (hsz item1 hitem1)
  intro e he
  have h0 := sliceBytes_eq_zero (fun e he => (hnn e he).1) hrest e he
  cases hw : e.isWindow
  · rfl
  · have := (hnn e he).2 hw
    omega

/-! ## Theorems: files left out of every slice -/

/-- C20: with slice size 10, a 10-byte file followed by an empty file gives one
slice holding the 10-byte file only; the empty file is left pending when
`doGenerateCar` returns and reaches no call of `BuildIpldGraph`. -/
theorem doGenerateCar_drops_empty_tail :
    doGenerateCar 10 10 "g" 1 zeroTailFiles
        = some (.done [⟨[Entry.whole (mkFile "/in/a" "a" 10)], "g-total-2-part-1.car"⟩]) ∧
      (zeroTailFiles.map (fun f => f.Info.size)).sum > 0 ∧
      mkFile "/in/c" "c" 0 ∈ zeroTailFiles ∧
      ∀ calls, doGenerateCar 10 10 "g" 1 zeroTailFiles = some (.done calls) →
        ∀ c ∈ calls, "/in/c" ∉ slicePaths c.graphFiles := by
  have hrun : doGenerateCar 10 10 "g" 1 zeroTailFiles
      = some (.done [⟨[Entry.whole (mkFile "/in/a" "a" 10)], "g-total-2-part-1.car"⟩]) := by
    decide
  refine ⟨hrun, by decide, by decide, ?_⟩
  intro calls h c hc
  rw [hrun] at h
  cases h
  rw [List.mem_singleton] at hc
  subst hc
  decide

/-! ## Theorems: one entry per path in a slice -/

theorem slicePaths_append (a b : List Entry) :
    slicePaths (a ++ b) = slicePaths a ++ slicePaths b := by
  simp [slicePaths]

theorem slicePaths_single_window (item : Finfo) (c : Nat) (s t : Int) :
    slicePaths [Entry.window item c s t] = [item.Path] := rfl

theorem slicePaths_single_whole (item : Finfo) :
    slicePaths [Entry.whole item] = [item.Path] := rfl

theorem pathsOK_build {seen : List String} {st : PlanState} (h : PathsOK seen st)
    (g : String) (n : Int) : PathsOK seen (st.build g n) := by
  refine ⟨?_, List.nodup_nil, ?_⟩
  · intro c hc
    rcases List.mem_append.1 hc with hc | hc
    · exact h.1 c hc
    · rw [List.mem_singleton] at hc
      subst hc
      exact h.2.1
  · intro p hp
    cases hp

theorem pathsOK_push {seen : List String} {st : PlanState} (h : PathsOK seen st)
    {e : Entry} {p : String} (he : slicePaths [e] = [p]) (hp : p ∉ seen) (cumu : Int) :
    PathsOK (p :: seen) { st with cumuSize := cumu, graphFiles := st.graphFiles ++ [e] } := by
  refine ⟨h.1, ?_, ?_⟩
  · show (slicePaths (st.graphFiles ++ [e])).Nodup
    rw [slicePaths_append, he]
    refine List.Nodup.append h.2.1 (List.nodup_singleton p) ?_
    intro x hx hx1
    rw [List.mem_singleton] at hx1
    subst hx1
    exact hp (h.2.2 x hx)
  · intro x hx
    change x ∈ slicePaths (st.graphFiles ++ [e]) at hx
    rw [slicePaths_append, he] at hx
    rcases List.mem_append.1 hx with hx | hx
    · exact List.mem_cons_of_mem _ (h.2.2 x hx)
    · rw [List.mem_singleton] at hx
      subst hx
      exact List.mem_cons_self _ _

/-! ## Theorems: a failed file worker -/

theorem fileWorkers_none (BuildFileNode : Finfo → Option Cid) (p : String) :
    ∀ (files : List Finfo) (m : String → Option Cid), m p = none →
      (∀ f ∈ files, f.Path = p → BuildFileNode f = none) →
      fileWorkers BuildFileNode files m p = none
  | [], m, hm, _ => hm
  | item :: rest, m, hm, hfail => by
    rw [fileWorkers]
    cases hb : BuildFileNode item with
    | none =>
      exact fileWorkers_none BuildFileNode p rest m hm (fun f hf => hfail f (List.mem_cons_of_mem _ hf))
    | some fileNode =>
      refine fileWorkers_none BuildFileNode p rest _ ?_ (fun f hf => hfail f (List.mem_cons_of_mem _ hf))
      have hne : p ≠ item.Path := by
        intro h
        have := hfail item (List.mem_cons_self _ _) h.symm
        rw [hb] at this
        cases this
      simp only [if_neg hne]
      exact hm

theorem placeFiles_missing (fileNodeMap : String → Option Cid) :
    ∀ (files : List Finfo) (st : TreeState), (∃ f ∈ files, fileNodeMap f.Path = none) →
      placeFiles fileNodeMap files st = .error .missingFileNode
  | [], _, h => by
    obtain ⟨f, hf, _⟩ := h
    cases hf
  | item :: rest, st, h => by
    rw [placeFiles]
    cases hstep : placeFile fileNodeMap st item with
    | error e =>
      cases e
      rfl
    | ok st1 =>
      obtain ⟨f, hf, hnone⟩ := h
      rcases List.mem_cons.1 hf with heq | hmem
      · subst heq
        simp only [placeFile, hnone] at hstep
        cases hstep
      · exact placeFiles_missing fileNodeMap rest st1 ⟨f, hmem, hnone⟩

/-- When `BuildFileNode` fails for a file of the slice (and for every entry of the
same path), `buildIpldGraph` panics. -/
theorem buildIpldGraphEnding_missing (BuildFileNode : Finfo → Option Cid)
    (fileList : List Finfo) (parentPath : String) (item : Finfo) (hitem : item ∈ fileList)
    (hfail : ∀ f ∈ fileList, f.Path = item.Path → BuildFileNode f = none) :
    buildIpldGraphEnding BuildFileNode fileList parentPath
      = .panicked "unexpected, missing file node" := by
  have hnone := fileWorkers_none BuildFileNode item.Path fileList (fun _ => none) rfl hfail
  have hrun := placeFiles_missing (fileWorkers BuildFileNode fileList (fun _ => none))
    fileList ⟨parentPath, DirNodeMap.init⟩ ⟨item, hitem, hnone⟩
  simp only [buildIpldGraphEnding, buildIpldGraph, hrun]

/-- C16: on the slice `/in/a`, `/in/b`, `/in/c` with `BuildFileNode` failing for
`/in/b`, `buildIpldGraph` panics with "unexpected, missing file node"; it does not
return an error. -/
theorem buildIpldGraph_panics_on_failed_file :
    buildIpldGraphEnding failOnB sampleFiles "/in"
        = .panicked "unexpected, missing file node" ∧
      ∀ err, buildIpldGraphEnding failOnB sampleFiles "/in" ≠ .returned (some err) := by
  have h := buildIpldGraphEnding_missing failOnB sampleFiles "/in" (mkFile "/in/b" "b" 25)
    (by decide) (fun f _ hp => if_pos hp)
  refine ⟨h, ?_⟩
  intro err hc
  rw [h] at hc
  cases hc

/-! ## Theorems: the manifest -/

/-- C12: on a directory without `manifest.csv`, `SaveToCsv` creates the file with
the header line `playload_cid,filename,detail` followed by the row; the header is
not the line `payload_cid,filename,detail`. -/
theorem SaveToCsv_header_typo :
    SaveToCsv none "QmRoot" "g.car" "d"
        = "playload_cid,filename,detail\nQmRoot,g.car,d\n" ∧
      SaveToCsv none "QmRoot" "g.car" "d"
        ≠ "payload_cid,filename,detail\n" ++ "QmRoot,g.car,d\n" := by
  decide

theorem SaveToCsv_some (c rootCid graphName fsDetail : String) :
    SaveToCsv (some c) rootCid graphName fsDetail
      = c ++ (rootCid ++ "," ++ graphName ++ "," ++ fsDetail ++ "\n") := by
  simp [SaveToCsv, manifestRow]

theorem SaveToCsv_none (rootCid graphName fsDetail : String) :
    SaveToCsv none rootCid graphName fsDetail
      = "playload_cid,filename,detail\n" ++ (rootCid ++ "," ++ graphName ++ "," ++ fsDetail ++ "\n") := by
  simp [SaveToCsv, manifestRow, manifestHeader]

theorem foldl_append_string : ∀ (l : List String) (init : String),
    l.foldl (fun r s => r ++ s) init = init ++ l.foldl (fun r s => r ++ s) ""
  | [], init => by simp
  | a :: l, init => by
    rw [List.foldl_cons, List.foldl_cons, foldl_append_string l (init ++ a),
      foldl_append_string l ("" ++ a), String.empty_append, String.append_assoc]

theorem join_cons (a : String) (l : List String) : String.join (a :: l) = a ++ String.join l := by
  simp only [String.join, List.foldl_cons, String.empty_append]
  exact foldl_append_string l a

theorem saveAll_some : ∀ (rows : List (String × String × String)) (c : String),
    saveAll (some c) rows
      = some (c ++ String.join (rows.map (fun r => r.1 ++ "," ++ r.2.1 ++ "," ++ r.2.2 ++ "\n")))
  | [], c => by simp [saveAll, String.join]
  | (a, b, d) :: rest, c => by
    rw [saveAll, SaveToCsv_some, saveAll_some rest, List.map_cons, join_cons, String.append_assoc]

/-- C13: `n ≥ 1` successive calls of `SaveToCsv` starting from a missing
`manifest.csv` leave the header line `playload_cid,filename,detail` once, followed
by the `n` rows `<rootCid>,<graphName>,<fsDetail>`, each ended by a line feed, in
call order; a call on an existing manifest keeps its content as a prefix and
appends the row of the call and nothing else. -/
theorem SaveToCsv_appends (rows : List (String × String × String)) (hn : 1 ≤ rows.length) :
    saveAll none rows
        = some ("playload_cid,filename,detail\n" ++
            String.join (rows.map (fun r => r.1 ++ "," ++ r.2.1 ++ "," ++ r.2.2 ++ "\n"))) ∧
      ∀ (c rootCid graphName fsDetail : String),
        SaveToCsv (some c) rootCid graphName fsDetail
          = c ++ (rootCid ++ "," ++ graphName ++ "," ++ fsDetail ++ "\n") := by
  refine ⟨?_, SaveToCsv_some⟩
  match rows, hn with
  | (a, b, d) :: rest, _ =>
    rw [saveAll, SaveToCsv_none, saveAll_some rest, List.map_cons, join_cons, String.append_assoc]

theorem SaveToCsv_appends_witness :
    1 ≤ [("QmA", "g-total-2-part-1.car", "d1"), ("QmB", "g-total-2-part-2.car", "d2")].length ∧
      (saveAll none [("QmA", "g-total-2-part-1.car", "d1"), ("QmB", "g-total-2-part-2.car", "d2")]
        = some ("playload_cid,filename,detail\n" ++
            String.join ([("QmA", "g-total-2-part-1.car", "d1"),
                ("QmB", "g-total-2-part-2.car", "d2")].map
              (fun r => r.1 ++ "," ++ r.2.1 ++ "," ++ r.2.2 ++ "\n"))) ∧
      ∀ (c rootCid graphName fsDetail : String),
        SaveToCsv (some c) rootCid graphName fsDetail
          = c ++ (rootCid ++ "," ++ graphName ++ "," ++ fsDetail ++ "\n")) ∧
      saveAll none [("QmA", "g-total-2-part-1.car", "d1"), ("QmB", "g-total-2-part-2.car", "d2")]
        = some ("playload_cid,filename,detail\nQmA,g-total-2-part-1.car,d1\n" ++
            "QmB,g-total-2-part-2.car,d2\n") :=
  ⟨by decide, SaveToCsv_appends _ (by decide), by decide⟩

/-! ## Theorems: extraction and directory entry names -/

theorem isValidFilename_iff (name : String) :
    isValidFilename name = true ↔ '/' ∉ name.data ∧ Char.ofNat 0 ∉ name.data := by
  simp only [isValidFilename, Bool.not_eq_true', List.any_eq_false, Bool.or_eq_true,
    decide_eq_true_eq, not_or]
  constructor
  · intro h
    exact ⟨fun hm => (h _ hm).1 rfl, fun hm => (h _ hm).2 rfl⟩
  · intro h c hc
    exact ⟨fun e => h.1 (e ▸ hc), fun e => h.2 (e ▸ hc)⟩

/-- The entries loop stops at an entry with an invalid name: what comes of the
entries before it decides the outcome. -/
theorem exportEntries_invalid (name : String) (x : FNode) (post : List (String × FNode))
    (hbad : invalidEntryName name = true) (fpath : String) :
    ∀ (pre : List (String × FNode)) (fs : FS),
      exportEntries (pre ++ (name, x) :: post) fpath fs
        = match exportEntries pre fpath fs with
          | (none, fs1) => (some .ErrInvalidDirectoryEntry, fs1)
          | (some e, fs1) => (some e, fs1)
  | [], fs => by
    simp only [List.nil_append, exportEntries, hbad, if_true]
  | (n1, x1) :: pre, fs => by
    simp only [List.cons_append, exportEntries]
    by_cases h1 : invalidEntryName n1 = true
    · simp only [h1, if_true]
    · simp only [h1, if_false, Bool.false_eq_true]
      rcases hres : exportFileInCar x1 (filepathJoin fpath n1) fs with ⟨_ | e, fs1⟩
      · simp only []
        exact exportEntries_invalid name x post hbad fpath pre fs1
      · simp only []

theorem exportEntriesByName_invalid (name : String) (x : FNode) (post : List (String × FNode))
    (hbad : invalidEntryName name = true) (fpath targetName : String) :
    ∀ (pre : List (String × FNode)) (fs : FS),
      exportEntriesByName (pre ++ (name, x) :: post) fpath targetName fs
        = match exportEntriesByName pre fpath targetName fs with
          | (none, fs1) => (some .ErrInvalidDirectoryEntry, fs1)
          | (some e, fs1) => (some e, fs1)
  | [], fs => by
    simp only [List.nil_append, exportEntriesByName, hbad, if_true]
  | (n1, x1) :: pre, fs => by
    simp only [List.cons_append, exportEntriesByName]
    by_cases h1 : invalidEntryName n1 = true
    · simp only [h1, if_true]
    · simp only [h1, if_false, Bool.false_eq_true]
      rcases hres : exportFileInCarByName x1 (filepathJoin fpath n1) targetName fs with ⟨_ | e, fs1⟩
      · simp only []
        exact exportEntriesByName_invalid name x post hbad fpath targetName pre fs1
      · simp only []

theorem invalidEntryName_iff (name : String) :
    invalidEntryName name = true ↔
      (name = "" ∨ name = "." ∨ name = ".." ∨ '/' ∈ name.data ∨ Char.ofNat 0 ∈ name.data) := by
  have hv := isValidFilename_iff name
  cases hval : isValidFilename name
  · have hnot : ¬ ('/' ∉ name.data ∧ Char.ofNat 0 ∉ name.data) := by
      intro h
      rw [hv.2 h] at hval
      cases hval
    have hin : '/' ∈ name.data ∨ Char.ofNat 0 ∈ name.data := by
      by_contra hc
      exact hnot ⟨fun h => hc (Or.inl h), fun h => hc (Or.inr h)⟩
    simp only [invalidEntryName, hval, Bool.not_false, Bool.or_true, true_iff]
    exact Or.inr (Or.inr (Or.inr hin))
  · have h := hv.1 hval
    simp only [invalidEntryName, hval, Bool.not_true, Bool.or_false, Bool.or_eq_true,
      decide_eq_true_eq]
    constructor
    · rintro ((h1 | h1) | h1)
      · exact Or.inl h1
      · exact Or.inr (Or.inl h1)
      · exact Or.inr (Or.inr (Or.inl h1))
    · rintro (h1 | h1 | h1 | h1 | h1)
      · exact Or.inl (Or.inl h1)
      · exact Or.inl (Or.inr h1)
      · exact Or.inr h1
      · exact absurd h1 h.1
      · exact absurd h1 h.2

/-- C14, counterexample: exported to the fresh path `/out/d`, the directory with
the entries `a`, `a`, `..` makes `exportFileInCar` and `exportFileInCarByName`
return `ErrPathExistsOverwrite` (raised by the second `a`), not
`ErrInvalidDirectoryEntry`, although one of its entries is named `..`. -/
theorem exportFileInCar_earlier_error :
    sampleFS "/out/d" = none ∧
      (exportFileInCar twiceThenDotDot "/out/d" sampleFS).1 = some .ErrPathExistsOverwrite ∧
      (exportFileInCarByName twiceThenDotDot "/out/d" "a" sampleFS).1
        = some .ErrPathExistsOverwrite := by
  decide

/-- C14, amended: when a directory node has an entry named `""`, `"."`, `".."` or
a name containing `/` or NUL, `exportFileInCar` and `exportFileInCarByName` return
an error and leave the file system as the export of the entries before that entry
leaves it, so no path is created for that entry or any entry after it; the error
is `ErrInvalidDirectoryEntry` when the steps before that entry (the test of the
target path, `Mkdir`, the export of the earlier entries) raise no error, and the
error of the first such step otherwise.  `isValidFilename(name)` is true exactly
when `name` contains neither `/` nor NUL. -/
theorem exportFileInCar_invalid_entry (name : String) (x : FNode)
    (pre post : List (String × FNode)) (fpath targetName : String) (fs : FS)
    (hbad : name = "" ∨ name = "." ∨ name = ".." ∨ '/' ∈ name.data ∨ Char.ofNat 0 ∈ name.data) :
    (exportFileInCar (.Directory (pre ++ (name, x) :: post)) fpath fs
        = match exportFileInCar (.Directory pre) fpath fs with
          | (none, fs1) => (some .ErrInvalidDirectoryEntry, fs1)
          | (some e, fs1) => (some e, fs1)) ∧
      (exportFileInCarByName (.Directory (pre ++ (name, x) :: post)) fpath targetName fs
        = match exportFileInCarByName (.Directory pre) fpath targetName fs with
          | (none, fs1) => (some .ErrInvalidDirectoryEntry, fs1)
          | (some e, fs1) => (some e, fs1)) ∧
      (exportFileInCar (.Directory (pre ++ (name, x) :: post)) fpath fs).1 ≠ none ∧
      (exportFileInCarByName (.Directory (pre ++ (name, x) :: post)) fpath targetName fs).1
        ≠ none ∧
      ∀ n : String, isValidFilename n = true ↔ '/' ∉ n.data ∧ Char.ofNat 0 ∉ n.data := by
  have hinv := (invalidEntryName_iff name).2 hbad
  have h1 : exportFileInCar (.Directory (pre ++ (name, x) :: post)) fpath fs
      = match exportFileInCar (.Directory pre) fpath fs with
        | (none, fs1) => (some .ErrInvalidDirectoryEntry, fs1)
        | (some e, fs1) => (some e, fs1) := by
    simp only [exportFileInCar]
    by_cases hex : (fs fpath).isSome = true
    · simp only [hex, if_true]
    · simp only [hex, if_false, Bool.false_eq_true]
      cases hmk : osMkdir fs fpath with
      | error e => simp only []
      | ok fs1 =>
        simp only []
        exact exportEntries_invalid name x post hinv fpath pre fs1
  have h2 : exportFileInCarByName (.Directory (pre ++ (name, x) :: post)) fpath targetName fs
      = match exportFileInCarByName (.Directory pre) fpath targetName fs with
        | (none, fs1) => (some .ErrInvalidDirectoryEntry, fs1)
        | (some e, fs1) => (some e, fs1) := by
    simp only [exportFileInCarByName]
    by_cases hex : (fs fpath).isSome = true
    · simp only [hex, if_true]
    · simp only [hex, if_false, Bool.false_eq_true]
      cases hmk : osMkdir fs fpath with
      | error e => simp only []
      | ok fs1 =>
        simp only []
        exact exportEntriesByName_invalid name x post hinv fpath targetName pre fs1
  refine ⟨h1, h2, ?_, ?_, isValidFilename_iff⟩
  · rw [h1]
    rcases exportFileInCar (.Directory pre) fpath fs with ⟨_ | e, fs1⟩ <;> simp
  · rw [h2]
    rcases exportFileInCarByName (.Directory pre) fpath targetName fs with ⟨_ | e, fs1⟩ <;> simp

theorem exportFileInCar_invalid_entry_witness :
    (".." = "" ∨ ".." = "." ∨ ".." = ".." ∨ '/' ∈ "..".data ∨ Char.ofNat 0 ∈ "..".data) ∧
    ((exportFileInCar (.Directory ([("ok", .File [1])] ++ ("..", .File [3]) :: [])) "/out/d"
          sampleFS
        = match exportFileInCar (.Directory [("ok", .File [1])]) "/out/d" sampleFS with
          | (none, fs1) => (some .ErrInvalidDirectoryEntry, fs1)
          | (some e, fs1) => (some e, fs1)) ∧
      (exportFileInCarByName (.Directory ([("ok", .File [1])] ++ ("..", .File [3]) :: []))
          "/out/d" "ok" sampleFS
        = match exportFileInCarByName (.Directory [("ok", .File [1])]) "/out/d" "ok" sampleFS with
          | (none, fs1) => (some .ErrInvalidDirectoryEntry, fs1)
          | (some e, fs1) => (some e, fs1)) ∧
      (exportFileInCar (.Directory ([("ok", .File [1])] ++ ("..", .File [3]) :: [])) "/out/d"
          sampleFS).1 ≠ none ∧
      (exportFileInCarByName (.Directory ([("ok", .File [1])] ++ ("..", .File [3]) :: []))
          "/out/d" "ok" sampleFS).1 ≠ none ∧
      ∀ n : String, isValidFilename n = true ↔ '/' ∉ n.data ∧ Char.ofNat 0 ∉ n.data) :=
  ⟨by decide, exportFileInCar_invalid_entry ".." (.File [3]) [("ok", .File [1])] [] "/out/d" "ok"
    sampleFS (by decide)⟩

/-- C15: written to `/out/d`, a directory node with the file entry `../x` makes
`NodeWriteTo` return `nil` and write the file at `/out/x`, the path obtained by
joining `/out/d` with the entry name, outside the directory being written;
`exportFileInCar` on the same input returns `ErrInvalidDirectoryEntry` and
writes nothing there. -/
theorem NodeWriteTo_no_validation (ExistDir : FS → String → Bool) :
    invalidEntryName "../x" = true ∧ filepathJoin "/out/d" "../x" = "/out/x" ∧
      sampleFS "/out/x" = none ∧
      (NodeWriteTo ExistDir escapingDir "/out/d" sampleFS).1 = none ∧
      (NodeWriteTo ExistDir escapingDir "/out/d" sampleFS).2 "/out/x" = some (.file [7]) ∧
      (exportFileInCar escapingDir "/out/d" sampleFS).1 = some .ErrInvalidDirectoryEntry ∧
      (exportFileInCar escapingDir "/out/d" sampleFS).2 "/out/x" = none := by
  refine ⟨by decide, by decide, by decide, ?_, ?_, by decide, by decide⟩
  · cases h : ExistDir sampleFS "/out/d" <;>
      simp only [NodeWriteTo, escapingDir, h, Bool.not_true, Bool.not_false, if_true, if_false,
        Bool.false_eq_true] <;> rfl
  · cases h : ExistDir sampleFS "/out/d" <;>
      simp only [NodeWriteTo, escapingDir, h, Bool.not_true, Bool.not_false, if_true, if_false,
        Bool.false_eq_true] <;> rfl

/-! ## Theorems: the summary of a build -/

/-- C17: in the summary `FSBuilder.Build` returns, the root has an empty `Name`
and a root that is a file has the empty list as `Link`, but a file reached through
a link has a nil `Link` (`null` once serialized), not an empty list; so it is for
the five files of `genCarWithUuidDemo` placed below `/test/input`, where the root
lists `dir1` with a list and the files `test0` and `test4` with a nil `Link`. -/
theorem Build_linked_file_nil :
    (∀ root : Cid, (Build root).Name = "") ∧
      (∀ r : String, (Build (.file r)).Link = some []) ∧
      (∀ (name r : String), (getNodeByLink ⟨name, .file r⟩).Link = none) ∧
      ((rootCid (buildIpldGraph sampleNodes demoFiles "/test/input")).map Build).bind
          fsNode.children
        = some [("dir1", true),
            ("test0-uuid-94d6a0d0-3e76-45b7-9705-4d829e0e3ca8", false),
            ("test4-uuid-571e4e2b-d50b-4ac2-a89f-07795b684148", false)] := by
  refine ⟨?_, fun _ => rfl, fun _ _ => rfl, by decide⟩
  intro root
  cases root <;> rfl

/-! ## Theorems: the order of the links of a directory -/

theorem char_lt_iff (a b : Char) : a < b ↔ a.toNat < b.toNat := by
  rw [Char.lt_iff_val_lt_val]
  exact Iff.rfl

theorem char_eq_of_toNat {a b : Char} (h1 : ¬ a.toNat < b.toNat) (h2 : ¬ b.toNat < a.toNat) :
    a = b := by
  apply Char.ext
  apply UInt32.ext
  have : a.toNat = b.toNat := by omega
  exact this

theorem charsLE_iff : ∀ a b : List Char,
    charsLE a b = true ↔ ¬ List.Lex (fun x y : Char => x < y) b a
  | [], b => by
    simp only [charsLE, true_iff]
    intro h
    cases h
  | x :: xs, [] => by
    simp only [charsLE, Bool.false_eq_true, false_iff, not_not]
    exact List.Lex.nil
  | x :: xs, y :: ys => by
    have ih := charsLE_iff xs ys
    simp only [charsLE]
    by_cases h1 : x.toNat < y.toNat
    · simp only [h1, if_true, true_iff]
      intro h
      cases h with
      | cons _ => omega
      | rel h2 => rw [char_lt_iff] at h2; omega
    · by_cases h2 : y.toNat < x.toNat
      · simp only [h1, h2, if_true, if_false, Bool.false_eq_true, false_iff, not_not]
        exact List.Lex.rel ((char_lt_iff y x).2 h2)
      · simp only [h1, h2, if_false]
        rw [ih]
        have hxy : x = y := char_eq_of_toNat h1 h2
        subst hxy
        constructor
        · intro h hlt
          cases hlt with
          | cons h5 => exact h h5
          | rel h3 => rw [char_lt_iff] at h3; exact h2 h3
        · intro h hlt
          exact h (List.Lex.cons hlt)

theorem nameLE_iff (a b : String) : nameLE a b = true ↔ a ≤ b := by
  show charsLE a.data b.data = true ↔ ¬ b < a
  rw [charsLE_iff, String.lt_iff_toList_lt]
  exact Iff.rfl

theorem sortedLinks_pairwise (n : ProtoNode) :
    n.sortedLinks.Pairwise (fun a b => a.Name ≤ b.Name) := by
  have h := @List.sorted_insertionSort (Link Cid) (fun a b => nameLE a.Name b.Name = true) _
    ⟨fun a b => by
      rcases le_total a.Name b.Name with h | h
      · exact Or.inl ((nameLE_iff _ _).2 h)
      · exact Or.inr ((nameLE_iff _ _).2 h)⟩
    ⟨fun a b c hab hbc =>
      (nameLE_iff _ _).2 (le_trans ((nameLE_iff _ _).1 hab) ((nameLE_iff _ _).1 hbc))⟩ n
  exact List.Pairwise.imp (fun hab => (nameLE_iff _ _).1 hab) h

theorem AddNodeLink_sorted (n : ProtoNode) (name : String) (c : Cid) :
    (n.AddNodeLink name c).Pairwise (fun a b => a.Name ≤ b.Name) :=
  sortedLinks_pairwise _

theorem UpdateNodeLink_sorted (n : ProtoNode) (name : String) (c : Cid) :
    (n.UpdateNodeLink name c).Pairwise (fun a b => a.Name ≤ b.Name) :=
  sortedLinks_pairwise _

theorem NodesSorted.set {m : DirNodeMap} (h : NodesSorted m) (k : String) {n : ProtoNode}
    (hn : n.Pairwise (fun a b => a.Name ≤ b.Name)) : NodesSorted (m.set k n) := by
  intro key n1 h1
  by_cases hk : key = k
  · subst hk
    rw [DirNodeMap.set_same] at h1
    cases h1
    exact hn
  · rw [DirNodeMap.set_other _ _ hk] at h1
    exact h key n1 h1

theorem NodesSorted.getD {m : DirNodeMap} (h : NodesSorted m) (k : String) :
    ((m k).getD EmptyDirNode).Pairwise (fun a b => a.Name ≤ b.Name) := by
  cases hk : m k with
  | none => exact List.Pairwise.nil
  | some n => exact h k n hk

theorem linkDirs_sorted (dirList : List String) (fileLink : String) (fileNode : Cid) :
    ∀ (i : Nat) (m : DirNodeMap), NodesSorted m →
      NodesSorted (linkDirs dirList fileLink fileNode i m)
  | 0, _, h => h
  | i + 1, m, h => by
    rw [linkDirs]
    apply linkDirs_sorted dirList fileLink fileNode i
    split_ifs <;>
      repeat (first
        | exact h
        | exact NodesSorted.getD h _
        | exact AddNodeLink_sorted _ _ _
        | exact UpdateNodeLink_sorted _ _ _
        | apply NodesSorted.set)

theorem placeFiles_sorted (fileNodeMap : String → Option Cid) :
    ∀ (files : List Finfo) (st st1 : TreeState), NodesSorted st.dirNodeMap →
      placeFiles fileNodeMap files st = .ok st1 → NodesSorted st1.dirNodeMap
  | [], st, st1, h, hrun => by
    simp only [placeFiles] at hrun
    cases hrun
    exact h
  | item :: rest, st, st1, h, hrun => by
    rw [placeFiles] at hrun
    cases hstep : placeFile fileNodeMap st item with
    | error e => rw [hstep] at hrun; cases hrun
    | ok st2 =>
      rw [hstep] at hrun
      refine placeFiles_sorted fileNodeMap rest st2 st1 ?_ hrun
      unfold placeFile at hstep
      cases hnode : fileNodeMap item.Path with
      | none => rw [hnode] at hstep; cases hstep
      | some fileNode =>
        rw [hnode] at hstep
        simp only [] at hstep
        split at hstep
        · cases hstep
          exact h.set _ (AddNodeLink_sorted _ _ _)
        · cases hstep
          exact linkDirs_sorted _ _ _ _ _ h

theorem init_sorted : NodesSorted DirNodeMap.init := by
  intro key n hn
  simp only [DirNodeMap.init, DirNodeMap.set] at hn
  split at hn
  · cases hn
    exact List.Pairwise.nil
  · cases hn

/-- Re-linking a name that a sorted node links once leaves every name of the node
where it was. -/
theorem UpdateNodeLink_names (n : ProtoNode) (hs : n.Pairwise (fun a b => a.Name ≤ b.Name))
    (d : String) (c : Cid) (h1 : (n.filter (fun l => l.Name = d)).length = 1) :
    (n.UpdateNodeLink d c).map (fun l => l.Name) = n.map (fun l => l.Name) := by
  have hA : ((n.UpdateNodeLink d c).map (fun l => l.Name)).Sorted (fun a b => a ≤ b) :=
    List.pairwise_map.2 (UpdateNodeLink_sorted n d c)
  have hB : (n.map (fun l => l.Name)).Sorted (fun a b => a ≤ b) := List.pairwise_map.2 hs
  have hrem : n.RemoveNodeLink d = n.filter (fun l => !decide (l.Name = d)) := by
    simp only [ProtoNode.RemoveNodeLink]
    congr 1
    funext l
    simp
  have hone : (n.filter (fun l => l.Name = d)).map (fun l => l.Name) = [d] := by
    obtain ⟨x, hx⟩ := List.length_eq_one.1 h1
    have hmem : x ∈ n.filter (fun l => l.Name = d) := by rw [hx]; exact List.mem_singleton_self x
    have hname : x.Name = d := by simpa using (List.mem_filter.1 hmem).2
    rw [hx, List.map_singleton, hname]
  have hperm : ((n.UpdateNodeLink d c).map (fun l => l.Name)).Perm (n.map (fun l => l.Name)) := by
    have p1 : (n.UpdateNodeLink d c).Perm (n.RemoveNodeLink d ++ [⟨d, c⟩]) :=
      List.perm_insertionSort _ _
    have p2 : (n.filter (fun l => l.Name = d) ++ n.filter (fun l => !decide (l.Name = d))).Perm n :=
      List.filter_append_perm _ n
    have p3 := (p1.map (fun l => l.Name))
    rw [List.map_append, List.map_singleton, hrem] at p3
    have p4 := (p2.map (fun l => l.Name))
    rw [List.map_append, hone] at p4
    exact p3.trans (List.perm_append_comm.trans p4)
  exact List.eq_of_perm_of_sorted hperm hA hB

/-- C11, counterexample: with the files `/in/b/f1`, `/in/a/f2`, `/in/b/f3` placed
below `/in`, the root directory is given the link `b` first and the link `a`
second, and the node produced lists `a` before `b`: not the order of first
addition.  So it is for the files of `genCarWithUuidDemo`: `test0` and `test4` are
linked to `/test/input` before `dir1`, and the node lists `dir1` first. -/
theorem buildIpldGraph_links_not_in_first_order :
    relinkFiles.map (fun f => dirListOf "/in" f.Path) = [["b"], ["a"], ["b"]] ∧
      linkNamesAt (buildIpldGraph sampleNodes relinkFiles "/in") rootKey = some ["a", "b"] ∧
      linkNamesAt (buildIpldGraph sampleNodes (relinkFiles.take 2) "/in") rootKey
        = some ["a", "b"] ∧
      demoFiles.map (fun f => (dirListOf "/" f.Path).drop 2)
        = [[], [], ["dir1"], ["dir1", "dir2"], ["dir1", "dir2"]] ∧
      linkNamesAt (buildGraph sampleNodes demoFiles) "test.input"
        = some ["dir1", "test0-uuid-94d6a0d0-3e76-45b7-9705-4d829e0e3ca8",
            "test4-uuid-571e4e2b-d50b-4ac2-a89f-07795b684148"] := by
  decide

/-- C11, amended: in every directory node produced by directory materialization
(`buildIpldGraph`, and `buildGraph`, which is the same loop below `/`) the links
appear in ascending order of their names, whatever the order in which the names
were added; re-linking a sub-directory that the node links once (`UpdateNodeLink`)
leaves every name of the node, that of the sub-directory included, at its
position. -/
theorem buildIpldGraph_links_sorted (fileNodeMap : String → Option Cid) (fileList : List Finfo)
    (parentPath : String) (m : DirNodeMap)
    (hrun : buildIpldGraph fileNodeMap fileList parentPath = .ok m) :
    ∀ key n, m key = some n →
      n.Pairwise (fun a b => a.Name ≤ b.Name) ∧
      ∀ (d : String) (c : Cid), (n.filter (fun l => l.Name = d)).length = 1 →
        (n.UpdateNodeLink d c).map (fun l => l.Name) = n.map (fun l => l.Name) := by
  have hsorted : NodesSorted m := by
    unfold buildIpldGraph at hrun
    cases hpl : placeFiles fileNodeMap fileList ⟨parentPath, DirNodeMap.init⟩ with
    | error e => rw [hpl] at hrun; cases hrun
    | ok st =>
      rw [hpl] at hrun
      cases hrun
      exact placeFiles_sorted fileNodeMap fileList _ st init_sorted hpl
  intro key n hn
  exact ⟨hsorted key n hn, fun d c h1 => UpdateNodeLink_names n (hsorted key n hn) d c h1⟩

theorem buildIpldGraph_links_sorted_witness :
    buildIpldGraph sampleNodes relinkFiles "/in" = .ok relinkMap ∧
      ∀ key n, relinkMap key = some n →
        n.Pairwise (fun a b => a.Name ≤ b.Name) ∧
        ∀ (d : String) (c : Cid), (n.filter (fun l => l.Name = d)).length = 1 →
          (n.UpdateNodeLink d c).map (fun l => l.Name) = n.map (fun l => l.Name) :=
  ⟨rfl, buildIpldGraph_links_sorted sampleNodes relinkFiles "/in" relinkMap rfl⟩

/-! ## Theorems: a negative slice size, and the parent path as a string prefix -/

/-- With a negative slice size the carving loop, once entered, does not end within
any budget: each window ends before the previous one. -/
theorem carveLoop_diverges {sliceSize : Int} (g : String) (n : Int) (item : Finfo)
    (fileSize : Int) (hs : sliceSize < 0) :
    ∀ (fuel : Nat) (seekEnd : Int) (c : Nat) (st : PlanState), seekEnd < fileSize - 1 →
      carveLoop sliceSize g n item fileSize fuel seekEnd c st = none := by
  intro fuel
  induction fuel with
  | zero =>
    intro seekEnd c st hlt
    simp only [carveLoop, if_pos hlt]
  | succ fuel ih =>
    intro seekEnd c st hlt
    have hclip : ¬ seekEnd + 1 + sliceSize - 1 ≥ fileSize - 1 := by omega
    rw [carveLoop]
    simp only [if_pos hlt, if_neg hclip]
    exact ih _ _ _ (by omega)

/-- With a negative slice size, a file that does not fit (`cumuSize+fileSize >
sliceSize`) sends the planner into a carving loop that does not end. -/
theorem planFile_diverges {sliceSize : Int} (g : String) (n : Int) (fuel : Nat)
    (st : PlanState) (item : Finfo) (hs : sliceSize < 0)
    (hfit : st.cumuSize + item.Info.size > sliceSize) :
    planFile fuel sliceSize g n st item = none := by
  have h1 : ¬ st.cumuSize + item.Info.size < sliceSize := by omega
  have h2 : ¬ st.cumuSize + item.Info.size = sliceSize := by omega
  simp only [planFile, if_neg h1, if_neg h2, if_pos hfit]
  exact carveLoop_diverges g n item item.Info.size hs fuel _ _ _ (by omega)

/-- C22: the slice size `-1` passes the validation of `doGenerateCar`, and for a
file of 2 bytes the window-carving loop is still running after 3 passes, with
`int64` arithmetic as with exact arithmetic, so more than
`ceil(2 / |-1|) + 1 = 3` windows are produced; with exact arithmetic the loop
does not end within any budget of passes. -/
theorem carveLoop_negative_sliceSize :
    (¬ ∃ msg, doGenerateCar 3 (-1) "g" 1 twoByteFile = some (.error msg)) ∧
      splitFile64 3 (-1) "g" (GetGraphCount (twoByteFile.map (fun f => f.Info.size)) (-1))
          { cumuSize := 0, graphSliceCount := 0, graphFiles := [], calls := [] }
          (mkFile "/in/a" "a" 2) = none ∧
      ∀ fuel : Nat, doGenerateCar fuel (-1) "g" 1 twoByteFile = none := by
  have hall : ∀ fuel : Nat, doGenerateCar fuel (-1) "g" 1 twoByteFile = none := by
    intro fuel
    have hcount : GetGraphCount (twoByteFile.map (fun f => f.Info.size)) (-1) = -1 := by decide
    have hplan : planFiles fuel (-1) "g" (-1) twoByteFile
        { cumuSize := 0, graphSliceCount := 0, graphFiles := [], calls := [] } = none := by
      simp only [twoByteFile, planFiles]
      rw [planFile_diverges "g" (-1) fuel _ (mkFile "/in/a" "a" 2) (by decide) (by decide)]
    simp only [doGenerateCar, hcount, hplan]
    decide
  refine ⟨?_, by decide, hall⟩
  rintro ⟨msg, h⟩
  rw [hall 3] at h
  cases h

/-- C21: for the file `/input/x/f` and the parent path `/in`, which is not an
ancestor directory of the file, directory materialization computes the directory
names `put`, `x`: the component `input` of the directory `/input/x` is cut to
`put`, and the root directory gets a link named `put`. -/
theorem dirListOf_truncates_component :
    pathDir "/input/x/f" = "/input/x" ∧
      splitSlash "input/x" = ["input", "x"] ∧
      dirListOf (pathClean "/in") "/input/x/f" = ["put", "x"] ∧
      linkNamesAt (buildIpldGraph sampleNodes inputFile "/in") rootKey = some ["put"] := by
  decide

/-! ## Theorems: the planner on int64 -/

theorem wrap64_eq {x : Int} (h1 : -9223372036854775808 ≤ x) (h2 : x < 9223372036854775808) :
    wrap64 x = x := by
  unfold wrap64
  omega

theorem foldl_wrap64_eq : ∀ (sizes : List Int) (acc : Int), 0 ≤ acc → (∀ s ∈ sizes, 0 ≤ s) →
    acc + sizes.sum < 9223372036854775808 →
    sizes.foldl (fun a s => wrap64 (a + s)) acc = sizes.foldl (fun a s => a + s) acc
  | [], _, _, _, _ => rfl
  | s :: rest, acc, h0, hsz, hb => by
    have hs0 : 0 ≤ s := hsz s (List.mem_cons_self _ _)
    have hr0 : 0 ≤ rest.sum := List.sum_nonneg (fun x hx => hsz x (List.mem_cons_of_mem _ hx))
    rw [List.sum_cons] at hb
    rw [List.foldl_cons, List.foldl_cons, wrap64_eq (by omega) (by omega)]
    exact foldl_wrap64_eq rest (acc + s) (by omega)
      (fun x hx => hsz x (List.mem_cons_of_mem _ hx)) (by omega)

theorem GetGraphCount64_eq {sizes : List Int} {sliceSize : Int} (hs : 0 < sliceSize)
    (hsz : ∀ s ∈ sizes, 0 ≤ s) (hb : sizes.sum + sliceSize < 9223372036854775808) :
    GetGraphCount64 sizes sliceSize = GetGraphCount sizes sliceSize := by
  have h0 : 0 ≤ sizes.sum := List.sum_nonneg hsz
  have hfold := foldl_wrap64_eq sizes 0 (le_refl _) hsz (by omega)
  have hsum : sizes.foldl (fun a s => a + s) 0 = sizes.sum := (List.sum_eq_foldl).symm
  have hdiv0 : 0 ≤ Int.tdiv sizes.sum sliceSize := Int.tdiv_nonneg h0 (le_of_lt hs)
  have hdiv1 : Int.tdiv sizes.sum sliceSize ≤ sizes.sum := by
    rw [Int.tdiv_eq_ediv h0 (le_of_lt hs)]
    exact Int.ediv_le_self _ h0
  simp only [GetGraphCount64, GetGraphCount, hfold, hsum]
  split
  · rfl
  · rw [wrap64_eq (x := Int.tdiv sizes.sum sliceSize) (by omega) (by omega),
      wrap64_eq (by omega) (by omega)]

/-- One pass of the carving loop, in exact and in `int64` arithmetic, when no sum
leaves the `int64` range: both go on from the same window end and state. -/
theorem carve_pass {sliceSize : Int} (g : String) (n : Int) (item : Finfo) (fileSize : Int)
    (hs : 0 < sliceSize) (hb : fileSize + sliceSize < 9223372036854775808)
    (fuel : Nat) (seekEnd : Int) (c : Nat) (st : PlanState)
    (hlo : -1 ≤ seekEnd) (hlt : seekEnd < fileSize - 1) (hc0 : 0 ≤ st.cumuSize)
    (hc1 : st.cumuSize + (fileSize - 1 - seekEnd) ≤ fileSize) :
    ∃ e2 st2, carveLoop sliceSize g n item fileSize (fuel + 1) seekEnd c st
          = carveLoop sliceSize g n item fileSize fuel e2 (c + 1) st2 ∧
        carveRun64 sliceSize g n item fileSize (fuel + 1) seekEnd c st
          = carveRun64 sliceSize g n item fileSize fuel e2 (c + 1) st2 ∧
        seekEnd < e2 ∧ e2 ≤ fileSize - 1 ∧ 0 ≤ st2.cumuSize ∧
        st2.cumuSize + (fileSize - 1 - e2) ≤ fileSize := by
  have w1 : wrap64 (fileSize - 1) = fileSize - 1 := wrap64_eq (by omega) (by omega)
  have w2 : wrap64 (seekEnd + 1) = seekEnd + 1 := wrap64_eq (by omega) (by omega)
  have w3 : wrap64 (seekEnd + 1 + sliceSize) = seekEnd + 1 + sliceSize :=
    wrap64_eq (by omega) (by omega)
  have w4 : wrap64 (seekEnd + 1 + sliceSize - 1) = seekEnd + 1 + sliceSize - 1 :=
    wrap64_eq (by omega) (by omega)
  have w5 : wrap64 (sliceSize - 1) = sliceSize - 1 := wrap64_eq (by omega) (by omega)
  by_cases hclip : seekEnd + 1 + sliceSize - 1 ≥ fileSize - 1
  · have w6 : wrap64 (fileSize - 1 - (seekEnd + 1)) = fileSize - 1 - (seekEnd + 1) :=
      wrap64_eq (by omega) (by omega)
    have w7 : wrap64 (fileSize - 1 - (seekEnd + 1) + 1) = fileSize - 1 - (seekEnd + 1) + 1 :=
      wrap64_eq (by omega) (by omega)
    have w8 : wrap64 (st.cumuSize + (fileSize - 1 - (seekEnd + 1) + 1))
        = st.cumuSize + (fileSize - 1 - (seekEnd + 1) + 1) := wrap64_eq (by omega) (by omega)
    refine ⟨fileSize - 1,
      if fileSize - 1 - (seekEnd + 1) = sliceSize - 1 then
        ({ st with
            cumuSize := st.cumuSize + (fileSize - 1 - (seekEnd + 1) + 1)
            graphFiles := st.graphFiles ++ [Entry.window item c (seekEnd + 1) (fileSize - 1)] }
          : PlanState).build g n
      else
        { st with
            cumuSize := st.cumuSize + (fileSize - 1 - (seekEnd + 1) + 1)
            graphFiles := st.graphFiles ++ [Entry.window item c (seekEnd + 1) (fileSize - 1)] },
      ?_, ?_, hlt, le_refl _, ?_, ?_⟩
    · rw [carveLoop]
      simp only [if_pos hlt, if_pos hclip]
    · rw [carveRun64]
      simp only [w1, w2, w3, w4, w5, if_pos hlt, if_pos hclip, w6, w7, w8]
    · split
      · exact le_refl _
      · show 0 ≤ st.cumuSize + (fileSize - 1 - (seekEnd + 1) + 1)
        omega
    · split
      · show (0 : Int) + (fileSize - 1 - (fileSize - 1)) ≤ fileSize
        omega
      · show st.cumuSize + (fileSize - 1 - (seekEnd + 1) + 1) + (fileSize - 1 - (fileSize - 1))
          ≤ fileSize
        omega
  · have w6 : wrap64 (seekEnd + 1 + sliceSize - 1 - (seekEnd + 1))
        = seekEnd + 1 + sliceSize - 1 - (seekEnd + 1) := wrap64_eq (by omega) (by omega)
    have w7 : wrap64 (seekEnd + 1 + sliceSize - 1 - (seekEnd + 1) + 1)
        = seekEnd + 1 + sliceSize - 1 - (seekEnd + 1) + 1 := wrap64_eq (by omega) (by omega)
    have w8 : wrap64 (st.cumuSize + (seekEnd + 1 + sliceSize - 1 - (seekEnd + 1) + 1))
        = st.cumuSize + (seekEnd + 1 + sliceSize - 1 - (seekEnd + 1) + 1) :=
      wrap64_eq (by omega) (by omega)
    refine ⟨seekEnd + 1 + sliceSize - 1,
      if seekEnd + 1 + sliceSize - 1 - (seekEnd + 1) = sliceSize - 1 then
        ({ st with
            cumuSize := st.cumuSize + (seekEnd + 1 + sliceSize - 1 - (seekEnd + 1) + 1)
            graphFiles := st.graphFiles ++
              [Entry.window item c (seekEnd + 1) (seekEnd + 1 + sliceSize - 1)] }
          : PlanState).build g n
      else
        { st with
            cumuSize := st.cumuSize + (seekEnd + 1 + sliceSize - 1 - (seekEnd + 1) + 1)
            graphFiles := st.graphFiles ++
              [Entry.window item c (seekEnd + 1) (seekEnd + 1 + sliceSize - 1)] },
      ?_, ?_, by omega, by omega, ?_, ?_⟩
    · rw [carveLoop]
      simp only [if_pos hlt, if_neg hclip]
    · rw [carveRun64]
      simp only [w1, w2, w3, w4, w5, if_pos hlt, if_neg hclip, w6, w7, w8]
    · have hfull : seekEnd + 1 + sliceSize - 1 - (seekEnd + 1) = sliceSize - 1 := by omega
      rw [if_pos hfull]
      exact le_refl _
    · have hfull : seekEnd + 1 + sliceSize - 1 - (seekEnd + 1) = sliceSize - 1 := by omega
      rw [if_pos hfull]
      show (0 : Int) + (fileSize - 1 - (seekEnd + 1 + sliceSize - 1)) ≤ fileSize
      omega

/-- The carving loop on `int64` does what the loop in exact arithmetic does, when
no sum leaves the `int64` range. -/
theorem carveRun64_eq {sliceSize : Int} (g : String) (n : Int) (item : Finfo) (fileSize : Int)
    (hs : 0 < sliceSize) (hb : fileSize + sliceSize < 9223372036854775808) :
    ∀ (fuel : Nat) (seekEnd : Int) (c : Nat) (st st1 : PlanState),
      -1 ≤ seekEnd → seekEnd ≤ fileSize - 1 → 0 ≤ st.cumuSize →
      st.cumuSize + (fileSize - 1 - seekEnd) ≤ fileSize →
      carveLoop sliceSize g n item fileSize fuel seekEnd c st = some st1 →
      carveRun64 sliceSize g n item fileSize fuel seekEnd c st = ⟨st1, true⟩ := by
  intro fuel
  induction fuel with
  | zero =>
    intro seekEnd c st st1 hlo hhi _ _ hrun
    have w1 : wrap64 (fileSize - 1) = fileSize - 1 := wrap64_eq (by omega) (by omega)
    by_cases hlt : seekEnd < fileSize - 1
    · simp only [carveLoop, if_pos hlt] at hrun
      cases hrun
    · simp only [carveLoop, if_neg hlt, Option.some.injEq] at hrun
      subst hrun
      simp only [carveRun64, w1, hlt, decide_False, Bool.not_false]
  | succ fuel ih =>
    intro seekEnd c st st1 hlo hhi hc0 hc1 hrun
    by_cases hlt : seekEnd < fileSize - 1
    · obtain ⟨e2, st2, h1, h2, h3, h4, h5, h6⟩ :=
        carve_pass g n item fileSize hs hb fuel seekEnd c st hlo hlt hc0 hc1
      rw [h1] at hrun
      rw [h2]
      exact ih e2 (c + 1) st2 st1 (by omega) h4 h5 h6 hrun
    · have w1 : wrap64 (fileSize - 1) = fileSize - 1 := wrap64_eq (by omega) (by omega)
      rw [carveLoop] at hrun
      simp only [if_neg hlt, Option.some.injEq] at hrun
      subst hrun
      rw [carveRun64]
      simp only [w1, if_neg hlt]

theorem planFile64_eq {sliceSize : Int} (g : String) (n : Int) (hs : 0 < sliceSize) (fuel : Nat)
    (st st1 : PlanState) (item : Finfo) (hsz : 0 ≤ item.Info.size)
    (hb : item.Info.size + sliceSize < 9223372036854775808)
    (hc0 : 0 ≤ st.cumuSize) (hc1 : st.cumuSize < sliceSize)
    (hrun : planFile fuel sliceSize g n st item = some st1) :
    planFile64 fuel sliceSize g n st item = ⟨st1, true⟩ := by
  have w1 : wrap64 (st.cumuSize + item.Info.size) = st.cumuSize + item.Info.size :=
    wrap64_eq (by omega) (by omega)
  unfold planFile at hrun
  unfold planFile64
  by_cases h1 : st.cumuSize + item.Info.size < sliceSize
  · simp only [if_pos h1, Option.some.injEq] at hrun
    subst hrun
    simp only [w1, if_pos h1]
  · by_cases h2 : st.cumuSize + item.Info.size = sliceSize
    · simp only [if_neg h1, if_pos h2, Option.some.injEq] at hrun
      subst hrun
      simp only [w1, if_neg h1, if_pos h2]
    · by_cases h3 : st.cumuSize + item.Info.size > sliceSize
      · have w2 : wrap64 (sliceSize - st.cumuSize) = sliceSize - st.cumuSize :=
          wrap64_eq (by omega) (by omega)
        have w3 : wrap64 (0 + (sliceSize - st.cumuSize)) = 0 + (sliceSize - st.cumuSize) :=
          wrap64_eq (by omega) (by omega)
        have w4 : wrap64 (0 + (sliceSize - st.cumuSize) - 1) = 0 + (sliceSize - st.cumuSize) - 1 :=
          wrap64_eq (by omega) (by omega)
        simp only [if_neg h1, if_neg h2, if_pos h3] at hrun
        simp only [w1, if_neg h1, if_neg h2, if_pos h3, w2, w3, w4]
        refine carveRun64_eq g n item item.Info.size hs hb fuel _ _ _ st1 (by omega) (by omega)
          (le_refl _) ?_ hrun
        show (0 : Int) + (item.Info.size - 1 - (0 + (sliceSize - st.cumuSize) - 1))
          ≤ item.Info.size
        omega
      · omega

theorem planFiles64_eq {sliceSize : Int} (g : String) (n : Int) (hs : 0 < sliceSize)
    (fuel : Nat) :
    ∀ (files : List Finfo) (st st1 : PlanState),
      (∀ f ∈ files, 0 ≤ f.Info.size) → (∀ f ∈ files, f.Info.size ≤ fuel) →
      (∀ f ∈ files, f.Info.size + sliceSize < 9223372036854775808) →
      PlanOK sliceSize g n st →
      planFiles fuel sliceSize g n files st = some st1 →
      planFiles64 fuel sliceSize g n files st = ⟨st1, true⟩ := by
  intro files
  induction files with
  | nil =>
    intro st st1 _ _ _ _ hrun
    simp only [planFiles, Option.some.injEq] at hrun
    subst hrun
    rfl
  | cons item rest ih =>
    intro st st1 hsz hfuel hb hok hrun
    obtain ⟨st2, _, hstep, hok2, _, _⟩ :=
      planFile_spec (g := g) (n := n) hs fuel st item (hsz item (List.mem_cons_self _ _))
        (hfuel item (List.mem_cons_self _ _)) hok
    rw [planFiles, hstep] at hrun
    have h64 := planFile64_eq g n hs fuel st st2 item (hsz item (List.mem_cons_self _ _))
      (hb item (List.mem_cons_self _ _)) hok.cumu_nonneg hok.cumu_lt hstep
    rw [planFiles64]
    simp only [h64, if_true]
    exact ih st2 st1 (fun f hf => hsz f (List.mem_cons_of_mem _ hf))
      (fun f hf => hfuel f (List.mem_cons_of_mem _ hf))
      (fun f hf => hb f (List.mem_cons_of_mem _ hf)) hok2 hrun

/-- `doGenerateCar` on `int64` makes the calls of `doGenerateCar` in exact
arithmetic and returns `nil` as it does, when the slice size is positive and the
total size of the files plus the slice size is below `2^63`. -/
theorem doGenerateCar64_eq {sliceSize : Int} (g : String) {parallel : Int}
    (hs : 0 < sliceSize) (hp : 0 < parallel) (fuel : Nat) (files : List Finfo)
    (hsz : ∀ f ∈ files, 0 ≤ f.Info.size) (hfuel : ∀ f ∈ files, f.Info.size ≤ fuel)
    (hb : (files.map (fun f => f.Info.size)).sum + sliceSize < 9223372036854775808)
    (calls : List BuildCall)
    (hrun : doGenerateCar fuel sliceSize g parallel files = some (.done calls)) :
    doGenerateCar64 fuel sliceSize g parallel files = ⟨calls, .returned none⟩ := by
  have hs0 : ¬ sliceSize = 0 := by omega
  have hp0 : ¬ parallel ≤ 0 := by omega
  have hsz' : ∀ x ∈ files.map (fun f => f.Info.size), 0 ≤ x := by
    intro x hx
    obtain ⟨f, hf, rfl⟩ := List.mem_map.1 hx
    exact hsz f hf
  have hcount := GetGraphCount64_eq hs hsz' hb
  have hb1 : ∀ f ∈ files, f.Info.size + sliceSize < 9223372036854775808 := by
    intro f hf
    have := List.single_le_sum hsz' _ (List.mem_map.2 ⟨f, hf, rfl⟩)
    omega
  have h0 : PlanOK sliceSize g (GetGraphCount (files.map (fun f => f.Info.size)) sliceSize)
      { cumuSize := 0, graphSliceCount := 0, graphFiles := [], calls := [] } :=
    ⟨le_refl _, hs, rfl, fun c hc => (by cases hc), rfl, fun k hk => absurd hk (Nat.not_lt_zero k)⟩
  simp only [doGenerateCar, if_neg hs0, if_neg hp0] at hrun
  simp only [doGenerateCar64, if_neg hs0, if_neg hp0, hcount]
  by_cases htot : GetGraphCount (files.map (fun f => f.Info.size)) sliceSize = 0
  · simp only [htot, if_true, Option.some.injEq, Outcome.done.injEq] at hrun
    subst hrun
    simp only [htot, if_true]
  · simp only [if_neg htot] at hrun
    simp only [if_neg htot]
    cases hpl : planFiles fuel sliceSize g
        (GetGraphCount (files.map (fun f => f.Info.size)) sliceSize) files
        { cumuSize := 0, graphSliceCount := 0, graphFiles := [], calls := [] } with
    | none => rw [hpl] at hrun; cases hrun
    | some st =>
      rw [hpl] at hrun
      rw [planFiles64_eq g _ hs fuel files _ st hsz hfuel hb1 h0 hpl]
      simp only [if_true]
      simp only at hrun
      split at hrun
      · rename_i hpos
        rw [if_pos hpos]
        cases hrun
        rfl
      · rename_i hpos
        rw [if_neg hpos]
        cases hrun
        rfl

/-! ## Theorems: the index in a window name -/

theorem digitChar_spec (d : Nat) (h : d < 10) :
    (Nat.digitChar d).toNat - 48 = d ∧ (Nat.digitChar d).isDigit = true := by
  interval_cases d <;> exact ⟨rfl, rfl⟩

theorem toDigitsCore_append : ∀ (fuel n : Nat) (ds : List Char),
    Nat.toDigitsCore 10 fuel n ds = Nat.toDigitsCore 10 fuel n [] ++ ds
  | 0, _, ds => by simp [Nat.toDigitsCore]
  | fuel + 1, n, ds => by
    simp only [Nat.toDigitsCore]
    split
    · simp
    · rw [toDigitsCore_append fuel (n / 10) (Nat.digitChar (n % 10) :: ds),
        toDigitsCore_append fuel (n / 10) [Nat.digitChar (n % 10)]]
      simp

theorem decodeDec_append (xs ys : List Char) :
    decodeDec (xs ++ ys) = ys.foldl (fun acc ch => 10 * acc + (ch.toNat - 48)) (decodeDec xs) := by
  simp [decodeDec, List.foldl_append]

theorem decodeDec_toDigitsCore : ∀ (fuel n : Nat), n < fuel →
    decodeDec (Nat.toDigitsCore 10 fuel n []) = n
  | 0, _, h => absurd h (Nat.not_lt_zero _)
  | fuel + 1, n, h => by
    have hd := (digitChar_spec (n % 10) (Nat.mod_lt _ (by decide))).1
    simp only [Nat.toDigitsCore]
    split
    · rename_i h0
      simp only [decodeDec, List.foldl_cons, List.foldl_nil, hd]
      omega
    · rename_i h0
      rw [toDigitsCore_append, decodeDec_append,
        decodeDec_toDigitsCore fuel (n / 10) (by omega)]
      simp only [List.foldl_cons, List.foldl_nil, hd]
      omega

theorem isDigit_toDigitsCore : ∀ (fuel n : Nat) (ds : List Char),
    (∀ ch ∈ ds, ch.isDigit = true) → ∀ ch ∈ Nat.toDigitsCore 10 fuel n ds, ch.isDigit = true
  | 0, _, ds, h => by simpa [Nat.toDigitsCore] using h
  | fuel + 1, n, ds, h => by
    have hd := (digitChar_spec (n % 10) (Nat.mod_lt _ (by decide))).2
    have hcons : ∀ ch ∈ Nat.digitChar (n % 10) :: ds, ch.isDigit = true := by
      intro ch hch
      rcases List.mem_cons.1 hch with e | e
      · rw [e]; exact hd
      · exact h ch e
    simp only [Nat.toDigitsCore]
    split
    · exact hcons
    · exact isDigit_toDigitsCore fuel (n / 10) _ hcons

theorem pad8_data (k : Nat) :
    (pad8 k).data = List.replicate (8 - (Nat.repr k).length) '0' ++ Nat.toDigits 10 k := rfl

theorem decodeDec_zeros : ∀ (z : Nat), decodeDec (List.replicate z '0') = 0
  | 0 => rfl
  | z + 1 => by
    have h := decodeDec_zeros z
    simp only [decodeDec] at h ⊢
    rw [List.replicate_succ, List.foldl_cons]
    exact h

/-- The index in a window name: decimal digits that read back as the index, eight
of them for an index below `10^8`. -/
theorem pad8_spec (k : Nat) :
    decodeDec (pad8 k).data = k ∧ (∀ ch ∈ (pad8 k).data, ch.isDigit = true) ∧
      (k < 100000000 → (pad8 k).data.length = 8) := by
  refine ⟨?_, ?_, ?_⟩
  · rw [pad8_data, decodeDec_append, decodeDec_zeros]
    exact decodeDec_toDigitsCore (k + 1) k (Nat.lt_succ_self k)
  · intro ch hch
    rw [pad8_data] at hch
    rcases List.mem_append.1 hch with h | h
    · rw [(List.mem_replicate.1 h).2]
      rfl
    · exact isDigit_toDigitsCore (k + 1) k [] (fun _ h0 => by cases h0) ch h
  · intro hk
    have hlen := Nat.repr_length k 8 (by decide) hk
    have hrepr : (Nat.toDigits 10 k).length = (Nat.repr k).length := rfl
    rw [pad8_data, List.length_append, List.length_replicate, hrepr]
    omega

/-! ## Theorems: slices and their contents -/

/-- C1, counterexample: with slice size `2^63 - 1` and files of `2^63 - 2`,
`2^63 - 2` and 5 bytes, `cumuSize + fileSize` wraps around at the second file, all
three files are appended whole, and the final flush hands over one slice of
`2^64 + 1` bytes, more than the slice size. -/
theorem doGenerateCar64_slice_overflow :
    (0 : Int) < 9223372036854775807 ∧ (∀ f ∈ hugeFiles, 0 ≤ f.Info.size) ∧
      doGenerateCar64 0 9223372036854775807 "g" 1 hugeFiles
        = ⟨[⟨hugeFiles.map Entry.whole, "g.car"⟩], .returned none⟩ ∧
      sliceBytes (hugeFiles.map Entry.whole) = 18446744073709551617 ∧
      ¬ sliceBytes (hugeFiles.map Entry.whole) ≤ 9223372036854775807 := by
  decide

/-- C1, amended: for every slice size `> 0` and every sequence of files with
non-negative sizes whose total size plus the slice size is below `2^63`,
`doGenerateCar` returns, and each file list it hands to `BuildIpldGraph` has a
byte sum of at most `sliceSize`, a whole-file entry counting its file size and a
windowed entry `SeekEnd - SeekStart + 1`. -/
theorem doGenerateCar64_slice_le (fuel : Nat) (sliceSize : Int) (graphName : String)
    (parallel : Int) (files : List Finfo) (hs : 0 < sliceSize)
    (hsz : ∀ f ∈ files, 0 ≤ f.Info.size)
    (hb : (files.map (fun f => f.Info.size)).sum + sliceSize < 9223372036854775808)
    (hfuel : ∀ f ∈ files, f.Info.size ≤ fuel) :
    ∃ err, (doGenerateCar64 fuel sliceSize graphName parallel files).status = .returned err ∧
      ∀ c ∈ (doGenerateCar64 fuel sliceSize graphName parallel files).calls,
        sliceBytes c.graphFiles ≤ sliceSize := by
  by_cases hp : 0 < parallel
  · obtain ⟨calls, _, _, hrun, hle, _⟩ :=
      doGenerateCar_spec graphName hs hp fuel files hsz hfuel
    rw [doGenerateCar64_eq graphName hs hp fuel files hsz hfuel hb calls hrun]
    exact ⟨none, rfl, hle⟩
  · have hs0 : ¬ sliceSize = 0 := by omega
    have hp0 : parallel ≤ 0 := by omega
    simp only [doGenerateCar64, if_neg hs0, if_pos hp0]
    exact ⟨_, rfl, fun c hc => (by cases hc)⟩

theorem doGenerateCar64_slice_le_witness :
    (0 : Int) < 10 ∧ (∀ f ∈ sampleFiles, 0 ≤ f.Info.size) ∧
      (sampleFiles.map (fun f => f.Info.size)).sum + 10 < 9223372036854775808 ∧
      (∀ f ∈ sampleFiles, f.Info.size ≤ (25 : Nat)) ∧
      (∃ err, (doGenerateCar64 25 10 "g" 1 sampleFiles).status = .returned err ∧
        ∀ c ∈ (doGenerateCar64 25 10 "g" 1 sampleFiles).calls, sliceBytes c.graphFiles ≤ 10) ∧
      (doGenerateCar64 25 10 "g" 1 sampleFiles).calls.map (fun c => sliceBytes c.graphFiles)
        = [10, 10, 10, 4] :=
  ⟨by decide, by decide, by decide, by decide,
    doGenerateCar64_slice_le 25 10 "g" 1 sampleFiles (by decide) (by decide) (by decide)
      (by decide), by decide⟩

/-- C2, counterexample: with slice size 10, a file of 1 byte followed by a file of
`2^63 - 1` bytes makes `cumuSize + fileSize` wrap around to `-2^63`; the second
file is appended whole, the final test `cumuSize > 0` fails, and `doGenerateCar`
returns without emitting any slice, so the slices do not hold the bytes of the
files. -/
theorem doGenerateCar64_concat_overflow :
    doGenerateCar64 0 10 "g" 1 smallThenHuge = ⟨[], .returned none⟩ ∧
      ∀ disk : String → List UInt8,
        (∀ f ∈ smallThenHuge, f.Info.size = (disk f.Path).length) →
        (doGenerateCar64 0 10 "g" 1 smallThenHuge).calls.flatMap
            (fun c => c.graphFiles.flatMap (Entry.content disk))
          ≠ smallThenHuge.flatMap (fun f => disk f.Path) := by
  have hrun : doGenerateCar64 0 10 "g" 1 smallThenHuge = ⟨[], .returned none⟩ := by decide
  refine ⟨hrun, ?_⟩
  intro disk hlen heq
  rw [hrun] at heq
  have h1 : ((1 : Int)) = ((disk "/in/a").length : Int) :=
    hlen (mkFile "/in/a" "a" 1) (by decide)
  have hlen2 := congrArg List.length heq
  simp only [smallThenHuge, mkFile, List.flatMap_cons, List.flatMap_nil, List.length_nil,
    List.length_append, List.append_nil] at hlen2
  omega

/-- C2, amended: for every slice size `> 0`, parallelism `> 0` and every sequence
of files whose total size plus the slice size is below `2^63`, `doGenerateCar`
returns `nil`, and the contents of the slices it emits, concatenated in emission
order and in entry order within a slice, are the contents of the enumerated files
concatenated in enumeration order. -/
theorem doGenerateCar64_concat (disk : String → List UInt8) (fuel : Nat) (sliceSize : Int)
    (graphName : String) (parallel : Int) (files : List Finfo) (hs : 0 < sliceSize)
    (hp : 0 < parallel) (hlen : ∀ f ∈ files, f.Info.size = (disk f.Path).length)
    (hb : (files.map (fun f => f.Info.size)).sum + sliceSize < 9223372036854775808)
    (hfuel : ∀ f ∈ files, f.Info.size ≤ fuel) :
    ∃ calls, doGenerateCar64 fuel sliceSize graphName parallel files = ⟨calls, .returned none⟩ ∧
      calls.flatMap (fun c => c.graphFiles.flatMap (Entry.content disk))
        = files.flatMap (fun f => disk f.Path) := by
  have hsz : ∀ f ∈ files, 0 ≤ f.Info.size := by
    intro f hf
    rw [hlen f hf]
    exact Int.natCast_nonneg _
  obtain ⟨calls, pcs, rest, hrun, _, hpcs, hflat, hrest, _⟩ :=
    doGenerateCar_spec graphName hs hp fuel files hsz hfuel
  obtain ⟨hcat, hlens⟩ := forall₂_pieces_content hlen hpcs
  refine ⟨calls, doGenerateCar64_eq graphName hs hp fuel files hsz hfuel hb calls hrun, ?_⟩
  have hrest0 : rest.flatMap (Entry.content disk) = [] := by
    apply content_nil_of_sliceBytes rest _ hrest
    intro e he
    apply hlens e
    rw [← hflat]
    exact List.mem_append_right _ he
  rw [← hcat, ← hflat, List.flatMap_append, hrest0, List.append_nil]
  simp only [List.flatMap_def, List.map_flatten, List.flatten_flatten, List.map_map]
  rfl

theorem doGenerateCar64_concat_witness :
    (0 : Int) < 10 ∧ (0 : Int) < 1 ∧
      (∀ f ∈ sampleFiles, f.Info.size = (sampleDisk f.Path).length) ∧
      (sampleFiles.map (fun f => f.Info.size)).sum + 10 < 9223372036854775808 ∧
      (∀ f ∈ sampleFiles, f.Info.size ≤ (25 : Nat)) ∧
      ∃ calls, doGenerateCar64 25 10 "g" 1 sampleFiles = ⟨calls, .returned none⟩ ∧
        calls.flatMap (fun c => c.graphFiles.flatMap (Entry.content sampleDisk))
          = sampleFiles.flatMap (fun f => sampleDisk f.Path) :=
  ⟨by decide, by decide, by decide, by decide, by decide,
    doGenerateCar64_concat sampleDisk 25 10 "g" 1 sampleFiles (by decide) (by decide)
      (by decide) (by decide) (by decide)⟩

/-! ## Theorems: windows and their names on int64 -/

/-- C8, counterexample: with slice size `3 * 2^61`, one file of `2^63 - 1` bytes
is carved into four windows; the end of the second one, `seekStart + sliceSize - 1`,
wraps around, so that window is `[3 * 2^61, -2^62 - 1]`, with `SeekEnd <
SeekStart`, and the third one starts at `-2^62`, below 0. -/
theorem doGenerateCar64_window_overflow :
    (0 : Int) < 6917529027641081856 ∧
      doGenerateCar64 3 6917529027641081856 "g" 1 oneHugeFile
        = ⟨[⟨[Entry.window (mkFile "/in/a" "a" 9223372036854775807) 0 0 6917529027641081855],
              "g-total-2-part-1.car"⟩,
            ⟨[Entry.window (mkFile "/in/a" "a" 9223372036854775807) 1 6917529027641081856
                (-4611686018427387905)], "g-total-2-part-2.car"⟩,
            ⟨[Entry.window (mkFile "/in/a" "a" 9223372036854775807) 2 (-4611686018427387904)
                2305843009213693951], "g-total-2-part-3.car"⟩,
            ⟨[Entry.window (mkFile "/in/a" "a" 9223372036854775807) 3 2305843009213693952
                9223372036854775806], "g-total-2-part-4.car"⟩], .returned none⟩ := by
  decide

/-- C8, amended: for every slice size `> 0` and files of non-negative size whose
total size plus the slice size is below `2^63`, `doGenerateCar` returns, every
windowed entry it hands over for a file of size `size` satisfies
`0 ≤ SeekStart ≤ SeekEnd ≤ size - 1`, and the entries handed over (followed by the
whole-file entries `rest` still pending at return) split, file by file in
enumeration order, into the file itself or a chain of adjacent windows of the
file: the first starts at 0, each next one starts at the previous `SeekEnd + 1`,
and the last ends at `size - 1`. -/
theorem doGenerateCar64_windows (fuel : Nat) (sliceSize : Int) (graphName : String)
    (parallel : Int) (files : List Finfo) (hs : 0 < sliceSize)
    (hsz : ∀ f ∈ files, 0 ≤ f.Info.size)
    (hb : (files.map (fun f => f.Info.size)).sum + sliceSize < 9223372036854775808)
    (hfuel : ∀ f ∈ files, f.Info.size ≤ fuel) :
    ∃ calls pcs rest err,
      doGenerateCar64 fuel sliceSize graphName parallel files = ⟨calls, .returned err⟩ ∧
      (∀ c ∈ calls, ∀ e ∈ c.graphFiles, ∀ item k s t, e = Entry.window item k s t →
        0 ≤ s ∧ s ≤ t ∧ t ≤ item.Info.size - 1) ∧
      List.Forall₂ Pieces files pcs ∧
      calls.flatMap (fun c => c.graphFiles) ++ rest = pcs.flatten ∧
      ∀ e ∈ rest, e.isWindow = false := by
  by_cases hp : 0 < parallel
  · obtain ⟨calls, pcs, rest, hrun, _, hpcs, hflat, hrest, _⟩ :=
      doGenerateCar_spec graphName hs hp fuel files hsz hfuel
    have hwf := forall₂_pieces_wellFormed hpcs
    refine ⟨calls, pcs, rest, none,
      doGenerateCar64_eq graphName hs hp fuel files hsz hfuel hb calls hrun, ?_, hpcs, hflat,
      rest_whole hsz hpcs hflat hrest⟩
    intro c hc e he item k s t heq
    have hmem : e ∈ pcs.flatten := by
      rw [← hflat]
      exact List.mem_append_left _ (List.mem_flatMap.2 ⟨c, hc, he⟩)
    obtain ⟨item1, _, hwf1⟩ := hwf e hmem
    rcases hwf1 with hw | ⟨k1, s1, t1, hw, h0, h1, h2⟩
    · rw [hw] at heq
      cases heq
    · rw [hw] at heq
      cases heq
      exact ⟨h0, h1, h2⟩
  · have hs0 : ¬ sliceSize = 0 := by omega
    have hp0 : parallel ≤ 0 := by omega
    refine ⟨[], files.map (fun f => [Entry.whole f]), files.map Entry.whole,
      some "Unexpected! Parallel has to be greater than 0", ?_, fun c hc => (by cases hc),
      forall₂_pieces_whole files, ?_, ?_⟩
    · simp only [doGenerateCar64, if_neg hs0, if_pos hp0]
    · rw [flatten_map_whole]
      rfl
    · intro e he
      obtain ⟨f, _, rfl⟩ := List.mem_map.1 he
      rfl

theorem doGenerateCar64_windows_witness :
    (0 : Int) < 10 ∧ (∀ f ∈ sampleFiles, 0 ≤ f.Info.size) ∧
      (sampleFiles.map (fun f => f.Info.size)).sum + 10 < 9223372036854775808 ∧
      (∀ f ∈ sampleFiles, f.Info.size ≤ (25 : Nat)) ∧
      (∃ calls pcs rest err,
        doGenerateCar64 25 10 "g" 1 sampleFiles = ⟨calls, .returned err⟩ ∧
        (∀ c ∈ calls, ∀ e ∈ c.graphFiles, ∀ item k s t, e = Entry.window item k s t →
          0 ≤ s ∧ s ≤ t ∧ t ≤ item.Info.size - 1) ∧
        List.Forall₂ Pieces sampleFiles pcs ∧
        calls.flatMap (fun c => c.graphFiles) ++ rest = pcs.flatten ∧
        ∀ e ∈ rest, e.isWindow = false) ∧
      (doGenerateCar64 25 10 "g" 1 sampleFiles).calls.flatMap
          (fun c => c.graphFiles.map (fun e => (e.toFinfo.Path, e.toFinfo.SeekStart,
            e.toFinfo.SeekEnd)))
        = [("/in/a", 0, 0), ("/in/b", 0, 0), ("/in/b", 1, 10), ("/in/b", 11, 20),
           ("/in/b", 21, 24), ("/in/c", 0, 0)] :=
  ⟨by decide, by decide, by decide, by decide,
    doGenerateCar64_windows 25 10 "g" 1 sampleFiles (by decide) (by decide) (by decide)
      (by decide), by decide⟩

/-- C18, counterexample: with slice size `3 * 2^61`, the four windows of one file
of `2^63 - 1` bytes are named `a.00000000` to `a.00000003` in the order they are
carved, and they start at the bytes `0`, `3 * 2^61`, `-2^62` and `2^61`: taken in
increasing byte order their names are `a.00000002`, `a.00000000`, `a.00000003`,
`a.00000001`. -/
theorem doGenerateCar64_names_overflow :
    (doGenerateCar64 3 6917529027641081856 "g" 1 oneHugeFile).status = .returned none ∧
      (doGenerateCar64 3 6917529027641081856 "g" 1 oneHugeFile).calls.flatMap
          (fun c => c.graphFiles.map (fun e => (e.toFinfo.Name, e.toFinfo.SeekStart)))
        = [("a.00000000", 0), ("a.00000001", 6917529027641081856),
           ("a.00000002", -4611686018427387904), ("a.00000003", 2305843009213693952)] := by
  decide

/-- C18, amended: for every slice size `> 0` and files of non-negative size whose
total size plus the slice size is below `2^63`, the entries handed over split file
by file into the file itself or a chain of adjacent windows in increasing byte
order, and the `k`-th window of a split file (from 0) is built with index `k` and
named `<name>.` followed by `k` in the `%08d` format, the name `merge` opens as
piece `k` of `<name>`: the index starts at 0 for each split file and goes up by
one per window, whichever slices the windows land in.  The index is written in
decimal digits that read back as `k`, eight of them (filled up with zeros) for
`k < 10^8`; the first is `00000000`. -/
theorem doGenerateCar64_window_names (fuel : Nat) (sliceSize : Int) (graphName : String)
    (parallel : Int) (files : List Finfo) (hs : 0 < sliceSize)
    (hsz : ∀ f ∈ files, 0 ≤ f.Info.size)
    (hb : (files.map (fun f => f.Info.size)).sum + sliceSize < 9223372036854775808)
    (hfuel : ∀ f ∈ files, f.Info.size ≤ fuel) :
    (∃ calls pcs rest err,
      doGenerateCar64 fuel sliceSize graphName parallel files = ⟨calls, .returned err⟩ ∧
      calls.flatMap (fun c => c.graphFiles) ++ rest = pcs.flatten ∧
      (∀ e ∈ rest, e.isWindow = false) ∧
      List.Forall₂ Pieces files pcs ∧
      List.Forall₂ NumberedPieces files pcs) ∧
    (∀ (name : String) (k : Nat), chunkPath name k = name ++ "." ++ pad8 k) ∧
    (∀ k : Nat, decodeDec (pad8 k).data = k ∧ (∀ ch ∈ (pad8 k).data, ch.isDigit = true) ∧
      (k < 100000000 → (pad8 k).data.length = 8)) ∧
    pad8 0 = "00000000" ∧ pad8 1 = "00000001" := by
  refine ⟨?_, fun _ _ => rfl, pad8_spec, by decide, by decide⟩
  by_cases hp : 0 < parallel
  · obtain ⟨calls, pcs, rest, hrun, _, hpcs, hflat, hrest, _⟩ :=
      doGenerateCar_spec graphName hs hp fuel files hsz hfuel
    exact ⟨calls, pcs, rest, none,
      doGenerateCar64_eq graphName hs hp fuel files hsz hfuel hb calls hrun, hflat,
      rest_whole hsz hpcs hflat hrest, hpcs, forall₂_pieces_numbered hpcs⟩
  · have hs0 : ¬ sliceSize = 0 := by omega
    have hp0 : parallel ≤ 0 := by omega
    refine ⟨[], files.map (fun f => [Entry.whole f]), files.map Entry.whole,
      some "Unexpected! Parallel has to be greater than 0", ?_, ?_, ?_,
      forall₂_pieces_whole files, forall₂_pieces_numbered (forall₂_pieces_whole files)⟩
    · simp only [doGenerateCar64, if_neg hs0, if_pos hp0]
    · rw [flatten_map_whole]
      rfl
    · intro e he
      obtain ⟨f, _, rfl⟩ := List.mem_map.1 he
      rfl

theorem doGenerateCar64_window_names_witness :
    (0 : Int) < 10 ∧ (∀ f ∈ sampleFiles, 0 ≤ f.Info.size) ∧
      (sampleFiles.map (fun f => f.Info.size)).sum + 10 < 9223372036854775808 ∧
      (∀ f ∈ sampleFiles, f.Info.size ≤ (25 : Nat)) ∧
      ((∃ calls pcs rest err,
        doGenerateCar64 25 10 "g" 1 sampleFiles = ⟨calls, .returned err⟩ ∧
        calls.flatMap (fun c => c.graphFiles) ++ rest = pcs.flatten ∧
        (∀ e ∈ rest, e.isWindow = false) ∧
        List.Forall₂ Pieces sampleFiles pcs ∧
        List.Forall₂ NumberedPieces sampleFiles pcs) ∧
      (∀ (name : String) (k : Nat), chunkPath name k = name ++ "." ++ pad8 k) ∧
      (∀ k : Nat, decodeDec (pad8 k).data = k ∧ (∀ ch ∈ (pad8 k).data, ch.isDigit = true) ∧
        (k < 100000000 → (pad8 k).data.length = 8)) ∧
      pad8 0 = "00000000" ∧ pad8 1 = "00000001") ∧
      (doGenerateCar64 25 10 "g" 1 sampleFiles).calls.map
          (fun c => c.graphFiles.map (fun e => e.toFinfo.Name))
        = [["a", "b.00000000"], ["b.00000001"], ["b.00000002"], ["b.00000003", "c"]] :=
  ⟨by decide, by decide, by decide, by decide,
    doGenerateCar64_window_names 25 10 "g" 1 sampleFiles (by decide) (by decide) (by decide)
      (by decide), by decide⟩

/-! ## Theorems: one entry per path in a slice, on int64 -/

theorem pathsOK_mono {seen : List String} {st : PlanState} (h : PathsOK seen st) (p : String) :
    PathsOK (p :: seen) st :=
  ⟨h.1, h.2.1, fun x hx => List.mem_cons_of_mem _ (h.2.2 x hx)⟩

/-- An unclipped window spans `sliceSize` bytes on `int64` too. -/
theorem wrap64_full_window (seekStart sliceSize : Int) :
    wrap64 (wrap64 (wrap64 (seekStart + sliceSize) - 1) - seekStart) = wrap64 (sliceSize - 1) := by
  unfold wrap64
  omega

theorem carveRun64_paths (sliceSize : Int) (g : String) (sliceTotal : Int) (item : Finfo)
    (fileSize : Int) (seen : List String) :
    ∀ (fuel : Nat) (seekEnd : Int) (k : Nat) (st : PlanState),
      PathsOK (item.Path :: seen) st →
      (st.graphFiles = [] ∨ ¬ seekEnd < wrap64 (fileSize - 1)) →
      PathsOK (item.Path :: seen)
        (carveRun64 sliceSize g sliceTotal item fileSize fuel seekEnd k st).st
  | 0, _, _, _, hok, _ => hok
  | fuel + 1, seekEnd, k, st, hok, hinv => by
    rw [carveRun64]
    by_cases hc : seekEnd < wrap64 (fileSize - 1)
    · rw [if_pos hc]
      have hnil : st.graphFiles = [] := hinv.resolve_right (fun h => h hc)
      have hpush : ∀ (t cumu : Int), PathsOK (item.Path :: seen)
          { st with cumuSize := cumu,
                    graphFiles := st.graphFiles ++ [Entry.window item k (wrap64 (seekEnd + 1)) t] } := by
        intro t cumu
        refine ⟨hok.1, ?_, ?_⟩
        · show (slicePaths (st.graphFiles ++ [Entry.window item k (wrap64 (seekEnd + 1)) t])).Nodup
          rw [hnil]
          exact List.nodup_singleton _
        · intro x hx
          change x ∈ slicePaths (st.graphFiles ++ [Entry.window item k (wrap64 (seekEnd + 1)) t]) at hx
          rw [hnil] at hx
          rw [List.mem_singleton.1 hx]
          exact List.mem_cons_self _ _
      simp only
      refine carveRun64_paths sliceSize g sliceTotal item fileSize seen fuel _ _ _ ?_ ?_
      · split_ifs
        · exact pathsOK_build (hpush _ _) g sliceTotal
        · exact hpush _ _
        · exact pathsOK_build (hpush _ _) g sliceTotal
        · exact hpush _ _
      · split_ifs with h1 h2 h2
        · exact Or.inl rfl
        · exact Or.inr (lt_irrefl _)
        · exact Or.inl rfl
        · exact absurd (wrap64_full_window _ _) h2
    · rw [if_neg hc]
      exact hok

theorem planFile64_paths (fuel : Nat) (sliceSize : Int) (g : String) (sliceTotal : Int)
    (seen : List String) (st : PlanState) (item : Finfo) (hok : PathsOK seen st)
    (hnew : item.Path ∉ seen) :
    PathsOK (item.Path :: seen) (planFile64 fuel sliceSize g sliceTotal st item).st := by
  unfold planFile64
  simp only
  split_ifs
  · exact pathsOK_push hok (slicePaths_single_whole item) hnew _
  · exact pathsOK_build (pathsOK_push hok (slicePaths_single_whole item) hnew _) g sliceTotal
  · exact carveRun64_paths sliceSize g sliceTotal item _ seen fuel _ _ _
      (pathsOK_build (pathsOK_push hok (slicePaths_single_window item _ _ _) hnew st.cumuSize)
        g sliceTotal) (Or.inl rfl)
  · exact pathsOK_mono hok _

theorem planFiles64_paths (fuel : Nat) (sliceSize : Int) (g : String) (sliceTotal : Int) :
    ∀ (files : List Finfo) (seen : List String) (st : PlanState), PathsOK seen st →
      (files.map (fun f => f.Path)).Nodup → (∀ f ∈ files, f.Path ∉ seen) →
      ∃ seen1, PathsOK seen1 (planFiles64 fuel sliceSize g sliceTotal files st).st
  | [], seen, _, hok, _, _ => ⟨seen, hok⟩
  | item :: rest, seen, st, hok, hnd, hnew => by
    rw [planFiles64]
    have hnd1 := List.nodup_cons.1 hnd
    have h1 := planFile64_paths fuel sliceSize g sliceTotal seen st item hok
      (hnew item (List.mem_cons_self _ _))
    split_ifs
    · refine planFiles64_paths fuel sliceSize g sliceTotal rest (item.Path :: seen) _ h1 hnd1.2 ?_
      intro f hf hmem
      rcases List.mem_cons.1 hmem with h | h
      · exact hnd1.1 (List.mem_map.2 ⟨f, hf, h⟩)
      · exact hnew f (List.mem_cons_of_mem _ hf) h
    · exact ⟨_, h1⟩

theorem doGenerateCar64_paths (fuel : Nat) (sliceSize : Int) (g : String) (parallel : Int)
    (files : List Finfo) (hpaths : (files.map (fun f => f.Path)).Nodup) :
    ∀ c ∈ (doGenerateCar64 fuel sliceSize g parallel files).calls,
      (slicePaths c.graphFiles).Nodup := by
  have h0 : PathsOK [] { cumuSize := 0, graphSliceCount := 0, graphFiles := [], calls := [] } :=
    ⟨fun c hc => (by cases hc), List.nodup_nil, fun p hp => (by cases hp)⟩
  obtain ⟨seen1, hok⟩ := planFiles64_paths fuel sliceSize g
    (GetGraphCount64 (files.map (fun f => f.Info.size)) sliceSize) files [] _ h0 hpaths
    (fun f _ h => (by cases h))
  unfold doGenerateCar64
  simp only
  split_ifs
  · intro c hc
    cases hc
  · intro c hc
    cases hc
  · intro c hc
    cases hc
  · exact (pathsOK_build hok g _).1
  · exact hok.1
  · exact hok.1

theorem fileWorkers_other (BuildFileNode : Finfo → Option Cid) (p : String) :
    ∀ (files : List Finfo) (m : String → Option Cid), p ∉ files.map (fun f => f.Path) →
      fileWorkers BuildFileNode files m p = m p
  | [], _, _ => rfl
  | item :: rest, m, hp => by
    have hne : p ≠ item.Path := fun h => hp (h ▸ List.mem_cons_self _ _)
    have hrest : p ∉ rest.map (fun f => f.Path) := fun h => hp (List.mem_cons_of_mem _ h)
    rw [fileWorkers]
    cases BuildFileNode item with
    | none => exact fileWorkers_other BuildFileNode p rest m hrest
    | some fileNode =>
      show fileWorkers BuildFileNode rest _ p = m p
      rw [fileWorkers_other BuildFileNode p rest _ hrest, if_neg hne]

theorem fileWorkers_keeps (BuildFileNode : Finfo → Option Cid) :
    ∀ (files : List Finfo) (m : String → Option Cid), (files.map (fun f => f.Path)).Nodup →
      ∀ f ∈ files, ∀ node, BuildFileNode f = some node →
        fileWorkers BuildFileNode files m f.Path = some node
  | [], _, _, f, hf, _, _ => by cases hf
  | item :: rest, m, hnd, f, hf, node, hb => by
    have hnd1 := List.nodup_cons.1 hnd
    rw [fileWorkers]
    rcases List.mem_cons.1 hf with heq | hmem
    · subst heq
      rw [hb]
      show fileWorkers BuildFileNode rest _ f.Path = some node
      rw [fileWorkers_other BuildFileNode f.Path rest _ hnd1.1, if_pos rfl]
    · cases BuildFileNode item with
      | none => exact fileWorkers_keeps BuildFileNode rest m hnd1.2 f hmem node hb
      | some fileNode => exact fileWorkers_keeps BuildFileNode rest _ hnd1.2 f hmem node hb

/-- C19: for every slice size and files with pairwise distinct paths, every slice
`doGenerateCar` hands to `BuildIpldGraph`, on `int64` and however far the call
has come, holds at most one entry per path: the paths of its entries, the keys of
`fileNodeMap` in `buildIpldGraph`, are pairwise distinct, so each file node a
worker stores under `item.Path` is still there when all workers are done. -/
theorem doGenerateCar64_slice_paths_nodup (fuel : Nat) (sliceSize : Int) (graphName : String)
    (parallel : Int) (files : List Finfo)
    (hpaths : (files.map (fun f => f.Path)).Nodup) :
    ∀ c ∈ (doGenerateCar64 fuel sliceSize graphName parallel files).calls,
      (c.fileList.map (fun f => f.Path)).Nodup ∧
      ∀ (BuildFileNode : Finfo → Option Cid) (m : String → Option Cid),
        ∀ f ∈ c.fileList, ∀ node, BuildFileNode f = some node →
          fileWorkers BuildFileNode c.fileList m f.Path = some node := by
  intro c hc
  have hnd : (c.fileList.map (fun f => f.Path)).Nodup := by
    have := doGenerateCar64_paths fuel sliceSize graphName parallel files hpaths c hc
    simpa [BuildCall.fileList, slicePaths, List.map_map] using this
  exact ⟨hnd, fun B m => fileWorkers_keeps B c.fileList m hnd⟩

theorem doGenerateCar64_slice_paths_nodup_witness :
    (oneHugeFile.map (fun f => f.Path)).Nodup ∧
      (∀ c ∈ (doGenerateCar64 3 6917529027641081856 "g" 1 oneHugeFile).calls,
        (c.fileList.map (fun f => f.Path)).Nodup ∧
        ∀ (BuildFileNode : Finfo → Option Cid) (m : String → Option Cid),
          ∀ f ∈ c.fileList, ∀ node, BuildFileNode f = some node →
            fileWorkers BuildFileNode c.fileList m f.Path = some node) ∧
      (doGenerateCar64 3 6917529027641081856 "g" 1 oneHugeFile).calls.map
          (fun c => c.fileList.map (fun f => f.Path))
        = [["/in/a"], ["/in/a"], ["/in/a"], ["/in/a"]] ∧
      (doGenerateCar64 25 10 "g" 1 sampleFiles).calls.map
          (fun c => c.fileList.map (fun f => f.Path))
        = [["/in/a", "/in/b"], ["/in/b"], ["/in/b"], ["/in/b", "/in/c"]] :=
  ⟨by decide, doGenerateCar64_slice_paths_nodup 3 6917529027641081856 "g" 1 oneHugeFile
    (by decide), by decide, by decide⟩

/-! ## Theorems: the two carving loops on int64 -/

theorem carveLoop64_eq_run (sliceSize : Int) (g : String) (sliceTotal : Int) (item : Finfo)
    (fileSize : Int) :
    ∀ (fuel : Nat) (seekEnd : Int) (k : Nat) (st : PlanState),
      carveLoop64 sliceSize g sliceTotal item fileSize fuel seekEnd k st
        = if (carveRun64 sliceSize g sliceTotal item fileSize fuel seekEnd k st).ended then
            some (carveRun64 sliceSize g sliceTotal item fileSize fuel seekEnd k st).st
          else none
  | 0, seekEnd, _, st => by
    rw [carveLoop64, carveRun64]
    by_cases h : seekEnd < wrap64 (fileSize - 1) <;> simp [h]
  | fuel + 1, seekEnd, k, st => by
    rw [carveLoop64, carveRun64]
    by_cases h : seekEnd < wrap64 (fileSize - 1)
    · simp only [if_pos h]
      exact carveLoop64_eq_run sliceSize g sliceTotal item fileSize fuel _ _ _
    · simp only [if_neg h, if_true]

end Metalib
